import Mathlib

/-!
# simNGS: the dense matrix engine (`matrix.c`) and the read loop (`main.c`)

Shallow embedding of the C sources.

Modelling conventions

* `int`, `unsigned int` and `uint32_t` are 32 bits wide.  Unsigned arithmetic wraps
  (`u32`); a signed operation whose mathematical result does not fit is undefined
  behaviour in C and is a `Fault.intOverflow` here, except for the element count
  `nrow*ncol` of `new_MAT`, which wraps as it does in the compiled code (`eltCount`); a
  division or remainder by zero is a `Fault.divByZero`; `errx` is a `Fault.fatalExit`; an
  access outside a buffer is a `Fault.outOfBounds`.
* `real_t` is an abstract element type `α`: the matrix routines only move elements, or
  combine them with operations that are taken as given (`0`, `1`, `*`).
* A matrix value is the contents of the C struct together with the contents of the
  buffer `x` points to (`none` for a NULL buffer).  The struct declaration itself
  (`matrix.h`) is not part of the sources at hand.  A routine that updates its argument
  in place is a function from the state of the matrix before the call to its state after
  the call; a routine that allocates returns the new matrix as a value of its own.
* `malloc`/`calloc` succeed whenever the requested size is representable, also for a
  size of zero; `calloc` of a negative `int` count (an enormous `size_t`) fails and
  returns NULL.  `memmove` and `memcpy` of zero bytes do nothing, also at a NULL pointer.
* Pointer arguments are non-NULL.  The macro `validate(A, B)` (`utility.h`, not part of
  the sources at hand) returns `B` from the enclosing routine when `A` does not hold.
* The read loop of `main.c` takes the routines of the absent headers as a parameter
  (`Engine`), with `real_t` an arbitrary type `R`.  The summary stage (`phred`,
  `prop_upper`, `prop_lower`) is generic in `R` as well and is instantiated at the real
  numbers for the properties of the Wilson interval and at `Fl`, the floating-point
  values with infinities and not-a-number, for the run without reads.
* `deinterleave.c` is a loop over the buffers that `fgets` returns; files are lists of
  characters without NUL.
-/

namespace SimNGS

/-! ## Machine integers -/

/-- Wrap a natural number to an `unsigned int`. -/
def u32 (n : Nat) : Nat := n % 4294967296

/-- Conversion of an `int` to `unsigned int`. -/
def toU32 (z : Int) : Nat := (z % 4294967296).toNat

/-- Conversion of an `unsigned int` to `int` (two's complement). -/
def toI32 (n : Nat) : Int :=
  if n % 4294967296 < 2147483648 then ((n % 4294967296 : Nat) : Int)
  else ((n % 4294967296 : Nat) : Int) - 4294967296

/-- The values of type `int`. -/
def inInt (z : Int) : Prop := -2147483648 ≤ z ∧ z < 2147483648

instance (z : Int) : Decidable (inInt z) := by unfold inInt; infer_instance

/-! ## Outcomes of a run -/

/-- Abnormal ends of a run. -/
inductive Fault where
  | divByZero
  | outOfBounds
  | intOverflow
  | fatalExit
  deriving DecidableEq, Repr

/-- A routine run on a piece of mutable state either returns a value or stops at a
fault; in both cases the state reached is recorded. -/
inductive Outcome (σ ρ : Type) where
  | ret (value : ρ) (state : σ)
  | fault (why : Fault) (state : σ)
  deriving DecidableEq, Repr

/-- The pointer returned by an in-place routine: its argument, or NULL. -/
inductive Ret where
  | self
  | null
  deriving DecidableEq, Repr

/-- The loop `for (i = lo; i < lo + count; i++) body`, the state threaded through the
iterations; a fault in the body ends the loop. -/
def forLoop {σ : Type} (body : Nat → σ → Outcome σ Unit) (lo : Nat) : Nat → σ → Outcome σ Unit
  | 0, s => .ret () s
  | k + 1, s =>
    match forLoop body lo k s with
    | .ret _ s1 => body (lo + k) s1
    | .fault f s1 => .fault f s1

/-! ## Matrices -/

/-- Modelled from the spec: the matrix struct of `matrix.h` (absent from the sources):
row and column counts and the column-major element buffer, element (row, col) at index
`col * nrow + row`; `x = none` is the NULL buffer. -/
structure MAT (α : Type) where
  nrow : Int
  ncol : Int
  x : Option (List α)
  deriving DecidableEq, Repr

variable {α : Type}

/-- Read `x[i]`. -/
def rd (x : Option (List α)) (i : Nat) : Option α :=
  match x with
  | some b => b[i]?
  | none => none

/-- Write `x[i] = v`. -/
def wr (x : Option (List α)) (i : Nat) (v : α) : Option (Option (List α)) :=
  match x with
  | some b => if i < b.length then some (some (b.set i v)) else none
  | none => none

/-- Element of a matrix at a linear index. -/
def MAT.elt (m : MAT α) (i : Nat) : Option α := rd m.x i

/-- The assignment `mat->x[dst] = mat->x[src]` inside one matrix. -/
def assignWithin (dst src : Nat) (s : MAT α) : Outcome (MAT α) Unit :=
  match rd s.x src with
  | none => .fault .outOfBounds s
  | some v =>
    match wr s.x dst v with
    | none => .fault .outOfBounds s
    | some b => .ret () { s with x := b }

/-- The C library routine `memmove(x + dst, x + src, n * sizeof(real_t))`: the `n`
elements from `src` on are copied to `dst` on, as if through a temporary buffer. -/
def memmove (x : Option (List α)) (dst src n : Nat) : Option (Option (List α)) :=
  match x with
  | none => if n = 0 then some none else none
  | some b =>
    if src + n ≤ b.length ∧ dst + n ≤ b.length then
      some (some (b.take dst ++ (b.drop src).take n ++ b.drop (dst + n)))
    else none

/-- The C library routine `memcpy(dst, src, n * sizeof(real_t))` between two distinct
buffers. -/
def memcpy (dst src : Option (List α)) (n : Nat) : Option (Option (List α)) :=
  match dst, src with
  | some d, some s =>
    if n ≤ d.length ∧ n ≤ s.length then some (some (s.take n ++ d.drop n)) else none
  | d, _ => if n = 0 then some d else none

/-- The element count `nrow*ncol` that `new_MAT` hands to `calloc` (matrix.c:59): the
product of two `int`s, kept to 32 bits.  There is no check on it in the code; where the
mathematical product does not fit, the compiled code goes on with the wrapped value, and
so does this function. -/
def eltCount (nrow ncol : Int) : Int := toI32 (toU32 (nrow * ncol))

/-- `new_MAT` (matrix.c:40).  A negative element count is an enormous `size_t`, for
which `calloc` fails; no path of `new_MAT` itself faults, the result type is the one its
callers match on. -/
def new_MAT [Zero α] (nrow ncol : Int) : Except Fault (Option (MAT α)) :=
  if 0 = ncol ∨ 0 = nrow then
    .ok (some { nrow := nrow, ncol := ncol, x := none })
  else if eltCount nrow ncol < 0 then .ok none
  else
    .ok (some { nrow := nrow, ncol := ncol,
                x := some (List.replicate (eltCount nrow ncol).toNat 0) })

/-- State of `vectranspose`: the argument and the matrix under construction. -/
structure VtState (α : Type) where
  mat : MAT α
  vtmat : MAT α
  deriving DecidableEq, Repr

/-- Index written by the innermost statement of `vectranspose`:
`(subcol*vtmat->nrow) + offset + i` with `offset = col*p`. -/
def vtDst (vnrow : Int) (p col subcol i : Nat) : Nat :=
  u32 (u32 (u32 (subcol * toU32 vnrow) + u32 (col * p)) + i)

/-- Index read by the innermost statement of `vectranspose`:
`col*mat->nrow + subcol*p + i`. -/
def vtSrc (nrow : Int) (p col subcol i : Nat) : Nat :=
  u32 (u32 (u32 (col * toU32 nrow) + u32 (subcol * p)) + i)

/-- The innermost statement of `vectranspose` (matrix.c:203). -/
def vtAssign (p col subcol i : Nat) (s : VtState α) : Outcome (VtState α) Unit :=
  match rd s.mat.x (vtSrc s.mat.nrow p col subcol i) with
  | none => .fault .outOfBounds s
  | some v =>
    match wr s.vtmat.x (vtDst s.vtmat.nrow p col subcol i) v with
    | none => .fault .outOfBounds s
    | some b => .ret () { s with vtmat := { s.vtmat with x := b } }

/-- `vectranspose` (matrix.c:167).  The state is the argument matrix, the value the
new matrix or NULL. -/
def vectranspose [Zero α] (mat : MAT α) (p : Nat) : Outcome (MAT α) (Option (MAT α)) :=
  if p = 0 then .fault .divByZero mat
  else if 0 ≠ toU32 mat.nrow % p then .ret none mat
  else
    match new_MAT (toI32 (u32 (p * toU32 mat.ncol))) (toI32 (toU32 mat.nrow / p)) with
    | .error f => .fault f mat
    | .ok none => .ret none mat
    | .ok (some vtmat) =>
      match forLoop (fun col => forLoop (fun subcol => forLoop (fun i => vtAssign p col subcol i)
                0 p) 0 (toU32 mat.nrow / p)) 0 (toU32 mat.ncol) { mat := mat, vtmat := vtmat } with
      | .ret _ s => .ret (some s.vtmat) s.mat
      | .fault f s => .fault f s.mat

/-- `copy_MAT` (matrix.c:231). -/
def copy_MAT [Zero α] (mat : MAT α) : Outcome (MAT α) (Option (MAT α)) :=
  match new_MAT mat.nrow mat.ncol with
  | .error f => .fault f mat
  | .ok none => .ret none mat
  | .ok (some newmat) =>
    match memcpy newmat.x mat.x (mat.nrow * mat.ncol).toNat with
    | none => .fault .outOfBounds mat
    | some b => .ret (some { newmat with x := b }) mat

/-- `symmeteriseL2U` (matrix.c:256): copy the lower triangle onto the upper one. -/
def symmeteriseL2U (mat : MAT α) : Outcome (MAT α) Ret :=
  if mat.nrow ≠ mat.ncol then .ret .null mat
  else
    let n := toU32 mat.ncol
    match forLoop (fun col => forLoop (fun row =>
              assignWithin (u32 (u32 (row * n) + col)) (u32 (u32 (col * n) + row))) col (n - col))
            0 n mat with
    | .ret _ s => .ret .self s
    | .fault f s => .fault f s

/-- The LAPACK routines used by `cholesky` and `invert_cholesky`, taken as given: each
maps the order `n` and the `n*n` buffer to the overwritten buffer and the `info` code,
and writes inside the buffer only. -/
structure Lapack (α : Type) where
  potrf : Nat → List α → List α × Int
  trtri : Nat → List α → List α × Int
  potrf_length : ∀ n a, (potrf n a).1.length = a.length
  trtri_length : ∀ n a, (trtri n a).1.length = a.length

/-- Run a LAPACK routine on the buffer of a square matrix of order `n`. -/
def lapackCall (f : Nat → List α → List α × Int) (mat : MAT α) : Option (MAT α × Int) :=
  match mat.x with
  | some b => some ({ mat with x := some (f (toU32 mat.nrow) b).1 }, (f (toU32 mat.nrow) b).2)
  | none => if mat.nrow = 0 then some (mat, 0) else none

/-- `cholesky` (matrix.c:269). -/
def cholesky (L : Lapack α) (mat : MAT α) : Outcome (MAT α) Ret :=
  if mat.nrow ≠ mat.ncol then .ret .null mat
  else
    match lapackCall L.potrf mat with
    | none => .fault .outOfBounds mat
    | some (mat1, _info) =>
      match symmeteriseL2U mat1 with
      | .ret _ mat2 => .ret .self mat2
      | .fault f mat2 => .fault f mat2

/-- `invert_cholesky` (matrix.c:279). -/
def invert_cholesky (L : Lapack α) (mat : MAT α) : Outcome (MAT α) Ret :=
  if mat.nrow ≠ mat.ncol then .ret .null mat
  else
    match lapackCall L.trtri mat with
    | none => .fault .outOfBounds mat
    | some (mat1, _info) =>
      match symmeteriseL2U mat1 with
      | .ret _ mat2 => .ret .self mat2
      | .fault f mat2 => .fault f mat2

/-- The statement `mat->x[i*nrow+i] = 1.0` of `identity_MAT`, in `int` arithmetic. -/
def setDiag [One α] (nrow : Int) (i : Nat) (s : MAT α) : Outcome (MAT α) Unit :=
  if ¬ inInt ((i : Int) * nrow) ∨ ¬ inInt ((i : Int) * nrow + i) then .fault .intOverflow s
  else
    match wr s.x ((i : Int) * nrow + i).toNat 1 with
    | none => .fault .outOfBounds s
    | some b => .ret () { s with x := b }

/-- `identity_MAT` (matrix.c:288). -/
def identity_MAT [Zero α] [One α] (nrow : Int) : Except Fault (Option (MAT α)) :=
  match new_MAT nrow nrow with
  | .error f => .error f
  | .ok none => .ok none
  | .ok (some mat) =>
    match forLoop (setDiag nrow) 0 nrow.toNat mat with
    | .ret _ s => .ok (some s)
    | .fault f _ => .error f

/-- `reshape_MAT` (matrix.c:297); `%` and `/` on `int` truncate towards zero. -/
def reshape_MAT (mat : MAT α) (nrow : Int) : Outcome (MAT α) Ret :=
  if ¬ inInt (mat.nrow * mat.ncol) then .fault .intOverflow mat
  else if nrow = 0 then .fault .divByZero mat
  else if ¬ inInt ((mat.nrow * mat.ncol).tdiv nrow) then .fault .intOverflow mat
  else if ¬ ((mat.nrow * mat.ncol).tmod nrow = 0) then .ret .null mat
  else .ret .self { mat with ncol := (mat.nrow * mat.ncol).tdiv nrow, nrow := nrow }

/-- One iteration of the loop of `trim_MAT` (matrix.c:313-315). -/
def trimCol (mrow : Int) (col : Nat) (s : MAT α) : Outcome (MAT α) Unit :=
  let midx := u32 (col * toU32 mrow)
  let nidx := u32 (col * toU32 s.nrow)
  match memmove s.x midx nidx mrow.toNat with
  | none => .fault .outOfBounds s
  | some b => .ret () { s with x := b }

/-- `trim_MAT` (matrix.c:305). -/
def trim_MAT (mat : MAT α) (mrow mcol : Int) (forwards : Bool) : Outcome (MAT α) Ret :=
  if ¬ (mrow ≥ 0) then .ret .null mat
  else if ¬ (mcol ≥ 0) then .ret .null mat
  else if ¬ (mrow ≤ mat.nrow) then .ret .null mat
  else if ¬ (mcol ≤ mat.ncol) then .ret .null mat
  else if forwards = false then .fault .fatalExit mat
  else
    match forLoop (trimCol mrow) 0 (toU32 mcol) mat with
    | .ret _ s => .ret .self { s with nrow := mrow, ncol := mcol }
    | .fault f s => .fault f s

/-- `scale_MAT` (matrix.c:357). -/
def scale_MAT [Mul α] (mat : MAT α) (f : α) : Outcome (MAT α) Ret :=
  if ¬ inInt (mat.ncol * mat.nrow) then .fault .intOverflow mat
  else
    match forLoop (fun elt s =>
            match rd s.x elt with
            | none => .fault .outOfBounds s
            | some v =>
              match wr s.x elt (v * f) with
              | none => .fault .outOfBounds s
              | some b => .ret () { s with x := b })
            0 (toU32 (mat.ncol * mat.nrow)) mat with
    | .ret _ s => .ret .self s
    | .fault fl s => .fault fl s

/-- State of `block_diagonal_MAT`: the argument, the array `mats` of matrix pointers
(`none` is a NULL entry) and whether an allocation failed (`goto cleanup`). -/
structure BdState (α : Type) where
  mat : MAT α
  mats : List (Option (MAT α))
  bad : Bool
  deriving DecidableEq, Repr

/-- Body of the allocation loop of `block_diagonal_MAT` (matrix.c:332-333). -/
def bdAlloc [Zero α] (n : Int) (i : Nat) (s : BdState α) : Outcome (BdState α) Unit :=
  if s.bad then .ret () s
  else
    match new_MAT n n with
    | .error f => .fault f s
    | .ok none => .ret () { s with bad := true }
    | .ok (some m) =>
      if i < s.mats.length then .ret () { s with mats := s.mats.set i (some m) }
      else .fault .outOfBounds s

/-- Index read by the copy statement of `block_diagonal_MAT`:
`oldcol*mat->nrow+oldrow` with `oldcol = i*n+col` and `oldrow = i*n+row`. -/
def bdSrc (nrow n : Int) (i col row : Nat) : Nat :=
  u32 (u32 (u32 (u32 (i * toU32 n) + col) * toU32 nrow) + u32 (u32 (i * toU32 n) + row))

/-- Index written by the copy statement of `block_diagonal_MAT`: `col*n+row`. -/
def bdDst (n : Int) (col row : Nat) : Nat := u32 (u32 (col * toU32 n) + row)

/-- The copy statement of `block_diagonal_MAT` (matrix.c:341). -/
def bdAssign (n : Int) (i col row : Nat) (s : BdState α) : Outcome (BdState α) Unit :=
  match rd s.mat.x (bdSrc s.mat.nrow n i col row) with
  | none => .fault .outOfBounds s
  | some v =>
    match s.mats[i]? with
    | some (some blk) =>
      match wr blk.x (bdDst n col row) v with
      | none => .fault .outOfBounds s
      | some b => .ret () { s with mats := s.mats.set i (some { blk with x := b }) }
    | _ => .fault .outOfBounds s

/-- `block_diagonal_MAT` (matrix.c:322).  The state is the argument matrix, the value
the array of blocks or NULL.  `calloc` of zero entries yields an empty array. -/
def block_diagonal_MAT [Zero α] (mat : MAT α) (n : Int) :
    Outcome (MAT α) (Option (List (Option (MAT α)))) :=
  if ¬ (mat.ncol = mat.nrow) then .ret none mat
  else if n = 0 then .fault .divByZero mat
  else if ¬ inInt (mat.ncol.tdiv n) then .fault .intOverflow mat
  else
    let nelts := mat.ncol.tdiv n
    if ¬ (mat.ncol.tmod n = 0) then .ret none mat
    else if nelts < 0 then .ret none mat
    else
      match forLoop (bdAlloc n) 0 (toU32 nelts)
              { mat := mat, mats := List.replicate nelts.toNat none, bad := false } with
      | .fault f s => .fault f s.mat
      | .ret _ s1 =>
        if s1.bad then .ret none s1.mat
        else
          match forLoop (fun i => forLoop (fun col => forLoop (fun row => bdAssign n i col row)
                    0 (toU32 n)) 0 (toU32 n)) 0 (toU32 nelts) s1 with
          | .ret _ s => .ret (some s.mats) s.mat
          | .fault f s => .fault f s.mat

/-! ## Shapes and the representation invariant -/

/-- A well-formed matrix with `nrow` rows and `ncol` columns: the counts are those of
the struct, they and the element count are values of type `int`, and the buffer holds
exactly `nrow * ncol` elements (a NULL buffer only for an empty matrix). -/
def MAT.hasShape (m : MAT α) (nrow ncol : Nat) : Prop :=
  m.nrow = (nrow : Int) ∧ m.ncol = (ncol : Int) ∧
  nrow < 2147483648 ∧ ncol < 2147483648 ∧ nrow * ncol < 2147483648 ∧
  match m.x with
  | some b => b.length = nrow * ncol
  | none => nrow = 0 ∨ ncol = 0

/-- The representation invariant of the spec: the buffer has exactly `nrow * ncol`
elements, and it is absent only when `nrow = 0` or `ncol = 0`. -/
def MAT.inv (m : MAT α) : Prop :=
  match m.x with
  | some b => (b.length : Int) = m.nrow * m.ncol
  | none => m.nrow = 0 ∨ m.ncol = 0

/-- The zero-filled matrix allocated by `new_MAT` for non-negative counts. -/
def zeroMAT [Zero α] (R C : Nat) : MAT α :=
  { nrow := R, ncol := C, x := if C = 0 ∨ R = 0 then none else some (List.replicate (R * C) 0) }

/-! ## Loop invariants -/

/-- Cells already assigned when three nested loops stand at `(k, j, t)`: the triples
that precede `(k, j, t)` in iteration order. -/
def lexDone (k j t col subcol i : Nat) : Prop :=
  col < k ∨ (col = k ∧ (subcol < j ∨ (subcol = j ∧ i < t)))

/-- Loop invariant of `vectranspose`. -/
def vtInv (M : MAT α) (nrow ncol p k j t : Nat) (s : VtState α) : Prop :=
  s.mat = M ∧ s.vtmat.hasShape (p * ncol) (nrow / p) ∧
  ∀ col subcol i, col < ncol → subcol < nrow / p → i < p → lexDone k j t col subcol i →
    s.vtmat.elt (subcol * (p * ncol) + (col * p + i)) = M.elt (col * nrow + (subcol * p + i))

/-- Loop invariant of `trim_MAT` after `k` columns: the first `k` columns are compacted
and everything from index `k * mrow` on is still as in the original matrix `M`. -/
def trimInv (M : MAT α) (nrow ncol mrow k : Nat) (s : MAT α) : Prop :=
  s.hasShape nrow ncol ∧ s.x.map List.length = M.x.map List.length ∧
  (∀ c r, c < k → r < mrow → s.elt (c * mrow + r) = M.elt (c * nrow + r)) ∧
  (∀ j, k * mrow ≤ j → s.elt j = M.elt j)

/-- Invariant of the allocation loop of `block_diagonal_MAT` after `k` iterations. -/
def bdAllocInv [Zero α] (M : MAT α) (n nelts k : Nat) (st : BdState α) : Prop :=
  st.mat = M ∧ st.bad = false ∧ st.mats.length = nelts ∧
  ∀ i, i < k → st.mats[i]? = some (some (zeroMAT n n))

/-- Invariant of the copy loops of `block_diagonal_MAT` standing at `(a, b, c)`. -/
def bdInv (M : MAT α) (s n nelts a b c : Nat) (st : BdState α) : Prop :=
  st.mat = M ∧ st.mats.length = nelts ∧
  ∀ i, i < nelts → ∃ B, st.mats[i]? = some (some B) ∧ B.hasShape n n ∧
    ∀ col row, col < n → row < n → lexDone a b c i col row →
      B.elt (col * n + row) = M.elt ((i * n + col) * s + (i * n + row))

/-- Loop invariant of `symmeteriseL2U` standing at column `k`, `j` rows into it: the
lower triangle is as in the original matrix `M` and the cells of the upper triangle
visited so far mirror it. -/
def symInv (M : MAT α) (n k j : Nat) (s : MAT α) : Prop :=
  s.hasShape n n ∧ s.x.isSome = M.x.isSome ∧
  (∀ r c, c ≤ r → r < n → s.elt (c * n + r) = M.elt (c * n + r)) ∧
  (∀ r c, c ≤ r → r < n → (c < k ∨ (c = k ∧ r < k + j)) →
    s.elt (r * n + c) = M.elt (c * n + r))

/-- A matrix is symmetric: it is square of order `n` and `M(r,c) = M(c,r)`. -/
def MAT.symmetric (m : MAT α) (n : Nat) : Prop :=
  m.hasShape n n ∧ ∀ r c, r < n → c < n → m.elt (c * n + r) = m.elt (r * n + c)

/-- A stand-in for the LAPACK routines on inputs where they leave the buffer as it is and
report `info`.  The reference `potrf` and `trtri` do exactly this, with `info = 1`, on
the 1 × 1 matrix `[0]` (not positive definite; zero diagonal element). -/
def stubLapack (info : Int) : Lapack Int :=
  { potrf := fun _ a => (a, info)
    trtri := fun _ a => (a, info)
    potrf_length := fun _ _ => rfl
    trtri_length := fun _ _ => rfl }

/-- A stand-in for the LAPACK routines that overwrite a buffer of the same length as
`out` with `out` (and leave any other buffer as it is) and report `info`. -/
def writingLapack (out : List Int) (info : Int) : Lapack Int :=
  { potrf := fun _ a => (if a.length = out.length then out else a, info)
    trtri := fun _ a => (if a.length = out.length then out else a, info)
    potrf_length := fun _ a => by
      show (if a.length = out.length then out else a).length = a.length
      split_ifs with h
      · exact h.symm
      · rfl
    trtri_length := fun _ a => by
      show (if a.length = out.length then out else a).length = a.length
      split_ifs with h
      · exact h.symm
      · rfl }

/-- Two matrix states with the same counts and the same buffer size (or both without a
buffer). -/
def sameFrame (a b : MAT α) : Prop :=
  a.nrow = b.nrow ∧ a.ncol = b.ncol ∧ a.x.map List.length = b.x.map List.length

/-- What `trim_MAT` leaves of the representation invariant: the buffer holds at least
`nrow * ncol` elements, and it is absent only when `nrow = 0` or `ncol = 0`. -/
def MAT.roomy (m : MAT α) : Prop :=
  match m.x with
  | some b => m.nrow * m.ncol ≤ (b.length : Int)
  | none => m.nrow = 0 ∨ m.ncol = 0

/-! ## The read loop of `main` (main.c:399-474) -/

/-- Modelled from the spec: the nucleotide symbols of `sequence.h` (absent from the
sources), a 4-letter alphabet. -/
inductive NUC where
  | A
  | C
  | G
  | T
  deriving DecidableEq, Repr

/-- Modelled from the spec: a sequence of `sequence.h` (absent from the sources): a name
and an ordered sequence of nucleotide symbols; `length` is the number of symbols. -/
structure SEQ where
  name : String
  seq : List NUC
  deriving DecidableEq, Repr

/-- Number of bases of a sequence (`seq->length`). -/
def SEQ.length (s : SEQ) : Nat := s.seq.length

/-- Modelled from the spec: the noise model of `intensities.h` (absent from the
sources), as far as `main` reads it: cycle count, paired-end flag, brightness shape and
scale, lane and tile, and per end the Cholesky factors and their inverses. -/
structure MODEL (R : Type) where
  ncycle : Nat
  paired : Bool
  shape : R
  scale : R
  lane : Nat
  tile : Nat
  chol1 : Option (MAT R)
  chol2 : Option (MAT R)
  invchol1 : List (MAT R)
  invchol2 : List (MAT R)

/-- The options of a run, `SIMOPT` (main.c:164-174). -/
structure SIMOPT (R : Type) where
  ncycle : Nat
  shape : R
  scale : R
  corr : R
  paired : Bool
  desc : Bool
  mu : R
  sdfact : R
  seed : Nat
  tile : Nat
  lane : Nat
  purity_threshold : R
  purity_cycles : Nat
  purity_max : Nat
  intensity_fn : Option String

/-- Modelled from the spec: the parts of the repository that `main` calls and that are
absent from the sources (`random.h`, `normal.h`, `weibull.h`, `intensities.h`,
`sequence.h`), together with `sqrt` and the conversion to `uint32_t`.  `R` stands for
`real_t` and `G` for the state of the process-wide generator: a sampler maps the state to
a draw and the next state; the other routines are functions of their arguments. -/
structure Engine (R G : Type) where
  rstdnorm : G → R × G
  runif : G → R × G
  rweibull : R → R → G → R × G
  pstdnorm : R → Bool → Bool → R
  qweibull : R → R → R → Bool → Bool → R
  sqrt : R → R
  toUInt : R → Nat
  generate_pure_intensities :
    R → R → List NUC → Nat → Option (MAT R) → Option (MAT R) → G → Option (MAT R) × G
  likelihood_cycle_intensities :
    R → R → R → Option (MAT R) → List (MAT R) → Option (MAT R) → Option (MAT R)
  number_inpure_cycles : Option (MAT R) → R → Nat → Nat
  call_by_maximum_likelihood : Option (MAT R) → Option (List NUC) → Option (List NUC)
  reverse_complement : List NUC → List NUC

/-- What is written to an output stream, piece by piece. -/
inductive Out (R : Type) where
  | coords (lane tile x y : Nat)
  | matrix (m : Option (MAT R))
  | newline
  deriving DecidableEq, Repr

/-- The variables of the read loop: the generator, the buffers reused from read to
read, the counters, the error tallies, and what has been written to `stdout` and to the
intensity file. -/
structure LoopState (R G : Type) where
  gen : G
  intensities : Option (MAT R)
  loglike : Option (MAT R)
  calls : Option (List NUC)
  seq_count : Nat
  unfiltered_count : Nat
  error : List Nat
  error2 : List Nat
  out : List (Out R)
  fout : List (Out R)
  deriving DecidableEq, Repr

/-- One iteration of the tally loops (main.c:451-453 and 462-464):
`if (calls[i] != truth[i]) { error[i]++; }` on a `uint32_t` counter. -/
def tallyStep (calls : Option (List NUC)) (truth : List NUC) (i : Nat) (err : List Nat) :
    Outcome (List Nat) Unit :=
  match calls with
  | none => .fault .outOfBounds err
  | some cs =>
    match cs[i]?, truth[i]?, err[i]? with
    | some c, some t, some e => if c ≠ t then .ret () (err.set i (u32 (e + 1))) else .ret () err
    | _, _, _ => .fault .outOfBounds err

variable {R G : Type}

set_option linter.unusedVariables false in
/-- The body of the read loop for one input sequence (main.c:415-473); `fpout` tells
whether the intensity file is open. -/
def processRead [Add R] [Sub R] [Mul R] [NatCast R] (E : Engine R G) (simopt : SIMOPT R)
    (model : MODEL R) (fpout : Bool) (seq : SEQ) (st : LoopState R G) :
    Outcome (LoopState R G) Unit :=
  if seq.length < model.ncycle then .ret () st
  else
    -- Pick lambda using Gaussian Copula
    let corr := simopt.corr
    let (x, g1) := E.rstdnorm st.gen
    let (z, g2) := E.rstdnorm g1
    let y := corr * x + E.sqrt (((1 : Nat) : R) - corr * corr) * z
    let px := E.pstdnorm x false false
    let py := E.pstdnorm y false false
    let lambda1 := E.qweibull px simopt.shape simopt.scale false false
    let lambda2 := E.qweibull py simopt.shape simopt.scale false false
    let (intensities, g3) := E.generate_pure_intensities simopt.sdfact lambda1 seq.seq
      model.ncycle model.chol1 st.intensities g2
    let loglike := E.likelihood_cycle_intensities simopt.sdfact simopt.mu lambda1 intensities
      model.invchol1 st.loglike
    let (ux, g4) := E.runif g3
    let (uy, g5) := E.runif g4
    let cx := u32 (E.toUInt (((1794 : Nat) : R) * ux))
    let cy := u32 (E.toUInt (((2048 : Nat) : R) * uy))
    let fout1 := if fpout then st.fout ++ [.coords model.lane model.tile cx cy, .matrix intensities]
      else st.fout
    let out1 := st.out ++ [.coords model.lane model.tile cx cy]
    if E.number_inpure_cycles intensities simopt.purity_threshold simopt.purity_cycles
        ≤ simopt.purity_max then
      let out2 := out1 ++ [.matrix loglike]
      let calls := E.call_by_maximum_likelihood loglike st.calls
      match forLoop (tallyStep calls seq.seq) 0 model.ncycle st.error with
      | .fault f _ => .fault f st
      | .ret _ error =>
        if model.paired then
          let (lambda2, g6) := E.rweibull model.shape model.scale g5
          let rcseq := E.reverse_complement seq.seq
          let (intensities2, g7) := E.generate_pure_intensities simopt.sdfact lambda2 rcseq
            model.ncycle model.chol2 intensities g6
          let loglike2 := E.likelihood_cycle_intensities simopt.sdfact simopt.mu lambda2
            intensities2 model.invchol2 loglike
          let fout2 := if fpout then fout1 ++ [.matrix intensities2] else fout1
          let out3 := out2 ++ [.matrix loglike2]
          let calls2 := E.call_by_maximum_likelihood loglike2 calls
          match forLoop (tallyStep calls2 rcseq) 0 model.ncycle st.error2 with
          | .fault f _ => .fault f st
          | .ret _ error2 =>
            .ret () { gen := g7, intensities := intensities2, loglike := loglike2,
                      calls := calls2, seq_count := u32 (st.seq_count + 1),
                      unfiltered_count := u32 (st.unfiltered_count + 1),
                      error := error, error2 := error2,
                      out := out3 ++ [.newline],
                      fout := if fpout then fout2 ++ [.newline] else fout2 }
        else
          .ret () { gen := g5, intensities := intensities, loglike := loglike,
                    calls := calls, seq_count := u32 (st.seq_count + 1),
                    unfiltered_count := u32 (st.unfiltered_count + 1),
                    error := error, error2 := st.error2,
                    out := out2 ++ [.newline],
                    fout := if fpout then fout1 ++ [.newline] else fout1 }
    else
      .ret () { gen := g5, intensities := intensities, loglike := loglike,
                calls := st.calls, seq_count := u32 (st.seq_count + 1),
                unfiltered_count := st.unfiltered_count,
                error := st.error, error2 := st.error2,
                out := out1 ++ [.newline],
                fout := if fpout then fout1 ++ [.newline] else fout1 }

/-- The read loop (main.c:414-474) over the sequences that `sequence_from_fasta` yields. -/
def readLoop [Add R] [Sub R] [Mul R] [NatCast R] (E : Engine R G) (simopt : SIMOPT R)
    (model : MODEL R) (fpout : Bool) : List SEQ → LoopState R G → Outcome (LoopState R G) Unit
  | [], st => .ret () st
  | seq :: rest, st =>
    match processRead E simopt model fpout seq st with
    | .ret _ st1 => readLoop E simopt model fpout rest st1
    | .fault f st1 => .fault f st1

/-- The loop variables before the first read (main.c:400-407). -/
def initialState (g : G) (ncycle : Nat) : LoopState R G :=
  { gen := g, intensities := none, loglike := none, calls := none,
    seq_count := 0, unfiltered_count := 0,
    error := List.replicate ncycle 0, error2 := List.replicate ncycle 0,
    out := [], fout := [] }

/-- A stand-in for the absent library that makes the flow of the brightness visible:
the generator state is a counter, `rstdnorm` returns the counter, `rweibull` returns
100 plus the counter, `pstdnorm` and `qweibull` return their first argument, and the
intensity and likelihood matrices hold the brightness they were given. -/
def traceEngine : Engine Int Nat :=
  { rstdnorm := fun g => ((g : Int), g + 1)
    runif := fun g => (0, g + 1)
    rweibull := fun _ _ g => (100 + (g : Int), g + 1)
    pstdnorm := fun x _ _ => x
    qweibull := fun p _ _ _ _ => p
    sqrt := fun x => x
    toUInt := fun x => x.toNat
    generate_pure_intensities := fun _ lambda _ _ _ _ g => (some ⟨1, 1, some [lambda]⟩, g + 1)
    likelihood_cycle_intensities := fun _ _ lambda _ _ _ => some ⟨1, 1, some [lambda]⟩
    number_inpure_cycles := fun _ _ _ => 0
    call_by_maximum_likelihood := fun _ _ => some [NUC.A]
    reverse_complement := fun s => s }

/-- Options of a run with the default correlation 1 and no purity filtering. -/
def traceOptions : SIMOPT Int :=
  { ncycle := 1, shape := 1, scale := 1, corr := 1, paired := true, desc := false, mu := 0,
    sdfact := 1, seed := 1, tile := 1, lane := 1, purity_threshold := 0, purity_cycles := 0,
    purity_max := 0, intensity_fn := none }

/-- A paired-end model of one cycle. -/
def traceModel : MODEL Int :=
  { ncycle := 1, paired := true, shape := 1, scale := 1, lane := 1, tile := 1,
    chol1 := none, chol2 := none, invchol1 := [], invchol2 := [] }

/-! ## The stages of one read -/

/-- The values computed by the Gaussian-copula block (main.c:423-435) and the generator
state it leaves. -/
structure Copula (R G : Type) where
  x : R
  y : R
  px : R
  py : R
  lambda1 : R
  lambda2 : R
  gen : G

/-- The Gaussian-copula block of the read loop (main.c:423-435), from the generator state
`g`. -/
def copulaBlock [Add R] [Sub R] [Mul R] [NatCast R] (E : Engine R G) (simopt : SIMOPT R)
    (g : G) : Copula R G :=
  let corr := simopt.corr
  -- Two correlated Gaussians
  let x := (E.rstdnorm g).1
  let z := (E.rstdnorm (E.rstdnorm g).2).1
  let y := corr * x + E.sqrt (((1 : Nat) : R) - corr * corr) * z
  -- Convert to uniform deviates (the copula)
  let px := E.pstdnorm x false false
  let py := E.pstdnorm y false false
  -- Convert to Weibull via inversion formula
  { x := x, y := y, px := px, py := py,
    lambda1 := E.qweibull px simopt.shape simopt.scale false false,
    lambda2 := E.qweibull py simopt.shape simopt.scale false false,
    gen := (E.rstdnorm (E.rstdnorm g).2).2 }

/-- What the read loop computes for end 1 of a read (main.c:437-440, 448, 450): the
intensities, the likelihoods, the cluster coordinates, the generator state after them,
the number of impure cycles and the called bases. -/
structure End1 (R G : Type) where
  intensities : Option (MAT R)
  loglike : Option (MAT R)
  cx : Nat
  cy : Nat
  gen : G
  impure : Nat
  calls : Option (List NUC)

/-- The end-1 stage of `processRead`, written with the copula block. -/
def end1 [Add R] [Sub R] [Mul R] [NatCast R] (E : Engine R G) (simopt : SIMOPT R)
    (model : MODEL R) (seq : SEQ) (st : LoopState R G) : End1 R G :=
  let c := copulaBlock E simopt st.gen
  let gi := E.generate_pure_intensities simopt.sdfact c.lambda1 seq.seq model.ncycle
    model.chol1 st.intensities c.gen
  let loglike := E.likelihood_cycle_intensities simopt.sdfact simopt.mu c.lambda1 gi.1
    model.invchol1 st.loglike
  let ux := E.runif gi.2
  let uy := E.runif ux.2
  { intensities := gi.1, loglike := loglike,
    cx := u32 (E.toUInt (((1794 : Nat) : R) * ux.1)),
    cy := u32 (E.toUInt (((2048 : Nat) : R) * uy.1)),
    gen := uy.2,
    impure := E.number_inpure_cycles gi.1 simopt.purity_threshold simopt.purity_cycles,
    calls := E.call_by_maximum_likelihood loglike st.calls }

/-- What the read loop computes for end 2 of a read (main.c:455-461). -/
structure End2 (R G : Type) where
  lambda2 : R
  rcseq : List NUC
  intensities : Option (MAT R)
  loglike : Option (MAT R)
  gen : G
  calls : Option (List NUC)

/-- The end-2 stage of `processRead`, from the values of end 1. -/
def end2 (E : Engine R G) (simopt : SIMOPT R) (model : MODEL R) (seq : SEQ)
    (e1 : End1 R G) : End2 R G :=
  let w := E.rweibull model.shape model.scale e1.gen
  let rcseq := E.reverse_complement seq.seq
  let gi := E.generate_pure_intensities simopt.sdfact w.1 rcseq model.ncycle model.chol2
    e1.intensities w.2
  let loglike := E.likelihood_cycle_intensities simopt.sdfact simopt.mu w.1 gi.1
    model.invchol2 e1.loglike
  { lambda2 := w.1, rcseq := rcseq, intensities := gi.1, loglike := loglike, gen := gi.2,
    calls := E.call_by_maximum_likelihood loglike e1.calls }

/-- The value of a `uint32_t` tally counter after the statement
`if (calls[i] != truth[i]) { error[i]++; }`, from its value `e` before. -/
def bump (calls : Option (List NUC)) (truth : List NUC) (i e : Nat) : Nat :=
  match calls with
  | none => e
  | some cs =>
    match cs[i]?, truth[i]? with
    | some c, some t => if c ≠ t then u32 (e + 1) else e
    | _, _ => e

/-- The tally `new` is the tally `old` after the cycles below `n` have been compared:
each counter below `n` is bumped where the call differs from the truth, the rest is as
it was. -/
def tallied (calls : Option (List NUC)) (truth : List NUC) (n : Nat) (old new : List Nat) :
    Prop :=
  new.length = old.length ∧
  ∀ i, new[i]? = if i < n then (old[i]?).map (bump calls truth i) else old[i]?

/-- A read of one base that the trace engine, which always calls `A`, miscalls. -/
def miscalledRead : SEQ := { name := "read", seq := [NUC.C] }

/-- The loop variables before the first read of a run of the trace engine on a model of
one cycle. -/
def traceStart : LoopState Int Nat := initialState 0 1

/-! ## The error summary (main.c:304-325 and 482-494) -/

/-- `phred` (main.c:308); `log10` is the C library function. -/
def phred [Neg R] [Mul R] [OfScientific R] (log10 : R → R) (p : R) : R :=
  -(10.0 : R) * log10 p

/-- `prop_upper` (main.c:313): proportion confidence interval using Wilson's method;
`sqrt` is the C library function and `n` is converted to `real_t` where it is used. -/
def prop_upper [Add R] [Sub R] [Mul R] [Div R] [NatCast R] [OfScientific R] (sqrt : R → R)
    (p : R) (n : Nat) : R :=
  let z : R := 1.959964
  let desc := p * (((1 : Nat) : R) - p) / (n : R) + (z * z / ((4.0 : R) * (n : R) * (n : R)))
  let desc := p + z * z / ((2.0 : R) * (n : R)) + z * sqrt desc
  desc / ((1.0 : R) + z * z / (n : R))

/-- `prop_lower` (main.c:320). -/
def prop_lower [Add R] [Sub R] [Mul R] [Div R] [NatCast R] [OfScientific R] (sqrt : R → R)
    (p : R) (n : Nat) : R :=
  let z : R := 1.959964
  let desc := p * (((1 : Nat) : R) - p) / (n : R) + (z * z / ((4.0 : R) * (n : R) * (n : R)))
  let desc := p + z * z / ((2.0 : R) * (n : R)) - z * sqrt desc
  desc / ((1.0 : R) + z * z / (n : R))

/-- What the summary prints for one end at one cycle (main.c:487-488 and 490-491): the
miscall count, the rate `e` it is computed from, and the three values printed after
the count, in the order printed. -/
structure SummaryCell (R : Type) where
  count : Nat
  rate : R
  score : R
  first : R
  second : R

/-- The values of one cell of the summary, from a tally counter and the number of
reads that passed the filter: `e = ((real_t)error[i])/unfiltered_count`, then `phred(e)`,
`phred(prop_upper(e, unfiltered_count))` and `phred(prop_lower(e, unfiltered_count))`. -/
def summaryCell [Add R] [Sub R] [Mul R] [Div R] [Neg R] [NatCast R] [OfScientific R]
    (sqrt log10 : R → R) (err unfiltered_count : Nat) : SummaryCell R :=
  let e : R := (err : R) / (unfiltered_count : R)
  { count := err, rate := e, score := phred log10 e,
    first := phred log10 (prop_upper sqrt e unfiltered_count),
    second := phred log10 (prop_lower sqrt e unfiltered_count) }

/-- One line of the summary: the cycle number as printed, the cell of end 1 and, for a
paired run, the cell of end 2. -/
structure SummaryLine (R : Type) where
  cycle : Nat
  end1 : SummaryCell R
  end2 : Option (SummaryCell R)

/-- The body of the summary loop (main.c:486-493). -/
def summaryStep [Add R] [Sub R] [Mul R] [Div R] [Neg R] [NatCast R] [OfScientific R]
    (sqrt log10 : R → R) (paired : Bool) (error error2 : List Nat) (unfiltered_count : Nat)
    (i : Nat) (out : List (SummaryLine R)) : Outcome (List (SummaryLine R)) Unit :=
  match error[i]? with
  | none => .fault .outOfBounds out
  | some e =>
    if paired then
      match error2[i]? with
      | none => .fault .outOfBounds out
      | some e2 =>
        .ret () (out ++ [{ cycle := u32 (i + 1),
                           end1 := summaryCell sqrt log10 e unfiltered_count,
                           end2 := some (summaryCell sqrt log10 e2 unfiltered_count) }])
    else
      .ret () (out ++ [{ cycle := u32 (i + 1),
                         end1 := summaryCell sqrt log10 e unfiltered_count, end2 := none }])

/-- The error summary (main.c:482-494): one line per cycle. -/
def summary [Add R] [Sub R] [Mul R] [Div R] [Neg R] [NatCast R] [OfScientific R]
    (sqrt log10 : R → R) (paired : Bool) (ncycle : Nat) (error error2 : List Nat)
    (unfiltered_count : Nat) : Outcome (List (SummaryLine R)) Unit :=
  forLoop (summaryStep sqrt log10 paired error error2 unfiltered_count) 0 ncycle []

/-- The relation between the counters of the read loop on which the summary relies: no
more reads passed the filter than were counted, both tallies have one counter per cycle,
and no counter exceeds the number of reads that passed the filter. -/
def tallyInv (ncycle : Nat) (st : LoopState R G) : Prop :=
  st.unfiltered_count ≤ st.seq_count ∧
  st.error.length = ncycle ∧ st.error2.length = ncycle ∧
  (∀ i e : Nat, st.error[i]? = some e → e ≤ st.unfiltered_count) ∧
  (∀ i e : Nat, st.error2[i]? = some e → e ≤ st.unfiltered_count)

/-- The state in which the trace run of one miscalled read ends. -/
def traceEnd : LoopState Int Nat :=
  match readLoop traceEngine traceOptions traceModel false [miscalledRead] traceStart with
  | .ret _ st => st
  | .fault _ st => st

/-! ## Floating-point values -/

/-- The values of the floating-point type `real_t` (main.c:152 assigns `NAN` to one) in
the default non-stop mode of IEEE 754, in which no operation traps: a finite value, an
infinity or not-a-number.  Finite values are taken as exact rationals (no rounding, no
overflow to infinity) and the two zeros are not told apart, a zero divisor counting as
positive. -/
inductive Fl where
  | fin (q : ℚ)
  | pinf
  | ninf
  | nan
  deriving DecidableEq

namespace Fl

/-- The infinity of the given sign. -/
def signed (negative : Bool) : Fl := if negative then ninf else pinf

/-- Unary minus. -/
def neg : Fl → Fl
  | fin q => fin (-q)
  | pinf => ninf
  | ninf => pinf
  | nan => nan

/-- Addition: not-a-number propagates, opposite infinities give not-a-number. -/
def add : Fl → Fl → Fl
  | nan, _ => nan
  | _, nan => nan
  | fin a, fin b => fin (a + b)
  | pinf, ninf => nan
  | ninf, pinf => nan
  | pinf, _ => pinf
  | ninf, _ => ninf
  | fin _, pinf => pinf
  | fin _, ninf => ninf

/-- Multiplication: not-a-number propagates, zero times an infinity is not-a-number. -/
def mul : Fl → Fl → Fl
  | nan, _ => nan
  | _, nan => nan
  | fin a, fin b => fin (a * b)
  | fin a, pinf => if a = 0 then nan else signed (decide (a < 0))
  | fin a, ninf => if a = 0 then nan else signed (decide (0 < a))
  | pinf, fin b => if b = 0 then nan else signed (decide (b < 0))
  | ninf, fin b => if b = 0 then nan else signed (decide (0 < b))
  | pinf, pinf => pinf
  | pinf, ninf => ninf
  | ninf, pinf => ninf
  | ninf, ninf => pinf

/-- Division: not-a-number propagates; `0/0` and the quotient of two infinities are
not-a-number, a non-zero finite value over zero is an infinity. -/
def div : Fl → Fl → Fl
  | nan, _ => nan
  | _, nan => nan
  | fin a, fin b =>
    if b = 0 then (if a = 0 then nan else signed (decide (a < 0))) else fin (a / b)
  | fin _, pinf => fin 0
  | fin _, ninf => fin 0
  | pinf, fin b => signed (decide (b < 0))
  | ninf, fin b => signed (decide (0 ≤ b))
  | pinf, pinf => nan
  | pinf, ninf => nan
  | ninf, pinf => nan
  | ninf, ninf => nan

/-- The library function `sqrt`, with `f` its value on a non-negative finite argument. -/
def sqrt (f : ℚ → ℚ) : Fl → Fl
  | nan => nan
  | pinf => pinf
  | ninf => nan
  | fin q => if q < 0 then nan else fin (f q)

/-- The library function `log10`, with `f` its value on a positive finite argument. -/
def log10 (f : ℚ → ℚ) : Fl → Fl
  | nan => nan
  | pinf => pinf
  | ninf => nan
  | fin q => if q < 0 then nan else if q = 0 then ninf else fin (f q)

end Fl

instance : Neg Fl := ⟨Fl.neg⟩
instance : Add Fl := ⟨Fl.add⟩
instance : Sub Fl := ⟨fun a b => Fl.add a (Fl.neg b)⟩
instance : Mul Fl := ⟨Fl.mul⟩
instance : Div Fl := ⟨Fl.div⟩
instance : NatCast Fl := ⟨fun n => Fl.fin n⟩
instance : OfScientific Fl := ⟨fun m s e => Fl.fin (OfScientific.ofScientific m s e)⟩

/-- The cell of the summary in which every printed value is not-a-number. -/
def nanCell : SummaryCell Fl :=
  { count := 0, rate := Fl.nan, score := Fl.nan, first := Fl.nan, second := Fl.nan }

/-! ## deinterleave.c -/

/-- The line terminator. -/
def lineFeed : Char := Char.ofNat 10

/-- The characters that `fgets` stores when it may still store `room` of them: it stops
after a line feed, at the end of the stream, or when there is no room left.  The second
component is what remains of the stream. -/
def fgetsAux : Nat → List Char → List Char × List Char
  | 0, stream => ([], stream)
  | _ + 1, [] => ([], [])
  | room + 1, c :: stream =>
    if c = lineFeed then ([c], stream)
    else (c :: (fgetsAux room stream).1, (fgetsAux room stream).2)

/-- The library call `fgets(line, size, stream)` on a stream without NUL characters: at
the end of the stream it returns NULL (`none`), otherwise it stores at most `size - 1`
characters and returns them with the rest of the stream. -/
def fgets (size : Nat) (stream : List Char) : Option (List Char × List Char) :=
  match stream with
  | [] => none
  | _ :: _ => some (fgetsAux (size - 1) stream)

/-- The variables of the routing loop of deinterleave.c: `count` and the contents
written so far to the forward and the reverse file. -/
structure Streams where
  count : Nat
  f_fastq : List Char
  r_fastq : List Char
  deriving DecidableEq, Repr

/-- The body of the routing loop (deinterleave.c:34-44) for the buffer `line` that
`fgets` has filled; `count` is an `int` that never exceeds 8. -/
def routeBuffer (line : List Char) (st : Streams) : Streams :=
  let st1 : Streams :=
    if st.count < 4 then { st with f_fastq := st.f_fastq ++ line, count := st.count + 1 }
    else { st with r_fastq := st.r_fastq ++ line, count := st.count + 1 }
  if st1.count = 8 then { st1 with count := 0 } else st1

/-- The loop `while(fgets(line, sizeof line, fastq) != NULL)` with `char line[1024]`
(deinterleave.c:31-45), run for at most `fuel + 1` calls of `fgets`; `none` when the
fuel does not suffice. -/
def routeLoop : Nat → List Char → Streams → Option Streams
  | 0, fastq, st =>
    match fgets 1024 fastq with
    | none => some st
    | some _ => none
  | fuel + 1, fastq, st =>
    match fgets 1024 fastq with
    | none => some st
    | some (line, rest) => routeLoop fuel rest (routeBuffer line st)

/-- The run of deinterleave.c on the contents of the input file, all three files having
been opened: every call of `fgets` but the last consumes a character, so as many calls
as the input has characters suffice. -/
def deinterleave (fastq : List Char) : Option Streams :=
  routeLoop fastq.length fastq { count := 0, f_fastq := [], r_fastq := [] }

/-- A line of a text file: characters other than the line feed, then a line feed. -/
def isLine (l : List Char) : Prop :=
  ∃ body : List Char, l = body ++ [lineFeed] ∧ lineFeed ∉ body

/-- The routing by lines that the header of deinterleave.c describes, for the lines
from number `k` on: line `k` goes, unmodified and in input order, to the forward
contents (first component) if `k mod 8 < 4` and to the reverse contents otherwise. -/
def routeLines : Nat → List (List Char) → List Char × List Char → List Char × List Char
  | _, [], out => out
  | k, l :: ls, out =>
    routeLines (k + 1) ls (if k % 8 < 4 then (out.1 ++ l, out.2) else (out.1, out.2 ++ l))

/-- Four lines, the first of 1023 characters before its line feed. -/
def longLineFile : List (List Char) :=
  [List.replicate 1023 'A' ++ [lineFeed], ['b', lineFeed], ['c', lineFeed], ['d', lineFeed]]
/-! ## Machine arithmetic without wrap-around -/

theorem u32_of_lt {n : Nat} (h : n < 4294967296) : u32 n = n := by
  unfold u32; omega

theorem toU32_natCast {n : Nat} (h : n < 4294967296) : toU32 (n : Int) = n := by
  unfold toU32; omega

theorem toI32_of_lt {n : Nat} (h : n < 2147483648) : toI32 n = (n : Int) := by
  unfold toI32
  have h1 : n % 4294967296 = n := by omega
  rw [h1, if_pos h]

/-- Linear index of a cell inside a block of `C` columns of height `R`. -/
theorem idx_lt {R C r c : Nat} (hr : r < R) (hc : c < C) : c * R + r < C * R := by
  calc c * R + r < c * R + R := by omega
    _ = (c + 1) * R := by ring
    _ ≤ C * R := Nat.mul_le_mul_right R hc

/-- Mixed-radix decomposition is unique. -/
theorem radix_inj {R a b r t : Nat} (hr : r < R) (ht : t < R) (h : a * R + r = b * R + t) :
    a = b ∧ r = t := by
  have hR : 0 < R := by omega
  have e1 : (a * R + r) / R = a := by
    rw [Nat.add_comm, Nat.add_mul_div_right _ _ hR, Nat.div_eq_of_lt hr, Nat.zero_add]
  have e2 : (b * R + t) / R = b := by
    rw [Nat.add_comm, Nat.add_mul_div_right _ _ hR, Nat.div_eq_of_lt ht, Nat.zero_add]
  have hab : a = b := by rw [← e1, ← e2, h]
  subst hab
  exact ⟨rfl, by omega⟩

/-! ## Loops -/

/-- Invariant rule for `forLoop`: an invariant that holds at the start and is carried
over by every iteration holds at the end, and the loop returns. -/
theorem forLoop_inv {σ : Type} (body : Nat → σ → Outcome σ Unit) (lo : Nat)
    (I : Nat → σ → Prop) (n : Nat) (s : σ) (h0 : I 0 s)
    (hstep : ∀ k t, k < n → I k t → ∃ t1, body (lo + k) t = .ret () t1 ∧ I (k + 1) t1) :
    ∃ t, forLoop body lo n s = .ret () t ∧ I n t := by
  induction n with
  | zero => exact ⟨s, rfl, h0⟩
  | succ m ih =>
    obtain ⟨t, ht, hI⟩ := ih (fun k t hk hi => hstep k t (by omega) hi)
    obtain ⟨t1, ht1, hI1⟩ := hstep m t (by omega) hI
    exact ⟨t1, by simp [forLoop, ht, ht1], hI1⟩

/-! ## Buffers -/

theorem rd_some (b : List α) (i : Nat) : rd (some b) i = b[i]? := rfl

theorem wr_some {b : List α} {i : Nat} (v : α) (h : i < b.length) :
    wr (some b) i v = some (some (b.set i v)) := by
  simp [wr, h]

/-! ## vectranspose -/

theorem u32_index {a R b c i : Nat} (hR : R < 4294967296)
    (h : a * R + (b * c + i) < 4294967296) :
    u32 (u32 (u32 (a * toU32 (R : Int)) + u32 (b * c)) + i) = a * R + (b * c + i) := by
  rw [toU32_natCast hR, u32_of_lt (by omega : a * R < 4294967296),
    u32_of_lt (by omega : b * c < 4294967296),
    u32_of_lt (by omega : a * R + b * c < 4294967296),
    u32_of_lt (by omega : a * R + b * c + i < 4294967296)]
  omega

theorem zeroMAT_hasShape [Zero α] (R C : Nat) (hR : R < 2147483648) (hC : C < 2147483648)
    (h : R * C < 2147483648) : (zeroMAT R C : MAT α).hasShape R C := by
  refine ⟨rfl, rfl, hR, hC, h, ?_⟩
  unfold zeroMAT
  by_cases hz : C = 0 ∨ R = 0
  · simp only [hz, if_true]; tauto
  · simp only [hz, if_false, List.length_replicate]

/-- Where the product fits an `int`, the element count is the product. -/
theorem eltCount_of_inInt {nrow ncol : Int} (h : inInt (nrow * ncol)) :
    eltCount nrow ncol = nrow * ncol := by
  unfold eltCount toI32 toU32
  unfold inInt at h
  generalize nrow * ncol = z at h ⊢
  split_ifs <;> omega

theorem new_MAT_natCast [Zero α] (R C : Nat) (h : R * C < 2147483648) :
    (new_MAT (R : Int) (C : Int) : Except Fault (Option (MAT α))) = .ok (some (zeroMAT R C)) := by
  unfold new_MAT zeroMAT
  by_cases hz : C = 0 ∨ R = 0
  · have : (0 : Int) = (C : Int) ∨ (0 : Int) = (R : Int) := by omega
    simp [hz, this]
  · have h1 : ¬ ((0 : Int) = (C : Int) ∨ (0 : Int) = (R : Int)) := by omega
    have h2 : ((R : Int) * (C : Int)) = ((R * C : Nat) : Int) := by push_cast; ring
    have h3 : inInt ((R : Int) * (C : Int)) := by rw [h2]; unfold inInt; omega
    have h6 : eltCount (R : Int) (C : Int) = ((R * C : Nat) : Int) := by
      rw [eltCount_of_inInt h3, h2]
    have h4 : ¬ (eltCount (R : Int) (C : Int) < 0) := by rw [h6]; omega
    have h5 : (eltCount (R : Int) (C : Int)).toNat = R * C := by rw [h6]; omega
    simp only [h1, hz, h4, h5, if_false]

theorem vtInv_mono {M : MAT α} {nrow ncol p k j t k1 j1 t1 : Nat} {s : VtState α}
    (h : ∀ col subcol i, col < ncol → subcol < nrow / p → i < p →
      lexDone k1 j1 t1 col subcol i → lexDone k j t col subcol i)
    (hI : vtInv M nrow ncol p k j t s) : vtInv M nrow ncol p k1 j1 t1 s :=
  ⟨hI.1, hI.2.1, fun col subcol i hc hs hi hd => hI.2.2 col subcol i hc hs hi (h col subcol i hc hs hi hd)⟩

theorem src_lt {nrow ncol p col subcol i : Nat} (hc : col < ncol) (hs : subcol < nrow / p)
    (hi : i < p) : col * nrow + (subcol * p + i) < nrow * ncol := by
  have h1 : subcol * p + i < nrow / p * p := idx_lt hi hs
  have h2 : nrow / p * p ≤ nrow := Nat.div_mul_le_self nrow p
  have h3 : col * nrow + (subcol * p + i) < ncol * nrow := idx_lt (by omega) hc
  rw [Nat.mul_comm nrow ncol]; exact h3

theorem dst_lt {nrow ncol p col subcol i : Nat} (hc : col < ncol) (hs : subcol < nrow / p)
    (hi : i < p) : subcol * (p * ncol) + (col * p + i) < p * ncol * (nrow / p) := by
  have h1 : col * p + i < ncol * p := idx_lt hi hc
  have h3 : subcol * (p * ncol) + (col * p + i) < nrow / p * (p * ncol) :=
    idx_lt (by rw [Nat.mul_comm p ncol]; exact h1) hs
  rw [Nat.mul_comm (p * ncol)]; exact h3

theorem dst_inj {ncol p col subcol i k j t : Nat} (hc : col < ncol) (hi : i < p)
    (hk : k < ncol) (ht : t < p)
    (h : subcol * (p * ncol) + (col * p + i) = j * (p * ncol) + (k * p + t)) :
    col = k ∧ subcol = j ∧ i = t := by
  have h1 : col * p + i < p * ncol := by rw [Nat.mul_comm p ncol]; exact idx_lt hi hc
  have h2 : k * p + t < p * ncol := by rw [Nat.mul_comm p ncol]; exact idx_lt ht hk
  obtain ⟨e1, e2⟩ := radix_inj h1 h2 h
  obtain ⟨e3, e4⟩ := radix_inj hi ht e2
  exact ⟨e3, e1, e4⟩

theorem reblock_total {nrow p : Nat} (hdiv : nrow % p = 0) : nrow / p * p = nrow :=
  Nat.div_mul_cancel (Nat.dvd_of_mod_eq_zero hdiv)

theorem vtAssign_step {M : MAT α} {nrow ncol p k j t : Nat} (hM : M.hasShape nrow ncol)
    (hfit : p * ncol < 2147483648)
    (hk : k < ncol) (hj : j < nrow / p) (ht : t < p) (s : VtState α)
    (hI : vtInv M nrow ncol p k j t s) :
    ∃ s1, vtAssign p k j t s = .ret () s1 ∧ vtInv M nrow ncol p k j (t + 1) s1 := by
  obtain ⟨hmat, hV, hel⟩ := hI
  obtain ⟨hnr, hnc, hnr31, hnc31, hprod, hbuf⟩ := hM
  obtain ⟨hvr, hvc, hvr31, hvc31, hvprod, hvbuf⟩ := hV
  have hsrc := src_lt hk hj ht
  have hdst := dst_lt hk hj ht
  have hsrcEq : vtSrc s.mat.nrow p k j t = k * nrow + (j * p + t) := by
    rw [hmat, hnr]; exact u32_index (by omega) (by omega)
  have hdstEq : vtDst s.vtmat.nrow p k j t = j * (p * ncol) + (k * p + t) := by
    rw [hvr]; exact u32_index (by omega) (by omega)
  -- the source buffer is present
  cases hx : M.x with
  | none => rw [hx] at hbuf; rcases hbuf with h | h <;> subst h <;> simp at hsrc
  | some b =>
    rw [hx] at hbuf
    cases hvx : s.vtmat.x with
    | none => rw [hvx] at hvbuf; rcases hvbuf with h | h <;> rw [h] at hdst <;> simp at hdst
    | some vb =>
      rw [hvx] at hvbuf
      have hsb : k * nrow + (j * p + t) < b.length := by omega
      have hdb : j * (p * ncol) + (k * p + t) < vb.length := by omega
      refine ⟨{ s with vtmat := { s.vtmat with
                  x := some (vb.set (j * (p * ncol) + (k * p + t)) b[k * nrow + (j * p + t)]) } },
              ?_, ?_, ?_, ?_⟩
      · unfold vtAssign
        rw [hsrcEq, hdstEq, hmat, hx, rd_some, List.getElem?_eq_getElem hsb, hvx]
        simp only [wr_some _ hdb]
      · exact hmat
      · refine ⟨hvr, hvc, hvr31, hvc31, hvprod, ?_⟩
        simp only [List.length_set]; exact hvbuf
      · intro col subcol i hc hs hi hd
        simp only [MAT.elt, rd_some, hx]
        by_cases he : subcol * (p * ncol) + (col * p + i) = j * (p * ncol) + (k * p + t)
        · obtain ⟨e1, e2, e3⟩ := dst_inj hc hi hk ht he
          subst e1 e2 e3
          rw [List.getElem?_set_self hdb, List.getElem?_eq_getElem hsb]
        · rw [List.getElem?_set_ne (Ne.symm he)]
          have hd1 : lexDone k j t col subcol i := by
            unfold lexDone at hd ⊢
            rcases hd with h | ⟨h1, h | ⟨h2, h3⟩⟩
            · exact Or.inl h
            · exact Or.inr ⟨h1, Or.inl h⟩
            · refine Or.inr ⟨h1, Or.inr ⟨h2, ?_⟩⟩
              by_contra hcon
              have : i = t := by omega
              subst h1 h2 this
              exact he rfl
          have := hel col subcol i hc hs hi hd1
          simp only [MAT.elt, hvx, rd_some, hx] at this
          exact this

theorem vt_loops {M : MAT α} {nrow ncol p : Nat} (hM : M.hasShape nrow ncol)
    (hfit : p * ncol < 2147483648) (s : VtState α) (hI : vtInv M nrow ncol p 0 0 0 s) :
    ∃ s1, forLoop (fun col => forLoop (fun subcol => forLoop (fun i => vtAssign p col subcol i)
            0 p) 0 (nrow / p)) 0 ncol s = .ret () s1 ∧ vtInv M nrow ncol p ncol 0 0 s1 := by
  refine forLoop_inv _ 0 (fun k => vtInv M nrow ncol p k 0 0) ncol s hI ?_
  intro k s1 hk hI1
  rw [Nat.zero_add]
  obtain ⟨s2, h2, hI2⟩ := forLoop_inv (fun subcol => forLoop (fun i => vtAssign p k subcol i) 0 p)
    0 (fun j => vtInv M nrow ncol p k j 0) (nrow / p) s1 hI1 (by
      intro j s2 hj hI2
      rw [Nat.zero_add]
      obtain ⟨s3, h3, hI3⟩ := forLoop_inv (fun i => vtAssign p k j i) 0
        (fun t => vtInv M nrow ncol p k j t) p s2 hI2 (by
          intro t s3 ht hI3
          rw [Nat.zero_add]
          exact vtAssign_step hM hfit hk hj ht s3 hI3)
      refine ⟨s3, h3, vtInv_mono ?_ hI3⟩
      intro col subcol i _ _ hi hd
      unfold lexDone at hd ⊢
      omega)
  refine ⟨s2, h2, vtInv_mono ?_ hI2⟩
  intro col subcol i _ hs _ hd
  unfold lexDone at hd ⊢
  omega

/-- Functional description of `vectranspose` on shapes whose re-blocked row count is a
value of type `int`. -/
theorem vectranspose_reblock [Zero α] (M : MAT α) (nrow ncol p : Nat)
    (hM : M.hasShape nrow ncol) (hp : 0 < p) (hdiv : nrow % p = 0)
    (hfit : p * ncol < 2147483648) :
    ∃ V, vectranspose M p = .ret (some V) M ∧ V.hasShape (p * ncol) (nrow / p) ∧
      ∀ col subcol i, col < ncol → subcol < nrow / p → i < p →
        V.elt (subcol * (p * ncol) + (col * p + i)) = M.elt (col * nrow + (subcol * p + i)) ∧
        (M.elt (col * nrow + (subcol * p + i))).isSome := by
  have hM0 := hM
  obtain ⟨hnr, hnc, hnr31, hnc31, hprod, hbuf⟩ := hM
  have hm : nrow / p ≤ nrow := Nat.div_le_self nrow p
  have htot : p * ncol * (nrow / p) = nrow * ncol := by
    rw [Nat.mul_right_comm, Nat.mul_comm p, reblock_total hdiv]
  have e1 : toU32 M.nrow = nrow := by rw [hnr]; exact toU32_natCast (by omega)
  have e2 : toU32 M.ncol = ncol := by rw [hnc]; exact toU32_natCast (by omega)
  have e3 : toI32 (u32 (p * ncol)) = ((p * ncol : Nat) : Int) := by
    rw [u32_of_lt (by omega), toI32_of_lt hfit]
  have e4 : toI32 (nrow / p) = ((nrow / p : Nat) : Int) := toI32_of_lt (by omega)
  obtain ⟨s1, hs1, hI1⟩ := vt_loops hM0 hfit
    { mat := M, vtmat := zeroMAT (p * ncol) (nrow / p) }
    ⟨rfl, zeroMAT_hasShape _ _ hfit (by omega) (by omega),
      by intro col subcol i _ _ _ hd; unfold lexDone at hd; omega⟩
  obtain ⟨hmat, hV, hel⟩ := hI1
  refine ⟨s1.vtmat, ?_, hV, ?_⟩
  · unfold vectranspose
    rw [e1, e2, e3, e4, new_MAT_natCast _ _ (by omega)]
    have hp0 : ¬ p = 0 := by omega
    have hd0 : ¬ (0 ≠ nrow % p) := by omega
    simp only [hp0, hd0, if_false, hs1, hmat]
  · intro col subcol i hc hs hi
    refine ⟨hel col subcol i hc hs hi (Or.inl hc), ?_⟩
    have hsrc := src_lt hc hs hi
    cases hx : M.x with
    | none => rw [hx] at hbuf; rcases hbuf with h | h <;> subst h <;> simp at hsrc
    | some b =>
      rw [hx] at hbuf
      simp only [MAT.elt, hx, rd_some]
      rw [List.getElem?_eq_getElem (by omega)]; rfl

/-! ## Claim C1 -/

/-- The re-blocked row count fits whenever the matrix has a row. -/
theorem reblock_rows_fit {nrow ncol p : Nat} (hprod : nrow * ncol < 2147483648)
    (hdiv : nrow % p = 0) (hfit : 0 < nrow ∨ p * ncol < 2147483648) :
    p * ncol < 2147483648 := by
  rcases hfit with h | h
  · have hp : p ≤ nrow := Nat.le_of_dvd h (Nat.dvd_of_mod_eq_zero hdiv)
    exact Nat.lt_of_le_of_lt (Nat.mul_le_mul_right ncol hp) hprod
  · exact h

theorem vtDst_eq {nrow ncol p col subcol i : Nat} (hfit : p * ncol < 2147483648)
    (hprod : nrow * ncol < 2147483648) (hdiv : nrow % p = 0)
    (hc : col < ncol) (hs : subcol < nrow / p) (hi : i < p) :
    vtDst ((p * ncol : Nat) : Int) p col subcol i = subcol * (p * ncol) + (col * p + i) := by
  have h := dst_lt hc hs hi
  have htot : p * ncol * (nrow / p) = nrow * ncol := by
    rw [Nat.mul_right_comm, Nat.mul_comm p, reblock_total hdiv]
  exact u32_index (by omega) (by omega)

/-- Every linear index of the re-blocked matrix is the target of a triple. -/
theorem dst_surj {ncol p m k : Nat} (hk : k < p * ncol * m) :
    ∃ col subcol i, col < ncol ∧ subcol < m ∧ i < p ∧ subcol * (p * ncol) + (col * p + i) = k := by
  have hR : 0 < p * ncol := by
    rcases Nat.eq_zero_or_pos (p * ncol) with h | h
    · rw [h] at hk; simp at hk
    · exact h
  have hp : 0 < p := Nat.pos_of_mul_pos_right hR
  refine ⟨k % (p * ncol) / p, k / (p * ncol), k % (p * ncol) % p, ?_, ?_, Nat.mod_lt _ hp, ?_⟩
  · exact (Nat.div_lt_iff_lt_mul hp).2 (by rw [Nat.mul_comm ncol p]; exact Nat.mod_lt _ hR)
  · exact (Nat.div_lt_iff_lt_mul hR).2 (by rw [Nat.mul_comm m]; exact hk)
  · rw [Nat.div_add_mod' (k % (p * ncol)) p, Nat.div_add_mod' k (p * ncol)]

/-- Claim C1, amended.  For a well-formed `nrow × ncol` matrix `M` and `p > 0` with
`nrow mod p = 0`, where `M` has a row or the re-blocked row count `p * ncol` is a value
of type `int`, `vectranspose` returns a new well-formed `(p*ncol) × (nrow/p)` matrix `V`
with `V(col*p + i, subcol) = M(subcol*p + i, col)` for all `col < ncol`,
`subcol < nrow/p`, `i < p`; every linear index of `V` is the index written for exactly
one such triple; and `M` is left as it was. -/
theorem vectranspose_correct [Zero α] (M : MAT α) (nrow ncol p : Nat)
    (hM : M.hasShape nrow ncol) (hp : 0 < p) (hdiv : nrow % p = 0)
    (hfit0 : 0 < nrow ∨ p * ncol < 2147483648) :
    ∃ V, vectranspose M p = .ret (some V) M ∧ V.hasShape (p * ncol) (nrow / p) ∧
      (∀ col subcol i, col < ncol → subcol < nrow / p → i < p →
        ∃ v, M.elt (col * nrow + (subcol * p + i)) = some v ∧
             V.elt (subcol * (p * ncol) + (col * p + i)) = some v) ∧
      (∀ k, k < p * ncol * (nrow / p) →
        ∃! t : Nat × Nat × Nat, t.1 < ncol ∧ t.2.1 < nrow / p ∧ t.2.2 < p ∧
          vtDst V.nrow p t.1 t.2.1 t.2.2 = k) := by
  have hfit := reblock_rows_fit hM.2.2.2.2.1 hdiv hfit0
  obtain ⟨V, hrun, hV, hel⟩ := vectranspose_reblock M nrow ncol p hM hp hdiv hfit
  refine ⟨V, hrun, hV, ?_, ?_⟩
  · intro col subcol i hc hs hi
    obtain ⟨h1, h2⟩ := hel col subcol i hc hs hi
    obtain ⟨v, hv⟩ := Option.isSome_iff_exists.1 h2
    exact ⟨v, hv, by rw [h1, hv]⟩
  · intro k hk
    obtain ⟨col, subcol, i, hc, hs, hi, hidx⟩ := dst_surj hk
    have hVn : V.nrow = ((p * ncol : Nat) : Int) := hV.1
    refine ⟨(col, subcol, i), ⟨hc, hs, hi, ?_⟩, ?_⟩
    · show vtDst V.nrow p col subcol i = k
      rw [hVn, vtDst_eq hfit hM.2.2.2.2.1 hdiv hc hs hi, hidx]
    · rintro ⟨c, s, j⟩ ⟨hc1, hs1, hj1, h1⟩
      change vtDst V.nrow p c s j = k at h1
      rw [hVn, vtDst_eq hfit hM.2.2.2.2.1 hdiv hc1 hs1 hj1, ← hidx] at h1
      obtain ⟨e1, e2, e3⟩ := dst_inj hc1 hj1 hc hi h1
      exact Prod.ext e1 (Prod.ext e2 e3)

/-- Witness for `vectranspose_correct`: a 4 × 2 matrix re-blocked with `p = 2`. -/
theorem vectranspose_correct_witness :
    ∃ V, vectranspose (⟨4, 2, some [1, 2, 3, 4, 5, 6, 7, 8]⟩ : MAT Int) 2
        = .ret (some V) ⟨4, 2, some [1, 2, 3, 4, 5, 6, 7, 8]⟩ ∧ V.hasShape (2 * 2) (4 / 2) ∧
      (∀ col subcol i, col < 2 → subcol < 4 / 2 → i < 2 →
        ∃ v, (⟨4, 2, some [1, 2, 3, 4, 5, 6, 7, 8]⟩ : MAT Int).elt (col * 4 + (subcol * 2 + i))
               = some v ∧
             V.elt (subcol * (2 * 2) + (col * 2 + i)) = some v) ∧
      (∀ k, k < 2 * 2 * (4 / 2) →
        ∃! t : Nat × Nat × Nat, t.1 < 2 ∧ t.2.1 < 4 / 2 ∧ t.2.2 < 2 ∧
          vtDst V.nrow 2 t.1 t.2.1 t.2.2 = k) :=
  vectranspose_correct ⟨4, 2, some [1, 2, 3, 4, 5, 6, 7, 8]⟩ 4 2 2
    ⟨rfl, rfl, by decide, by decide, by decide, rfl⟩ (by decide) (by decide)
    (Or.inl (by decide))

/-- Claim C1 as stated fails where `p * ncol` is not a value of type `int`: for the
empty 0 × 2 matrix and `p = 2^31` the product wraps and the result has 0 rows, not
`p * ncol = 2^32`. -/
theorem vectranspose_rows_wrap :
    (⟨0, 2, none⟩ : MAT Int).hasShape 0 2 ∧ 0 < 2147483648 ∧ 0 % 2147483648 = 0 ∧
    vectranspose (⟨0, 2, none⟩ : MAT Int) 2147483648 = .ret (some ⟨0, 0, none⟩) ⟨0, 2, none⟩ ∧
    ¬ (⟨0, 0, none⟩ : MAT Int).hasShape (2147483648 * 2) (0 / 2147483648) := by
  refine ⟨⟨rfl, rfl, by decide, by decide, by decide, Or.inl rfl⟩, by decide, by decide,
    by decide, ?_⟩
  intro h
  have := h.1
  simp at this

/-! ## Claim C2 -/

theorem elt_none_of_le {M : MAT α} {nrow ncol k : Nat} (hM : M.hasShape nrow ncol)
    (hk : nrow * ncol ≤ k) : M.elt k = none := by
  obtain ⟨_, _, _, _, _, hbuf⟩ := hM
  unfold MAT.elt
  cases hx : M.x with
  | none => rfl
  | some b =>
    rw [hx] at hbuf
    rw [rd_some]
    exact List.getElem?_eq_none (by omega)

/-- Claim C2, amended.  For a well-formed matrix `M` and `p > 0` with `nrow mod p = 0`,
where `M` has a row or `p * ncol` is a value of type `int`, `vectranspose` applied twice
succeeds and gives a matrix with the row count, the column count and the element at
every index of `M`. -/
theorem vectranspose_twice [Zero α] (M : MAT α) (nrow ncol p : Nat)
    (hM : M.hasShape nrow ncol) (hp : 0 < p) (hdiv : nrow % p = 0)
    (hfit0 : 0 < nrow ∨ p * ncol < 2147483648) :
    ∃ V W, vectranspose M p = .ret (some V) M ∧ vectranspose V p = .ret (some W) V ∧
      W.nrow = M.nrow ∧ W.ncol = M.ncol ∧ ∀ k, W.elt k = M.elt k := by
  have hfit := reblock_rows_fit hM.2.2.2.2.1 hdiv hfit0
  obtain ⟨V, hrunV, hV, helV⟩ := vectranspose_reblock M nrow ncol p hM hp hdiv hfit
  have hnr31 : nrow < 2147483648 := hM.2.2.1
  have hpm : p * (nrow / p) = nrow := by rw [Nat.mul_comm]; exact reblock_total hdiv
  have hq : p * ncol / p = ncol := Nat.mul_div_cancel_left ncol hp
  obtain ⟨W, hrunW, hW, helW⟩ := vectranspose_reblock V (p * ncol) (nrow / p) p hV hp
    (Nat.mul_mod_right p ncol) (by omega)
  rw [hpm, hq] at hW
  refine ⟨V, W, hrunV, hrunW, ?_, ?_, ?_⟩
  · rw [hW.1, hM.1]
  · rw [hW.2.1, hM.2.1]
  · intro k
    by_cases hk : k < nrow * ncol
    · have hk1 : k < p * (nrow / p) * ncol := by rw [hpm]; exact hk
      obtain ⟨subcol, col, i, hs, hc, hi, hidx⟩ := dst_surj hk1
      have h1 := (helW subcol col i hs (by rw [hq]; exact hc) hi).1
      have h2 := (helV col subcol i hc hs hi).1
      rw [hpm] at h1 hidx
      rw [← hidx, h1, h2]
    · rw [elt_none_of_le hW (by omega), elt_none_of_le hM (by omega)]

/-- Witness for `vectranspose_twice`: a 4 × 2 matrix re-blocked twice with `p = 2`. -/
theorem vectranspose_twice_witness :
    ∃ V W, vectranspose (⟨4, 2, some [1, 2, 3, 4, 5, 6, 7, 8]⟩ : MAT Int) 2
        = .ret (some V) ⟨4, 2, some [1, 2, 3, 4, 5, 6, 7, 8]⟩ ∧
      vectranspose V 2 = .ret (some W) V ∧
      W.nrow = (⟨4, 2, some [1, 2, 3, 4, 5, 6, 7, 8]⟩ : MAT Int).nrow ∧
      W.ncol = (⟨4, 2, some [1, 2, 3, 4, 5, 6, 7, 8]⟩ : MAT Int).ncol ∧
      ∀ k, W.elt k = (⟨4, 2, some [1, 2, 3, 4, 5, 6, 7, 8]⟩ : MAT Int).elt k :=
  vectranspose_twice ⟨4, 2, some [1, 2, 3, 4, 5, 6, 7, 8]⟩ 4 2 2
    ⟨rfl, rfl, by decide, by decide, by decide, rfl⟩ (by decide) (by decide)
    (Or.inl (by decide))

/-- Claim C2 as stated fails where `p * ncol` is not a value of type `int`: for the
empty 0 × 3 matrix and `p = 1431655766` the product wraps to 2, the first call returns a
2 × 0 matrix, and the second call returns NULL because 2 is not a multiple of `p`. -/
theorem vectranspose_twice_wrap :
    (⟨0, 3, none⟩ : MAT Int).hasShape 0 3 ∧ 0 < 1431655766 ∧ 0 % 1431655766 = 0 ∧
    vectranspose (⟨0, 3, none⟩ : MAT Int) 1431655766 = .ret (some ⟨2, 0, none⟩) ⟨0, 3, none⟩ ∧
    vectranspose (⟨2, 0, none⟩ : MAT Int) 1431655766 = .ret none ⟨2, 0, none⟩ := by
  refine ⟨⟨rfl, rfl, by decide, by decide, by decide, Or.inl rfl⟩, by decide, by decide,
    by decide, by decide⟩

/-! ## Claim C3 -/

theorem memmove_some (b : List α) (dst src n : Nat)
    (hs : src + n ≤ b.length) (hd : dst + n ≤ b.length) :
    ∃ b1, memmove (some b) dst src n = some (some b1) ∧ b1.length = b.length ∧
      ∀ j, b1[j]? = if dst ≤ j ∧ j < dst + n then b[src + (j - dst)]? else b[j]? := by
  refine ⟨b.take dst ++ (b.drop src).take n ++ b.drop (dst + n), ?_, ?_, ?_⟩
  · simp [memmove, hs, hd]
  · simp only [List.length_append, List.length_take, List.length_drop]; omega
  · intro j
    have hl1 : (List.take dst b).length = dst := by rw [List.length_take]; omega
    have hl2 : (List.take n (List.drop src b)).length = n := by
      rw [List.length_take, List.length_drop]; omega
    rw [List.append_assoc, List.getElem?_append, hl1]
    by_cases h1 : j < dst
    · have h2 : ¬ (dst ≤ j ∧ j < dst + n) := by omega
      rw [if_pos h1, if_neg h2, List.getElem?_take, if_pos h1]
    · rw [if_neg h1, List.getElem?_append, hl2]
      by_cases h3 : j - dst < n
      · have h4 : dst ≤ j ∧ j < dst + n := by omega
        rw [if_pos h3, if_pos h4, List.getElem?_take, if_pos h3, List.getElem?_drop]
      · have h4 : ¬ (dst ≤ j ∧ j < dst + n) := by omega
        rw [if_neg h3, if_neg h4, List.getElem?_drop]
        congr 1; omega

/-- Effect of `memmove` in terms of reads, for a present buffer or a move of nothing. -/
theorem memmove_rd (x : Option (List α)) (dst src n L : Nat)
    (hx : match x with
      | some b => b.length = L ∧ src + n ≤ L ∧ dst + n ≤ L
      | none => n = 0) :
    ∃ x1, memmove x dst src n = some x1 ∧
      (match x1 with
        | some b1 => ∃ b, x = some b ∧ b1.length = b.length
        | none => x = none) ∧
      ∀ j, rd x1 j = if dst ≤ j ∧ j < dst + n then rd x (src + (j - dst)) else rd x j := by
  cases x with
  | none =>
    refine ⟨none, by simp [memmove, hx], rfl, ?_⟩
    intro j; simp [rd]
  | some b =>
    obtain ⟨hL, hs, hd⟩ := hx
    obtain ⟨b1, h1, h2, h3⟩ := memmove_some b dst src n (by omega) (by omega)
    exact ⟨some b1, h1, ⟨b, rfl, h2⟩, fun j => by simp only [rd_some]; exact h3 j⟩

theorem trimCol_step {M : MAT α} {nrow ncol mrow mcol k : Nat}
    (hr : mrow ≤ nrow) (hc : mcol ≤ ncol) (hk : k < mcol) (s : MAT α)
    (hI : trimInv M nrow ncol mrow k s) :
    ∃ s1, trimCol (mrow : Int) k s = .ret () s1 ∧ trimInv M nrow ncol mrow (k + 1) s1 := by
  obtain ⟨hS, hlen, hdone, hrest⟩ := hI
  obtain ⟨hnr, hnc, hnr31, hnc31, hprod, hbuf⟩ := hS
  have h1 : k * mrow ≤ k * nrow := Nat.mul_le_mul_left k hr
  have h2 : k * nrow + nrow ≤ nrow * ncol := by
    calc k * nrow + nrow = (k + 1) * nrow := by ring
      _ ≤ ncol * nrow := Nat.mul_le_mul_right nrow (by omega)
      _ = nrow * ncol := Nat.mul_comm _ _
  have hmidx : u32 (k * toU32 (mrow : Int)) = k * mrow := by
    rw [toU32_natCast (by omega), u32_of_lt (by omega)]
  have hnidx : u32 (k * toU32 s.nrow) = k * nrow := by
    rw [hnr, toU32_natCast (by omega), u32_of_lt (by omega)]
  have hpre : match s.x with
      | some b => b.length = nrow * ncol ∧ k * nrow + mrow ≤ nrow * ncol ∧
          k * mrow + mrow ≤ nrow * ncol
      | none => mrow = 0 := by
    cases hx : s.x with
    | none => rw [hx] at hbuf; simp only; omega
    | some b => rw [hx] at hbuf; simp only; omega
  obtain ⟨x1, hmv, hx1, hrd⟩ := memmove_rd s.x (k * mrow) (k * nrow) mrow (nrow * ncol) hpre
  refine ⟨{ s with x := x1 }, ?_, ?_, ?_, ?_, ?_⟩
  · unfold trimCol
    simp only [hmidx, hnidx, Int.toNat_ofNat, hmv]
  · refine ⟨hnr, hnc, hnr31, hnc31, hprod, ?_⟩
    cases hx1c : x1 with
    | none => rw [hx1c] at hx1; simp only at hx1; rw [hx1] at hbuf; exact hbuf
    | some b1 =>
      rw [hx1c] at hx1
      obtain ⟨b, hb, hbl⟩ := hx1
      rw [hb] at hbuf
      simp only at hbuf ⊢
      omega
  · rw [← hlen]
    cases hx1c : x1 with
    | none => rw [hx1c] at hx1; simp only at hx1; rw [hx1]
    | some b1 =>
      rw [hx1c] at hx1
      obtain ⟨b, hb, hbl⟩ := hx1
      rw [hb]; simp [hbl]
  · intro c r hck hrm
    show rd x1 (c * mrow + r) = M.elt (c * nrow + r)
    rw [hrd]
    by_cases hcase : c = k
    · subst hcase
      have hin : c * mrow ≤ c * mrow + r ∧ c * mrow + r < c * mrow + mrow := by omega
      rw [if_pos hin]
      have : c * nrow + (c * mrow + r - c * mrow) = c * nrow + r := by omega
      rw [this]
      exact hrest _ (by omega)
    · have hlt : c < k := by omega
      have h3 : c * mrow + r < k * mrow := by
        calc c * mrow + r < (c + 1) * mrow := by rw [Nat.add_mul]; omega
          _ ≤ k * mrow := Nat.mul_le_mul_right mrow hlt
      have hout : ¬ (k * mrow ≤ c * mrow + r ∧ c * mrow + r < k * mrow + mrow) := by omega
      rw [if_neg hout]
      exact hdone c r hlt hrm
  · intro j hj
    show rd x1 j = M.elt j
    rw [hrd]
    have h3 : (k + 1) * mrow = k * mrow + mrow := by ring
    have hout : ¬ (k * mrow ≤ j ∧ j < k * mrow + mrow) := by omega
    rw [if_neg hout]
    exact hrest j (by omega)

/-- Functional description of `trim_MAT` in the forward direction. -/
theorem trim_MAT_forward (M : MAT α) (nrow ncol mrow mcol : Nat)
    (hM : M.hasShape nrow ncol) (hr : mrow ≤ nrow) (hc : mcol ≤ ncol) :
    ∃ s, trim_MAT M (mrow : Int) (mcol : Int) true
        = .ret .self { s with nrow := (mrow : Int), ncol := (mcol : Int) } ∧
      trimInv M nrow ncol mrow mcol s := by
  obtain ⟨s, hs, hI⟩ := forLoop_inv (trimCol (mrow : Int)) 0
    (fun k => trimInv M nrow ncol mrow k) mcol M
    ⟨hM, rfl, fun c r hc0 _ => by omega, fun j _ => rfl⟩
    (fun k t hk hI => by rw [Nat.zero_add]; exact trimCol_step hr hc hk t hI)
  refine ⟨s, ?_, hI⟩
  obtain ⟨hnr, hnc, hnr31, hnc31, _, _⟩ := hM
  have h3 : (mrow : Int) ≤ M.nrow := by rw [hnr]; omega
  have h4 : (mcol : Int) ≤ M.ncol := by rw [hnc]; omega
  unfold trim_MAT
  simp only [ge_iff_le, Int.natCast_nonneg, not_true_eq_false, if_false, h3, h4,
    toU32_natCast (by omega : mcol < 4294967296), hs, Bool.true_eq_false]

theorem elt_isSome_of_lt {M : MAT α} {nrow ncol k : Nat} (hM : M.hasShape nrow ncol)
    (hk : k < nrow * ncol) : ∃ v, M.elt k = some v := by
  obtain ⟨_, _, _, _, _, hbuf⟩ := hM
  unfold MAT.elt
  cases hx : M.x with
  | none => rw [hx] at hbuf; rcases hbuf with h | h <;> subst h <;> simp at hk
  | some b =>
    rw [hx] at hbuf
    rw [rd_some]
    exact ⟨_, List.getElem?_eq_getElem (by simp only at hbuf; omega)⟩

/-- Claim C3.  For a well-formed `nrow × ncol` matrix `M` and integers
`0 ≤ mrow ≤ nrow`, `0 ≤ mcol ≤ ncol`, `trim_MAT(M, mrow, mcol, true)` returns the same
matrix, now with `nrow = mrow`, `ncol = mcol` and, for `r < mrow` and `c < mcol`, the
element at index `c*mrow + r` equal to the element that was at index `c*nrow + r`. -/
theorem trim_MAT_correct (M : MAT α) (nrow ncol : Nat) (mrow mcol : Int)
    (hM : M.hasShape nrow ncol) (h0r : 0 ≤ mrow) (hr : mrow ≤ nrow)
    (h0c : 0 ≤ mcol) (hc : mcol ≤ ncol) :
    ∃ M1, trim_MAT M mrow mcol true = .ret .self M1 ∧ M1.nrow = mrow ∧ M1.ncol = mcol ∧
      ∀ r c : Nat, (r : Int) < mrow → (c : Int) < mcol →
        ∃ v, M.elt (c * nrow + r) = some v ∧ M1.elt (c * mrow.toNat + r) = some v := by
  obtain ⟨mr, rfl⟩ := Int.eq_ofNat_of_zero_le h0r
  obtain ⟨mc, rfl⟩ := Int.eq_ofNat_of_zero_le h0c
  obtain ⟨s, hs, _, _, hdone, _⟩ :=
    trim_MAT_forward M nrow ncol mr mc hM (by omega) (by omega)
  refine ⟨_, hs, rfl, rfl, ?_⟩
  intro r c hrlt hclt
  have hsrc : c * nrow + r < nrow * ncol := by
    rw [Nat.mul_comm nrow ncol]; exact idx_lt (by omega) (by omega)
  obtain ⟨v, hv⟩ := elt_isSome_of_lt hM hsrc
  refine ⟨v, hv, ?_⟩
  rw [← hv, Int.toNat_ofNat]
  exact hdone c r (by omega) (by omega)

/-- Witness for `trim_MAT_correct`: a 3 × 3 matrix trimmed to its leading 2 × 2 part. -/
theorem trim_MAT_correct_witness :
    ∃ M1, trim_MAT (⟨3, 3, some [1, 2, 3, 4, 5, 6, 7, 8, 9]⟩ : MAT Int) 2 2 true
        = .ret .self M1 ∧ M1.nrow = 2 ∧ M1.ncol = 2 ∧
      ∀ r c : Nat, (r : Int) < 2 → (c : Int) < 2 →
        ∃ v, (⟨3, 3, some [1, 2, 3, 4, 5, 6, 7, 8, 9]⟩ : MAT Int).elt (c * 3 + r) = some v ∧
          M1.elt (c * (2 : Int).toNat + r) = some v :=
  trim_MAT_correct ⟨3, 3, some [1, 2, 3, 4, 5, 6, 7, 8, 9]⟩ 3 3 2 2
    ⟨rfl, rfl, by decide, by decide, by decide, rfl⟩ (by decide) (by decide) (by decide)
    (by decide)

/-! ## Claim C4 -/

theorem bdAlloc_step [Zero α] {M : MAT α} {n nelts k : Nat} (hn : n * n < 2147483648)
    (hk : k < nelts) (st : BdState α) (hI : bdAllocInv M n nelts k st) :
    ∃ st1, bdAlloc (n : Int) k st = .ret () st1 ∧ bdAllocInv M n nelts (k + 1) st1 := by
  obtain ⟨hmat, hbad, hlen, hdone⟩ := hI
  refine ⟨{ st with mats := st.mats.set k (some (zeroMAT n n)) }, ?_, hmat, hbad, ?_, ?_⟩
  · unfold bdAlloc
    have hkl : k < st.mats.length := by omega
    simp only [hbad, new_MAT_natCast n n hn, hkl, if_true, Bool.false_eq_true, if_false]
  · simp only [List.length_set]; exact hlen
  · intro i hi
    by_cases he : i = k
    · subst he; exact List.getElem?_set_self (by omega)
    · rw [List.getElem?_set_ne (Ne.symm he)]; exact hdone i (by omega)

theorem bd_src_lt {s n i col row : Nat} (hi : i < s / n) (hc : col < n) (hr : row < n) :
    i * n + col < s ∧ i * n + row < s ∧ (i * n + col) * s + (i * n + row) < s * s := by
  have h1 : i * n + col < s / n * n := idx_lt hc hi
  have h2 : i * n + row < s / n * n := idx_lt hr hi
  have h3 : s / n * n ≤ s := Nat.div_mul_le_self s n
  exact ⟨by omega, by omega, idx_lt (by omega) (by omega)⟩

theorem bdSrc_eq {s n i col row : Nat} (hs : s * s < 2147483648) (hn31 : n < 2147483648)
    (hs31 : s < 2147483648)
    (hi : i < s / n) (hc : col < n) (hr : row < n) :
    bdSrc (s : Int) (n : Int) i col row = (i * n + col) * s + (i * n + row) := by
  obtain ⟨h1, h2, h3⟩ := bd_src_lt hi hc hr
  unfold bdSrc
  have h4 : i * n ≤ i * n + col := Nat.le_add_right _ _
  have h5 : (i * n + col) * s ≤ (i * n + col) * s + (i * n + row) := Nat.le_add_right _ _
  rw [toU32_natCast (by omega : n < 4294967296), toU32_natCast (by omega : s < 4294967296),
    u32_of_lt (by omega : i * n < 4294967296),
    u32_of_lt (by omega : i * n + col < 4294967296),
    u32_of_lt (by omega : i * n + row < 4294967296),
    u32_of_lt (by omega : (i * n + col) * s < 4294967296),
    u32_of_lt (by omega : (i * n + col) * s + (i * n + row) < 4294967296)]

theorem bdDst_eq {n col row : Nat} (hn : n * n < 2147483648) (hn31 : n < 2147483648)
    (hc : col < n) (hr : row < n) : bdDst (n : Int) col row = col * n + row := by
  have h1 : col * n + row < n * n := idx_lt hr hc
  unfold bdDst
  rw [toU32_natCast (by omega : n < 4294967296), u32_of_lt (by omega : col * n < 4294967296),
    u32_of_lt (by omega : col * n + row < 4294967296)]

theorem bdAssign_step {M : MAT α} {s n a b c : Nat} (hM : M.hasShape s s)
    (hn : n * n < 2147483648) (ha : a < s / n) (hb : b < n) (hc : c < n) (st : BdState α)
    (hI : bdInv M s n (s / n) a b c st) :
    ∃ st1, bdAssign (n : Int) a b c st = .ret () st1 ∧ bdInv M s n (s / n) a b (c + 1) st1 := by
  obtain ⟨hmat, hlen, hblk⟩ := hI
  obtain ⟨B, hB, hBs, hBel⟩ := hblk a ha
  obtain ⟨h1, h2, h3⟩ := bd_src_lt ha hb hc
  obtain ⟨v, hv⟩ := elt_isSome_of_lt hM h3
  have hn31 : n < 2147483648 := hBs.2.2.1
  have hsrc : bdSrc st.mat.nrow (n : Int) a b c = (a * n + b) * s + (a * n + c) := by
    rw [hmat, hM.1]; exact bdSrc_eq hM.2.2.2.2.1 hn31 hM.2.2.1 ha hb hc
  have hdst := bdDst_eq hn hn31 hb hc
  have hdlt : b * n + c < n * n := idx_lt hc hb
  obtain ⟨hBr, hBc, _, _, _, hBbuf⟩ := hBs
  cases hBx : B.x with
  | none => rw [hBx] at hBbuf; rcases hBbuf with h | h <;> subst h <;> simp at hdlt
  | some bb =>
    rw [hBx] at hBbuf
    simp only at hBbuf
    have hdb : b * n + c < bb.length := by omega
    refine ⟨{ st with mats := st.mats.set a (some { B with x := some (bb.set (b * n + c) v) }) },
      ?_, hmat, ?_, ?_⟩
    · unfold bdAssign
      have hv1 : rd st.mat.x ((a * n + b) * s + (a * n + c)) = some v := by rw [hmat]; exact hv
      simp only [hsrc, hv1, hB, hdst, hBx, wr_some _ hdb]
    · simp only [List.length_set]; exact hlen
    · intro i hi
      by_cases he : i = a
      · subst he
        refine ⟨_, List.getElem?_set_self (by omega), ⟨hBr, hBc, hn31, hn31, hn, ?_⟩, ?_⟩
        · simp only [List.length_set]; exact hBbuf
        · intro col row hcol hrow hd
          simp only [MAT.elt, rd_some]
          by_cases hidx : col * n + row = b * n + c
          · obtain ⟨e1, e2⟩ := radix_inj hrow hc hidx
            subst e1 e2
            rw [List.getElem?_set_self hdb]; exact hv.symm
          · rw [List.getElem?_set_ne (Ne.symm hidx)]
            have hd1 : lexDone i b c i col row := by
              unfold lexDone at hd ⊢
              rcases hd with h | ⟨_, h | ⟨h5, h6⟩⟩
              · omega
              · exact Or.inr ⟨rfl, Or.inl h⟩
              · refine Or.inr ⟨rfl, Or.inr ⟨h5, ?_⟩⟩
                by_contra hcon
                have : row = c := by omega
                subst h5 this
                exact hidx rfl
            have := hBel col row hcol hrow hd1
            simp only [MAT.elt, hBx, rd_some] at this
            exact this
      · obtain ⟨B1, hB1, hB1s, hB1el⟩ := hblk i hi
        refine ⟨B1, by rw [List.getElem?_set_ne (Ne.symm he)]; exact hB1, hB1s, ?_⟩
        intro col row hcol hrow hd
        apply hB1el col row hcol hrow
        unfold lexDone at hd ⊢
        omega

theorem all_some_map {β : Type} : ∀ l : List (Option β),
    (∀ i, i < l.length → ∃ b, l[i]? = some (some b)) → ∃ bs : List β, l = bs.map some
  | [], _ => ⟨[], rfl⟩
  | x :: xs, h => by
    obtain ⟨b, hb⟩ := h 0 (by simp)
    obtain ⟨bs, hbs⟩ := all_some_map xs (fun i hi => by
      have := h (i + 1) (by simp; omega)
      simpa using this)
    simp only [List.getElem?_cons_zero, Option.some.injEq] at hb
    exact ⟨b :: bs, by simp [hb, hbs]⟩

theorem bdInv_mono {M : MAT α} {s n nelts a b c a1 b1 c1 : Nat} {st : BdState α}
    (h : ∀ i col row, i < nelts → col < n → row < n →
      lexDone a1 b1 c1 i col row → lexDone a b c i col row)
    (hI : bdInv M s n nelts a b c st) : bdInv M s n nelts a1 b1 c1 st := by
  obtain ⟨hmat, hlen, hblk⟩ := hI
  refine ⟨hmat, hlen, fun i hi => ?_⟩
  obtain ⟨B, hB, hBs, hBel⟩ := hblk i hi
  exact ⟨B, hB, hBs, fun col row hc hr hd => hBel col row hc hr (h i col row hi hc hr hd)⟩

theorem bd_loops {M : MAT α} {s n : Nat} (hM : M.hasShape s s) (hn : n * n < 2147483648)
    (st : BdState α) (hI : bdInv M s n (s / n) 0 0 0 st) :
    ∃ st1, forLoop (fun i => forLoop (fun col => forLoop (fun row => bdAssign (n : Int) i col row)
            0 n) 0 n) 0 (s / n) st = .ret () st1 ∧ bdInv M s n (s / n) (s / n) 0 0 st1 := by
  refine forLoop_inv _ 0 (fun a => bdInv M s n (s / n) a 0 0) (s / n) st hI ?_
  intro a st1 ha hI1
  rw [Nat.zero_add]
  obtain ⟨st2, h2, hI2⟩ := forLoop_inv (fun col => forLoop (fun row => bdAssign (n : Int) a col row)
    0 n) 0 (fun b => bdInv M s n (s / n) a b 0) n st1 hI1 (by
      intro b st2 hb hI2
      rw [Nat.zero_add]
      obtain ⟨st3, h3, hI3⟩ := forLoop_inv (fun row => bdAssign (n : Int) a b row) 0
        (fun c => bdInv M s n (s / n) a b c) n st2 hI2 (by
          intro c st3 hc hI3
          rw [Nat.zero_add]
          exact bdAssign_step hM hn ha hb hc st3 hI3)
      refine ⟨st3, h3, bdInv_mono ?_ hI3⟩
      intro i col row _ _ hr hd
      unfold lexDone at hd ⊢
      omega)
  refine ⟨st2, h2, bdInv_mono ?_ hI2⟩
  intro i col row _ hc _ hd
  unfold lexDone at hd ⊢
  omega

/-- Claim C4.  For a well-formed square matrix `M` of side `s` and `n > 0` with
`s mod n = 0`, `block_diagonal_MAT(M, n)` returns an array of exactly `s/n` non-NULL
matrices, each a well-formed `n × n` matrix with a buffer of its own, the element
`(r, c)` of the `i`-th one being `M(i*n + r, i*n + c)`; `M` is left as it was. -/
theorem block_diagonal_MAT_correct [Zero α] (M : MAT α) (s : Nat) (n : Int)
    (hM : M.hasShape s s) (hn : 0 < n) (hdiv : (s : Int) % n = 0) :
    ∃ blocks : List (MAT α),
      block_diagonal_MAT M n = .ret (some (blocks.map some)) M ∧
      (blocks.length : Int) = (s : Int) / n ∧
      ∀ i : Nat, (i : Int) < (s : Int) / n →
        ∃ B, blocks[i]? = some B ∧ B.hasShape n.toNat n.toNat ∧
          ∀ r c : Nat, (r : Int) < n → (c : Int) < n →
            ∃ v, M.elt ((i * n.toNat + c) * s + (i * n.toNat + r)) = some v ∧
                 B.elt (c * n.toNat + r) = some v := by
  obtain ⟨m, rfl⟩ := Int.eq_ofNat_of_zero_le (Int.le_of_lt hn)
  have hm : 0 < m := by omega
  have hdivN : s % m = 0 := by omega
  obtain ⟨hnr, hnc, hs31, _, hss, _⟩ := id hM
  have hq : s / m ≤ s := Nat.div_le_self s m
  have e1 : (s : Int).tdiv (m : Int) = ((s / m : Nat) : Int) := (Int.ofNat_tdiv s m).symm
  have e2 : (s : Int).tmod (m : Int) = ((s % m : Nat) : Int) := (Int.ofNat_tmod s m).symm
  have hq0 : (0 : Int) ≤ ((s / m : Nat) : Int) := Int.natCast_nonneg _
  have hqs : ((s / m : Nat) : Int) ≤ (s : Int) := Int.ofNat_le.2 hq
  have e3 : inInt ((s / m : Nat) : Int) := by unfold inInt; omega
  have e4 : ¬ ((m : Int) = 0) := by omega
  have e5 : ¬ (((s / m : Nat) : Int) < 0) := by omega
  have e6 : toU32 ((s / m : Nat) : Int) = s / m := toU32_natCast (by omega)
  have e8 : (s : Int) / (m : Int) = ((s / m : Nat) : Int) := (Int.natCast_div s m).symm
  by_cases hz : s / m = 0
  · -- no block at all
    refine ⟨[], ?_, by rw [e8, hz]; rfl, fun i hi => by rw [e8, hz] at hi; omega⟩
    unfold block_diagonal_MAT
    simp only [hnr, hnc, e1, e2, e3, e4, e5, e6, hdivN, not_true_eq_false, if_false,
      Int.toNat_ofNat, Nat.cast_zero, hz, forLoop, List.replicate_zero, List.map_nil,
      Bool.false_eq_true]
    simp [inInt]
  · have hms : m ≤ s := by
      by_contra hcon
      exact hz (Nat.div_eq_of_lt (by omega))
    have hmm : m * m < 2147483648 := Nat.lt_of_le_of_lt (Nat.mul_le_mul hms hms) hss
    have e7 : toU32 (m : Int) = m := toU32_natCast (by omega)
    -- the allocation loop
    obtain ⟨st0, hst0, hmat0, hbad0, hlen0, hall0⟩ :=
      forLoop_inv (bdAlloc (m : Int)) 0 (fun k => bdAllocInv M m (s / m) k) (s / m)
        { mat := M, mats := List.replicate (s / m) none, bad := false }
        ⟨rfl, rfl, List.length_replicate _ _, fun i hi => by omega⟩
        (fun k st hk hI => by rw [Nat.zero_add]; exact bdAlloc_step hmm hk st hI)
    -- the copy loops
    obtain ⟨st1, hst1, hmat1, hlen1, hblk1⟩ := bd_loops hM hmm st0
      ⟨hmat0, hlen0, fun i hi => ⟨zeroMAT m m, hall0 i hi,
        zeroMAT_hasShape m m (by omega) (by omega) hmm,
        fun col row _ _ hd => by unfold lexDone at hd; omega⟩⟩
    -- every entry of the array is a block
    obtain ⟨blocks, hblocks⟩ := all_some_map st1.mats
      (fun i hi => (hblk1 i (by omega)).imp fun B h => h.1)
    have hbl : blocks.length = s / m := by
      rw [← hlen1, hblocks, List.length_map]
    refine ⟨blocks, ?_, by rw [e8, hbl], ?_⟩
    · unfold block_diagonal_MAT
      simp only [hnr, hnc, e1, e2, e3, e4, e5, e6, e7, hdivN, not_true_eq_false, if_false,
        Int.toNat_ofNat, Nat.cast_zero, hst0, hbad0, hst1, hmat1, hblocks, Bool.false_eq_true]
    · intro i hi
      rw [e8] at hi
      obtain ⟨B, hB, hBs, hBel⟩ := hblk1 i (by omega)
      refine ⟨B, ?_, by rw [Int.toNat_ofNat]; exact hBs, ?_⟩
      · rw [hblocks, List.getElem?_map] at hB
        cases hbi : blocks[i]? with
        | none => rw [hbi] at hB; simp at hB
        | some B1 => rw [hbi] at hB; simp at hB; rw [hB]
      · intro r c hr hc
        rw [Int.toNat_ofNat]
        obtain ⟨_, h2, h3⟩ := bd_src_lt (by omega : i < s / m) (by omega : c < m)
          (by omega : r < m)
        obtain ⟨v, hv⟩ := elt_isSome_of_lt hM h3
        exact ⟨v, hv, by rw [← hv]; exact hBel c r (by omega) (by omega) (Or.inl (by omega))⟩

/-- Witness for `block_diagonal_MAT_correct`: the two 2 × 2 diagonal blocks of a 4 × 4
matrix. -/
theorem block_diagonal_MAT_correct_witness :
    ∃ blocks : List (MAT Int),
      block_diagonal_MAT (⟨4, 4, some [0, 1, 2, 3, 4, 5, 6, 7, 8, 9, 10, 11, 12, 13, 14, 15]⟩ :
        MAT Int) 2 = .ret (some (blocks.map some))
          ⟨4, 4, some [0, 1, 2, 3, 4, 5, 6, 7, 8, 9, 10, 11, 12, 13, 14, 15]⟩ ∧
      (blocks.length : Int) = ((4 : Nat) : Int) / 2 ∧
      ∀ i : Nat, (i : Int) < ((4 : Nat) : Int) / 2 →
        ∃ B, blocks[i]? = some B ∧ B.hasShape (2 : Int).toNat (2 : Int).toNat ∧
          ∀ r c : Nat, (r : Int) < 2 → (c : Int) < 2 →
            ∃ v, (⟨4, 4, some [0, 1, 2, 3, 4, 5, 6, 7, 8, 9, 10, 11, 12, 13, 14, 15]⟩ :
                MAT Int).elt ((i * (2 : Int).toNat + c) * 4 + (i * (2 : Int).toNat + r))
                  = some v ∧
                 B.elt (c * (2 : Int).toNat + r) = some v :=
  block_diagonal_MAT_correct ⟨4, 4, some [0, 1, 2, 3, 4, 5, 6, 7, 8, 9, 10, 11, 12, 13, 14, 15]⟩
    4 2 ⟨rfl, rfl, by decide, by decide, by decide, rfl⟩ (by decide) (by decide)

/-! ## Claim C5 -/

theorem symAssign_step {M : MAT α} {n k j : Nat} (hk : k < n) (hj : j < n - k) (s : MAT α)
    (hI : symInv M n k j s) :
    ∃ s1, assignWithin (u32 (u32 ((k + j) * n) + k)) (u32 (u32 (k * n) + (k + j))) s
        = .ret () s1 ∧ symInv M n k (j + 1) s1 := by
  obtain ⟨hS, hsome, hlow, hup⟩ := hI
  obtain ⟨hnr, hnc, hn31, _, hnn, hbuf⟩ := id hS
  have hrow : k + j < n := by omega
  have hsrc : k * n + (k + j) < n * n := idx_lt hrow hk
  have hdst : (k + j) * n + k < n * n := idx_lt hk hrow
  have e1 : u32 (u32 ((k + j) * n) + k) = (k + j) * n + k := by
    rw [u32_of_lt (by omega : (k + j) * n < 4294967296), u32_of_lt (by omega)]
  have e2 : u32 (u32 (k * n) + (k + j)) = k * n + (k + j) := by
    rw [u32_of_lt (by omega : k * n < 4294967296), u32_of_lt (by omega)]
  cases hx : s.x with
  | none => rw [hx] at hbuf; rcases hbuf with h | h <;> subst h <;> simp at hsrc
  | some b =>
    rw [hx] at hbuf
    simp only at hbuf
    have hsb : k * n + (k + j) < b.length := by omega
    have hdb : (k + j) * n + k < b.length := by omega
    have hval : b[k * n + (k + j)]? = M.elt (k * n + (k + j)) := by
      have := hlow (k + j) k (by omega) hrow
      simp only [MAT.elt, hx, rd_some] at this
      exact this
    refine ⟨{ s with x := some (b.set ((k + j) * n + k) b[k * n + (k + j)]) }, ?_, ?_, ?_, ?_, ?_⟩
    · unfold assignWithin
      rw [e1, e2, hx, rd_some, List.getElem?_eq_getElem hsb]
      simp only [wr_some _ hdb]
    · refine ⟨hnr, hnc, hn31, hn31, hnn, ?_⟩
      simp only [List.length_set]; exact hbuf
    · rw [← hsome, hx]; rfl
    · intro r c hcr hr
      simp only [MAT.elt, rd_some]
      by_cases he : c * n + r = (k + j) * n + k
      · obtain ⟨e3, e4⟩ := radix_inj hr hk he
        have e5 : j = 0 := by omega
        have hq : (k + j) * n + k = k * n + (k + j) := by rw [e5, Nat.add_zero]
        rw [he, List.getElem?_set_self hdb, ← List.getElem?_eq_getElem hsb, hval, hq]
        rfl
      · rw [List.getElem?_set_ne (Ne.symm he)]
        have := hlow r c hcr hr
        simp only [MAT.elt, hx, rd_some] at this
        exact this
    · intro r c hcr hr hd
      simp only [MAT.elt, rd_some]
      by_cases he : r * n + c = (k + j) * n + k
      · obtain ⟨e3, e4⟩ := radix_inj (by omega : c < n) hk he
        rw [he, List.getElem?_set_self hdb, ← List.getElem?_eq_getElem hsb, hval, e3, e4]
        rfl
      · rw [List.getElem?_set_ne (Ne.symm he)]
        have hd1 : c < k ∨ (c = k ∧ r < k + j) := by
          rcases hd with h | ⟨h1, h2⟩
          · exact Or.inl h
          · refine Or.inr ⟨h1, ?_⟩
            by_contra hcon
            have : r = k + j := by omega
            subst h1 this
            exact he rfl
        have := hup r c hcr hr hd1
        simp only [MAT.elt, hx, rd_some] at this
        exact this

/-- Functional description of `symmeteriseL2U` on a well-formed square matrix. -/
theorem symmeteriseL2U_mirror (M : MAT α) (n : Nat) (hM : M.hasShape n n) :
    ∃ M1, symmeteriseL2U M = .ret .self M1 ∧ M1.hasShape n n ∧ M1.x.isSome = M.x.isSome ∧
      ∀ r c, c ≤ r → r < n →
        M1.elt (c * n + r) = M.elt (c * n + r) ∧ M1.elt (r * n + c) = M.elt (c * n + r) := by
  obtain ⟨hnr, hnc, hn31, _, _, _⟩ := id hM
  obtain ⟨s, hs, hI⟩ := forLoop_inv (fun col => forLoop (fun row =>
      assignWithin (u32 (u32 (row * n) + col)) (u32 (u32 (col * n) + row))) col (n - col))
    0 (fun k => symInv M n k 0) n M
    ⟨hM, rfl, fun _ _ _ _ => rfl, fun r c _ _ hd => by omega⟩
    (by
      intro k s hk hI
      rw [Nat.zero_add]
      obtain ⟨s1, h1, hI1⟩ := forLoop_inv (fun row =>
          assignWithin (u32 (u32 (row * n) + k)) (u32 (u32 (k * n) + row))) k
        (fun j => symInv M n k j) (n - k) s hI
        (fun j t hj hIt => symAssign_step hk hj t hIt)
      refine ⟨s1, h1, hI1.1, hI1.2.1, hI1.2.2.1, ?_⟩
      intro r c hcr hr hd
      exact hI1.2.2.2 r c hcr hr (by omega))
  obtain ⟨hS, hsome, hlow, hup⟩ := hI
  refine ⟨s, ?_, hS, hsome, fun r c hcr hr => ⟨hlow r c hcr hr, hup r c hcr hr (by omega)⟩⟩
  unfold symmeteriseL2U
  have hsq : ¬ (M.nrow ≠ (n : Int)) := by rw [hnr]; simp
  simp only [hnc, hsq, if_false, toU32_natCast (by omega : n < 4294967296), hs]

theorem MAT.ext_elt {A B : MAT α} {R C : Nat} (hA : A.hasShape R C) (hB : B.hasShape R C)
    (hsome : A.x.isSome = B.x.isSome) (hel : ∀ q, A.elt q = B.elt q) : A = B := by
  obtain ⟨a1, a2, _, _, _, _⟩ := hA
  obtain ⟨b1, b2, _, _, _, _⟩ := hB
  cases A with
  | mk an ac ax =>
    cases B with
    | mk bn bc bx =>
      simp only at a1 a2 b1 b2 hsome
      simp only [MAT.elt] at hel
      subst a1 a2 b1 b2
      cases ax with
      | none =>
        cases bx with
        | none => rfl
        | some b => simp at hsome
      | some a =>
        cases bx with
        | none => simp at hsome
        | some b =>
          have : a = b := List.ext_getElem? hel
          rw [this]

theorem mirror_symmetric {M M1 : MAT α} {n : Nat} (hS : M1.hasShape n n)
    (hel : ∀ r c, c ≤ r → r < n →
      M1.elt (c * n + r) = M.elt (c * n + r) ∧ M1.elt (r * n + c) = M.elt (c * n + r)) :
    M1.symmetric n := by
  refine ⟨hS, fun r c hr hc => ?_⟩
  by_cases h : c ≤ r
  · rw [(hel r c h hr).1, (hel r c h hr).2]
  · rw [(hel c r (by omega) hc).1, (hel c r (by omega) hc).2]

theorem lapackCall_shape (f : Nat → List α → List α × Int)
    (hf : ∀ n a, (f n a).1.length = a.length) (M : MAT α) (n : Nat) (hM : M.hasShape n n) :
    ∃ M1 info, lapackCall f M = some (M1, info) ∧ M1.hasShape n n := by
  obtain ⟨hnr, hnc, h1, h2, h3, hbuf⟩ := id hM
  unfold lapackCall
  cases hx : M.x with
  | none =>
    rw [hx] at hbuf
    have : M.nrow = 0 := by rw [hnr]; simp only at hbuf; omega
    exact ⟨M, 0, by simp [this], hM⟩
  | some b =>
    rw [hx] at hbuf
    exact ⟨_, _, rfl, hnr, hnc, h1, h2, h3, by simp only [hf]; exact hbuf⟩

/-- Claim C5.  On a well-formed square matrix of order `n`, `symmeteriseL2U` leaves
every lower-triangle element `M(r,c)`, `r ≥ c`, as it was and sets `M(c,r)` to the
original `M(r,c)`; its result is symmetric and is left unchanged by a second
application; the matrices returned by `cholesky` and `invert_cholesky` are symmetric. -/
theorem symmeteriseL2U_correct (L : Lapack α) (M : MAT α) (n : Nat) (hM : M.hasShape n n) :
    (∃ M1, symmeteriseL2U M = .ret .self M1 ∧
      (∀ r c, c ≤ r → r < n →
        M1.elt (c * n + r) = M.elt (c * n + r) ∧ M1.elt (r * n + c) = M.elt (c * n + r)) ∧
      M1.symmetric n ∧ symmeteriseL2U M1 = .ret .self M1) ∧
    (∃ C, cholesky L M = .ret .self C ∧ C.symmetric n) ∧
    (∃ C, invert_cholesky L M = .ret .self C ∧ C.symmetric n) := by
  have hsq : ¬ (M.nrow ≠ M.ncol) := by rw [hM.1, hM.2.1]; simp
  refine ⟨?_, ?_, ?_⟩
  · obtain ⟨M1, h1, hS1, hsome1, hel1⟩ := symmeteriseL2U_mirror M n hM
    obtain ⟨M2, h2, hS2, hsome2, hel2⟩ := symmeteriseL2U_mirror M1 n hS1
    have hsym := mirror_symmetric hS1 hel1
    refine ⟨M1, h1, hel1, hsym, ?_⟩
    have : M2 = M1 := by
      refine MAT.ext_elt hS2 hS1 hsome2 (fun q => ?_)
      by_cases hq : q < n * n
      · have hn : 0 < n := by
          rcases Nat.eq_zero_or_pos n with h | h
          · subst h; simp at hq
          · exact h
        have hqa : q / n < n := (Nat.div_lt_iff_lt_mul hn).2 hq
        have hqb : q % n < n := Nat.mod_lt _ hn
        have hqe : q / n * n + q % n = q := Nat.div_add_mod' q n
        rw [← hqe]
        by_cases hab : q / n ≤ q % n
        · exact (hel2 _ _ hab hqb).1
        · rw [(hel2 (q / n) (q % n) (by omega) hqa).2]
          exact hsym.2 _ _ hqa hqb
      · rw [elt_none_of_le hS2 (by omega), elt_none_of_le hS1 (by omega)]
    rw [this] at h2
    exact h2
  · obtain ⟨M0, info, h0, hS0⟩ := lapackCall_shape L.potrf L.potrf_length M n hM
    obtain ⟨M1, h1, hS1, _, hel1⟩ := symmeteriseL2U_mirror M0 n hS0
    refine ⟨M1, ?_, mirror_symmetric hS1 hel1⟩
    unfold cholesky
    simp only [hsq, if_false, h0, h1]
  · obtain ⟨M0, info, h0, hS0⟩ := lapackCall_shape L.trtri L.trtri_length M n hM
    obtain ⟨M1, h1, hS1, _, hel1⟩ := symmeteriseL2U_mirror M0 n hS0
    refine ⟨M1, ?_, mirror_symmetric hS1 hel1⟩
    unfold invert_cholesky
    simp only [hsq, if_false, h0, h1]
/-- Witness for `symmeteriseL2U_correct`: a 3 × 3 matrix. -/
theorem symmeteriseL2U_correct_witness :
    (∃ M1, symmeteriseL2U (⟨3, 3, some [1, 2, 3, 4, 5, 6, 7, 8, 9]⟩ : MAT Int) = .ret .self M1 ∧
      (∀ r c, c ≤ r → r < 3 →
        M1.elt (c * 3 + r) = (⟨3, 3, some [1, 2, 3, 4, 5, 6, 7, 8, 9]⟩ : MAT Int).elt (c * 3 + r) ∧
        M1.elt (r * 3 + c) = (⟨3, 3, some [1, 2, 3, 4, 5, 6, 7, 8, 9]⟩ : MAT Int).elt (c * 3 + r)) ∧
      M1.symmetric 3 ∧ symmeteriseL2U M1 = .ret .self M1) ∧
    (∃ C, cholesky (stubLapack 0) ⟨3, 3, some [1, 2, 3, 4, 5, 6, 7, 8, 9]⟩ = .ret .self C ∧
      C.symmetric 3) ∧
    (∃ C, invert_cholesky (stubLapack 0) ⟨3, 3, some [1, 2, 3, 4, 5, 6, 7, 8, 9]⟩ = .ret .self C ∧
      C.symmetric 3) :=
  symmeteriseL2U_correct (stubLapack 0) ⟨3, 3, some [1, 2, 3, 4, 5, 6, 7, 8, 9]⟩ 3
    ⟨rfl, rfl, by decide, by decide, by decide, rfl⟩

/-! ## Claim C6 -/

/-- Claim C6 as stated fails: on the 1 × 1 matrix `[0]` the factorisation and the
triangular inversion report `info = 1`, and both `cholesky` and `invert_cholesky` return
the matrix itself, as on success. -/
theorem cholesky_failure_unsignalled :
    ((stubLapack 1).potrf 1 [0]).2 ≠ 0 ∧
    cholesky (stubLapack 1) ⟨1, 1, some [0]⟩ = .ret .self ⟨1, 1, some [0]⟩ ∧
    ((stubLapack 1).trtri 1 [0]).2 ≠ 0 ∧
    invert_cholesky (stubLapack 1) ⟨1, 1, some [0]⟩ = .ret .self ⟨1, 1, some [0]⟩ := by
  decide

/-- The call of a LAPACK routine on a well-formed square matrix of order `n` leaves the
matrix with the buffer that the routine wrote. -/
theorem lapackCall_eq (f : Nat → List α → List α × Int)
    (hf : ∀ n a, (f n a).1.length = a.length) (M : MAT α) (n : Nat) (hM : M.hasShape n n) :
    (∃ info, lapackCall f M = some ({ M with x := M.x.map (fun b => (f n b).1) }, info)) ∧
    MAT.hasShape { M with x := M.x.map (fun b => (f n b).1) } n n := by
  have e1 : toU32 M.nrow = n := by rw [hM.1]; exact toU32_natCast (by have := hM.2.2.1; omega)
  cases M with
  | mk nr nc x =>
    obtain ⟨hnr, hnc, h1, h2, h3, hbuf⟩ := id hM
    simp only at hnr hnc hbuf e1
    unfold lapackCall
    cases x with
    | none =>
      simp only at hbuf
      have h0 : nr = 0 := by rw [hnr]; omega
      simp only [h0, if_true, Option.map_none']
      exact ⟨⟨0, rfl⟩, h0 ▸ hM⟩
    | some b =>
      simp only at hbuf
      simp only [e1, Option.map_some']
      exact ⟨⟨_, rfl⟩, hnr, hnc, h1, h2, h3, by simp only [hf]; exact hbuf⟩

/-- Claim C6, amended.  `cholesky` and `invert_cholesky` do not look at `info`: on every
well-formed square matrix of order `n` they return the matrix itself, holding the
symmetrisation of whatever `potrf` (respectively `trtri`) left in the buffer: the lower
triangle of the result is the lower triangle that LAPACK wrote and the upper triangle
mirrors it, whatever LAPACK reports; the outcome is the same for any two LAPACK
behaviours that write the same buffer; NULL is returned exactly for a matrix that is not
square, and that matrix is left as it is. -/
theorem cholesky_info_unchecked (L : Lapack α) (M : MAT α) (n : Nat) (hM : M.hasShape n n) :
    (∃ C, cholesky L M = .ret .self C ∧
      symmeteriseL2U { M with x := M.x.map (fun b => (L.potrf n b).1) } = .ret .self C ∧
      (∀ r c, c ≤ r → r < n →
        C.elt (c * n + r)
          = MAT.elt { M with x := M.x.map (fun b => (L.potrf n b).1) } (c * n + r) ∧
        C.elt (r * n + c)
          = MAT.elt { M with x := M.x.map (fun b => (L.potrf n b).1) } (c * n + r)) ∧
      C.symmetric n) ∧
    (∃ C, invert_cholesky L M = .ret .self C ∧
      symmeteriseL2U { M with x := M.x.map (fun b => (L.trtri n b).1) } = .ret .self C ∧
      (∀ r c, c ≤ r → r < n →
        C.elt (c * n + r)
          = MAT.elt { M with x := M.x.map (fun b => (L.trtri n b).1) } (c * n + r) ∧
        C.elt (r * n + c)
          = MAT.elt { M with x := M.x.map (fun b => (L.trtri n b).1) } (c * n + r)) ∧
      C.symmetric n) ∧
    (∀ L1 : Lapack α, (∀ k a, (L1.potrf k a).1 = (L.potrf k a).1) →
      cholesky L1 M = cholesky L M) ∧
    (∀ L1 : Lapack α, (∀ k a, (L1.trtri k a).1 = (L.trtri k a).1) →
      invert_cholesky L1 M = invert_cholesky L M) ∧
    (∀ N : MAT α, N.nrow ≠ N.ncol →
      cholesky L N = .ret .null N ∧ invert_cholesky L N = .ret .null N) := by
  have hsq : ¬ (M.nrow ≠ M.ncol) := by rw [hM.1, hM.2.1]; simp
  refine ⟨?_, ?_, ?_, ?_, ?_⟩
  · obtain ⟨⟨info, h0⟩, hS0⟩ := lapackCall_eq L.potrf L.potrf_length M n hM
    obtain ⟨M1, h1, hS1, _, hel1⟩ := symmeteriseL2U_mirror _ n hS0
    refine ⟨M1, ?_, h1, hel1, mirror_symmetric hS1 hel1⟩
    unfold cholesky
    simp only [hsq, if_false, h0, h1]
  · obtain ⟨⟨info, h0⟩, hS0⟩ := lapackCall_eq L.trtri L.trtri_length M n hM
    obtain ⟨M1, h1, hS1, _, hel1⟩ := symmeteriseL2U_mirror _ n hS0
    refine ⟨M1, ?_, h1, hel1, mirror_symmetric hS1 hel1⟩
    unfold invert_cholesky
    simp only [hsq, if_false, h0, h1]
  · intro L1 hL
    unfold cholesky lapackCall
    cases hx : M.x with
    | none => rfl
    | some b => simp only [hL]
  · intro L1 hL
    unfold invert_cholesky lapackCall
    cases hx : M.x with
    | none => rfl
    | some b => simp only [hL]
  · intro N hN
    unfold cholesky invert_cholesky
    simp only [hN, ne_eq, not_false_eq_true, if_true, and_self]

/-- Witness for `cholesky_info_unchecked`: the 2 × 2 matrix `[4, 2, 9, 5]`, with a
LAPACK that writes the factor `[2, 1, 9, 2]` into the buffer and reports failure. -/
theorem cholesky_info_unchecked_witness :
    cholesky (writingLapack [2, 1, 9, 2] 1) ⟨2, 2, some [4, 2, 9, 5]⟩
      = .ret .self ⟨2, 2, some [2, 1, 1, 2]⟩ ∧
    invert_cholesky (writingLapack [2, 1, 9, 2] 1) ⟨2, 2, some [4, 2, 9, 5]⟩
      = .ret .self ⟨2, 2, some [2, 1, 1, 2]⟩ ∧
    (∃ C, cholesky (writingLapack [2, 1, 9, 2] 1) ⟨2, 2, some [4, 2, 9, 5]⟩ = .ret .self C ∧
      symmeteriseL2U { (⟨2, 2, some [4, 2, 9, 5]⟩ : MAT Int) with
          x := (some [4, 2, 9, 5]).map (fun b => ((writingLapack [2, 1, 9, 2] 1).potrf 2 b).1) }
        = .ret .self C ∧
      C.symmetric 2) :=
  ⟨by decide, by decide,
   (cholesky_info_unchecked (writingLapack [2, 1, 9, 2] 1) ⟨2, 2, some [4, 2, 9, 5]⟩ 2
      ⟨rfl, rfl, by decide, by decide, by decide, rfl⟩).1.imp
     (fun _ h => ⟨h.1, h.2.1, h.2.2.2⟩)⟩
/-! ## Claim C7 -/

/-- The part of claim C7 that holds: a size argument that is not zero and does not
divide the relevant quantity makes each re-blocking routine return NULL and leave the
matrix as it is. -/
theorem reblock_rejects_indivisible [Zero α] (M : MAT α) :
    (∀ p : Nat, p ≠ 0 → toU32 M.nrow % p ≠ 0 → vectranspose M p = .ret none M) ∧
    (∀ nrow : Int, nrow ≠ 0 → inInt (M.nrow * M.ncol) →
      inInt ((M.nrow * M.ncol).tdiv nrow) → (M.nrow * M.ncol).tmod nrow ≠ 0 →
      reshape_MAT M nrow = .ret .null M) ∧
    (∀ n : Int, n ≠ 0 → M.ncol = M.nrow → inInt (M.ncol.tdiv n) → M.ncol.tmod n ≠ 0 →
      block_diagonal_MAT M n = .ret none M) := by
  refine ⟨?_, ?_, ?_⟩
  · intro p hp hd
    unfold vectranspose
    simp only [hp, if_false, ne_eq, Ne.symm hd, not_false_eq_true, if_true]
  · intro nrow h0 h1 h2 h3
    unfold reshape_MAT
    simp only [h0, h1, h2, h3, not_true_eq_false, not_false_eq_true, if_false, if_true]
  · intro n h0 hsq h1 h2
    unfold block_diagonal_MAT
    rw [hsq] at h1 h2
    simp only [h0, hsq, h1, h2, not_true_eq_false, not_false_eq_true, if_false, if_true]

/-- Claim C7 fails for a zero size argument: on a 2 × 2 matrix each of
`vectranspose(M, 0)`, `reshape_MAT(M, 0)` and `block_diagonal_MAT(M, 0)` evaluates a
remainder or quotient by zero instead of returning NULL. -/
theorem reblock_zero_size_divides_by_zero :
    vectranspose (⟨2, 2, some [1, 2, 3, 4]⟩ : MAT Int) 0
      = .fault .divByZero ⟨2, 2, some [1, 2, 3, 4]⟩ ∧
    reshape_MAT (⟨2, 2, some [1, 2, 3, 4]⟩ : MAT Int) 0
      = .fault .divByZero ⟨2, 2, some [1, 2, 3, 4]⟩ ∧
    block_diagonal_MAT (⟨2, 2, some [1, 2, 3, 4]⟩ : MAT Int) 0
      = .fault .divByZero ⟨2, 2, some [1, 2, 3, 4]⟩ := by
  decide

/-! ## Claim C8 -/

/-- Claim C8.  `trim_MAT` returns NULL and leaves the matrix as it is when `mrow < 0`,
`mcol < 0`, `mrow > nrow` or `mcol > ncol`; for an in-range request with
`forwards = false` it ends the run with a fatal error, the matrix still as it was. -/
theorem trim_MAT_rejects (M : MAT α) (mrow mcol : Int) (forwards : Bool) :
    ((mrow < 0 ∨ mcol < 0 ∨ mrow > M.nrow ∨ mcol > M.ncol) →
      trim_MAT M mrow mcol forwards = .ret .null M) ∧
    ((0 ≤ mrow ∧ mrow ≤ M.nrow ∧ 0 ≤ mcol ∧ mcol ≤ M.ncol) →
      trim_MAT M mrow mcol false = .fault .fatalExit M) := by
  refine ⟨?_, ?_⟩
  · intro h
    unfold trim_MAT
    by_cases h1 : mrow ≥ 0
    · by_cases h2 : mcol ≥ 0
      · by_cases h3 : mrow ≤ M.nrow
        · have h4 : ¬ (mcol ≤ M.ncol) := by omega
          simp only [h1, h2, h3, h4, not_true_eq_false, not_false_eq_true, if_false, if_true]
        · simp only [h1, h2, h3, not_true_eq_false, not_false_eq_true, if_false, if_true]
      · simp only [h1, h2, not_true_eq_false, not_false_eq_true, if_false, if_true]
    · simp only [h1, not_false_eq_true, if_true]
  · rintro ⟨h1, h2, h3, h4⟩
    unfold trim_MAT
    simp only [ge_iff_le, h1, h2, h3, h4, not_true_eq_false, if_false, if_true]

/-- Witness for `trim_MAT_rejects`: a 2 × 2 matrix, asked for 5 rows, and asked for a
backward trim. -/
theorem trim_MAT_rejects_witness :
    trim_MAT (⟨2, 2, some [1, 2, 3, 4]⟩ : MAT Int) 5 1 true
      = .ret .null ⟨2, 2, some [1, 2, 3, 4]⟩ ∧
    trim_MAT (⟨2, 2, some [1, 2, 3, 4]⟩ : MAT Int) 1 1 false
      = .fault .fatalExit ⟨2, 2, some [1, 2, 3, 4]⟩ :=
  ⟨(trim_MAT_rejects ⟨2, 2, some [1, 2, 3, 4]⟩ 5 1 true).1 (by decide),
   (trim_MAT_rejects ⟨2, 2, some [1, 2, 3, 4]⟩ 1 1 false).2 (by decide)⟩
/-! ## Claim C9 -/

/-- Partial-correctness rule for `forLoop`: a property kept by every iteration that
returns is kept by a loop that returns. -/
theorem forLoop_preserves {σ : Type} (P : σ → Prop) (body : Nat → σ → Outcome σ Unit) (lo : Nat)
    (hbody : ∀ i s t, P s → body i s = .ret () t → P t) :
    ∀ n s t, P s → forLoop body lo n s = .ret () t → P t := by
  intro n
  induction n with
  | zero =>
    intro s t hs h
    simp only [forLoop, Outcome.ret.injEq, true_and] at h
    rw [← h]; exact hs
  | succ k ih =>
    intro s t hs h
    simp only [forLoop] at h
    cases hk : forLoop body lo k s with
    | ret v s1 =>
      rw [hk] at h
      exact hbody _ s1 t (ih s s1 hs hk) h
    | fault f s1 => rw [hk] at h; cases h

theorem sameFrame_refl (a : MAT α) : sameFrame a a := ⟨rfl, rfl, rfl⟩

theorem sameFrame_trans {a b c : MAT α} (h1 : sameFrame a b) (h2 : sameFrame b c) :
    sameFrame a c :=
  ⟨h1.1.trans h2.1, h1.2.1.trans h2.2.1, h1.2.2.trans h2.2.2⟩

theorem inv_of_sameFrame {a b : MAT α} (h : sameFrame a b) (hb : b.inv) : a.inv := by
  obtain ⟨h1, h2, h3⟩ := h
  unfold MAT.inv at hb ⊢
  rw [h1, h2]
  cases ha : a.x with
  | none =>
    cases hbx : b.x with
    | none => rw [hbx] at hb; exact hb
    | some l => rw [ha, hbx] at h3; simp at h3
  | some l =>
    cases hbx : b.x with
    | none => rw [ha, hbx] at h3; simp at h3
    | some l1 =>
      rw [ha, hbx] at h3
      rw [hbx] at hb
      simp only [Option.map_some', Option.some.injEq] at h3
      simp only at hb ⊢
      rw [h3]; exact hb

theorem wr_length {x x1 : Option (List α)} {i : Nat} {v : α} (h : wr x i v = some x1) :
    x1.map List.length = x.map List.length := by
  unfold wr at h
  cases x with
  | none => cases h
  | some b =>
    simp only at h
    split_ifs at h
    simp only [Option.some.injEq] at h
    rw [← h]; simp

theorem memmove_length {x x1 : Option (List α)} {dst src n : Nat}
    (h : memmove x dst src n = some x1) : x1.map List.length = x.map List.length := by
  unfold memmove at h
  cases x with
  | none =>
    simp only at h
    split_ifs at h
    simp only [Option.some.injEq] at h
    rw [← h]
  | some b =>
    simp only at h
    split_ifs at h with hc
    simp only [Option.some.injEq] at h
    rw [← h]
    simp only [Option.map_some', Option.some.injEq, List.length_append, List.length_take,
      List.length_drop]
    omega

theorem memcpy_length {d s d1 : Option (List α)} {n : Nat}
    (h : memcpy d s n = some d1) : d1.map List.length = d.map List.length := by
  unfold memcpy at h
  cases d with
  | none =>
    simp only at h
    split_ifs at h
    simp only [Option.some.injEq] at h
    rw [← h]
  | some dl =>
    cases s with
    | none =>
      simp only at h
      split_ifs at h
      simp only [Option.some.injEq] at h
      rw [← h]
    | some sl =>
      simp only at h
      split_ifs at h with hc
      simp only [Option.some.injEq] at h
      rw [← h]
      simp only [Option.map_some', Option.some.injEq, List.length_append, List.length_take,
        List.length_drop]
      omega

theorem new_MAT_inv [Zero α] {nrow ncol : Int} {m : MAT α}
    (hfit : inInt (nrow * ncol)) (h : new_MAT nrow ncol = .ok (some m)) :
    m.inv ∧ m.nrow = nrow ∧ m.ncol = ncol ∧ ∀ b, m.x = some b → ∀ v ∈ b, v = 0 := by
  unfold new_MAT at h
  rw [eltCount_of_inInt hfit] at h
  by_cases h1 : 0 = ncol ∨ 0 = nrow
  · simp only [h1, if_true, Except.ok.injEq, Option.some.injEq] at h
    subst h
    refine ⟨?_, rfl, rfl, fun b hb => by cases hb⟩
    unfold MAT.inv
    simp only
    omega
  · by_cases h3 : nrow * ncol < 0
    · simp [h1, h3] at h
    · simp only [h1, h3, if_false, Except.ok.injEq, Option.some.injEq] at h
      subst h
      refine ⟨?_, rfl, rfl, ?_⟩
      · unfold MAT.inv
        simp only [List.length_replicate]
        omega
      · intro b hb v hv
        simp only [Option.some.injEq] at hb
        subst hb
        exact List.eq_of_mem_replicate hv

/-- The element count of the matrix that `vectranspose` allocates for a well-formed
matrix fits an `int`. -/
theorem vectranspose_count_fits {M : MAT α} {p nrow ncol : Nat} (hM : M.hasShape nrow ncol)
    (hdiv : ¬ (0 ≠ toU32 M.nrow % p)) :
    inInt (toI32 (u32 (p * toU32 M.ncol)) * toI32 (toU32 M.nrow / p)) := by
  obtain ⟨hnr, hnc, hnr31, hnc31, hprod, _⟩ := id hM
  have e1 : toU32 M.nrow = nrow := by rw [hnr]; exact toU32_natCast (by omega)
  have e2 : toU32 M.ncol = ncol := by rw [hnc]; exact toU32_natCast (by omega)
  rw [e1, e2]
  rw [e1] at hdiv
  have hd : nrow % p = 0 := by omega
  rcases Nat.eq_zero_or_pos nrow with h0 | hpos
  · subst h0
    have hz : toI32 (0 / p) = 0 := by rw [Nat.zero_div]; exact toI32_of_lt (by omega)
    rw [hz, Int.mul_zero]
    unfold inInt
    omega
  · have hfit := reblock_rows_fit hprod hd (Or.inl hpos)
    have hm : nrow / p ≤ nrow := Nat.div_le_self nrow p
    have htot : p * ncol * (nrow / p) = nrow * ncol := by
      rw [Nat.mul_right_comm, Nat.mul_comm p, reblock_total hd]
    have e3 : toI32 (u32 (p * ncol)) = ((p * ncol : Nat) : Int) := by
      rw [u32_of_lt (by omega), toI32_of_lt hfit]
    have e4 : toI32 (nrow / p) = ((nrow / p : Nat) : Int) := toI32_of_lt (by omega)
    have e5 : ((p * ncol : Nat) : Int) * ((nrow / p : Nat) : Int)
        = ((nrow * ncol : Nat) : Int) := by
      rw [← htot]; push_cast; ring
    rw [e3, e4, e5]
    unfold inInt
    omega

theorem assignWithin_frame {dst src : Nat} {s t : MAT α}
    (h : assignWithin dst src s = .ret () t) : sameFrame t s := by
  unfold assignWithin at h
  cases hr : rd s.x src with
  | none => rw [hr] at h; cases h
  | some v =>
    rw [hr] at h
    simp only at h
    cases hw : wr s.x dst v with
    | none => rw [hw] at h; cases h
    | some b =>
      rw [hw] at h
      simp only [Outcome.ret.injEq, true_and] at h
      subst h
      have hlen := wr_length hw
      exact ⟨rfl, rfl, hlen⟩

theorem vtAssign_frame {p col subcol i : Nat} {s t : VtState α}
    (h : vtAssign p col subcol i s = .ret () t) : sameFrame t.vtmat s.vtmat := by
  unfold vtAssign at h
  cases hr : rd s.mat.x (vtSrc s.mat.nrow p col subcol i) with
  | none => rw [hr] at h; cases h
  | some v =>
    rw [hr] at h
    simp only at h
    cases hw : wr s.vtmat.x (vtDst s.vtmat.nrow p col subcol i) v with
    | none => rw [hw] at h; cases h
    | some b =>
      rw [hw] at h
      simp only [Outcome.ret.injEq, true_and] at h
      subst h
      have hlen := wr_length hw
      exact ⟨rfl, rfl, hlen⟩

theorem vectranspose_inv [Zero α] {M : MAT α} {p nrow ncol : Nat} {V s : MAT α}
    (hM : M.hasShape nrow ncol) (h : vectranspose M p = .ret (some V) s) : V.inv := by
  unfold vectranspose at h
  split_ifs at h with h1 h2
  · simp at h
  have hfit := vectranspose_count_fits hM h2
  cases hn : (new_MAT (toI32 (u32 (p * toU32 M.ncol))) (toI32 (toU32 M.nrow / p)) :
      Except Fault (Option (MAT α))) with
  | error f => rw [hn] at h; cases h
  | ok o =>
    rw [hn] at h
    cases o with
    | none => simp at h
    | some vtmat =>
      simp only at h
      cases hl : forLoop (fun col => forLoop (fun subcol => forLoop (fun i =>
          vtAssign p col subcol i) 0 p) 0 (toU32 M.nrow / p)) 0 (toU32 M.ncol)
          { mat := M, vtmat := vtmat } with
      | fault f t => rw [hl] at h; cases h
      | ret u t =>
        rw [hl] at h
        simp only [Outcome.ret.injEq, Option.some.injEq] at h
        have hfr : sameFrame t.vtmat vtmat :=
          forLoop_preserves (fun st : VtState α => sameFrame st.vtmat vtmat) _ 0
            (fun col s1 t1 hs1 hb =>
              forLoop_preserves (fun st : VtState α => sameFrame st.vtmat vtmat) _ 0
                (fun subcol s2 t2 hs2 hb2 =>
                  forLoop_preserves (fun st : VtState α => sameFrame st.vtmat vtmat) _ 0
                    (fun i s3 t3 hs3 hb3 => sameFrame_trans (vtAssign_frame hb3) hs3)
                    _ s2 t2 hs2 hb2)
                _ s1 t1 hs1 hb)
            _ _ t (sameFrame_refl vtmat) hl
        rw [← h.1]
        exact inv_of_sameFrame hfr (new_MAT_inv hfit hn).1

theorem copy_MAT_inv [Zero α] {M m s : MAT α} (hfit : inInt (M.nrow * M.ncol))
    (h : copy_MAT M = .ret (some m) s) : m.inv := by
  unfold copy_MAT at h
  cases hn : (new_MAT M.nrow M.ncol : Except Fault (Option (MAT α))) with
  | error f => rw [hn] at h; cases h
  | ok o =>
    rw [hn] at h
    cases o with
    | none => simp at h
    | some newmat =>
      simp only at h
      cases hc : memcpy newmat.x M.x (M.nrow * M.ncol).toNat with
      | none => rw [hc] at h; cases h
      | some b =>
        rw [hc] at h
        simp only [Outcome.ret.injEq, Option.some.injEq] at h
        rw [← h.1]
        have hfr : sameFrame { newmat with x := b } newmat := ⟨rfl, rfl, memcpy_length hc⟩
        exact inv_of_sameFrame hfr (new_MAT_inv hfit hn).1

theorem setDiag_frame [One α] {nrow : Int} {i : Nat} {s t : MAT α}
    (h : setDiag nrow i s = .ret () t) : sameFrame t s := by
  unfold setDiag at h
  split_ifs at h
  cases hw : wr s.x ((i : Int) * nrow + i).toNat 1 with
  | none => rw [hw] at h; cases h
  | some b =>
    rw [hw] at h
    simp only [Outcome.ret.injEq, true_and] at h
    subst h
    have hlen := wr_length hw
    exact ⟨rfl, rfl, hlen⟩

theorem identity_MAT_inv [Zero α] [One α] {nrow : Int} {m : MAT α}
    (hfit : inInt (nrow * nrow)) (h : identity_MAT nrow = .ok (some m)) : m.inv := by
  unfold identity_MAT at h
  cases hn : (new_MAT nrow nrow : Except Fault (Option (MAT α))) with
  | error f => rw [hn] at h; cases h
  | ok o =>
    rw [hn] at h
    cases o with
    | none => simp at h
    | some mat =>
      simp only at h
      cases hl : forLoop (setDiag nrow) 0 nrow.toNat mat with
      | fault f t => rw [hl] at h; cases h
      | ret u t =>
        rw [hl] at h
        simp only [Except.ok.injEq, Option.some.injEq] at h
        rw [← h]
        exact inv_of_sameFrame
          (forLoop_preserves (fun st => sameFrame st mat) _ 0
            (fun i s1 t1 hs1 hb => sameFrame_trans (setDiag_frame hb) hs1)
            _ _ t (sameFrame_refl mat) hl)
          (new_MAT_inv hfit hn).1

theorem scale_MAT_frame [Mul α] {M s : MAT α} {f : α} {r : Ret}
    (h : scale_MAT M f = .ret r s) : sameFrame s M := by
  unfold scale_MAT at h
  split_ifs at h
  cases hl : forLoop (fun elt s =>
            match rd s.x elt with
            | none => Outcome.fault Fault.outOfBounds s
            | some v =>
              match wr s.x elt (v * f) with
              | none => Outcome.fault Fault.outOfBounds s
              | some b => Outcome.ret () { s with x := b })
            0 (toU32 (M.ncol * M.nrow)) M with
  | fault fl t => rw [hl] at h; cases h
  | ret u t =>
    rw [hl] at h
    simp only [Outcome.ret.injEq] at h
    rw [← h.2]
    refine forLoop_preserves (fun st => sameFrame st M) _ 0 ?_ _ _ t (sameFrame_refl M) hl
    intro i s1 t1 hs1 hb
    simp only at hb
    cases hr : rd s1.x i with
    | none => rw [hr] at hb; cases hb
    | some v =>
      rw [hr] at hb
      simp only at hb
      cases hw : wr s1.x i (v * f) with
      | none => rw [hw] at hb; cases hb
      | some b =>
        rw [hw] at hb
        simp only [Outcome.ret.injEq, true_and] at hb
        subst hb
        have hfr : sameFrame { s1 with x := b } s1 := ⟨rfl, rfl, wr_length hw⟩
        exact sameFrame_trans hfr hs1

theorem symmeteriseL2U_frame {M s : MAT α} {r : Ret}
    (h : symmeteriseL2U M = .ret r s) : sameFrame s M := by
  unfold symmeteriseL2U at h
  split_ifs at h
  · simp only [Outcome.ret.injEq] at h
    rw [← h.2]; exact sameFrame_refl M
  · simp only at h
    cases hl : forLoop (fun col => forLoop (fun row =>
        assignWithin (u32 (u32 (row * toU32 M.ncol) + col)) (u32 (u32 (col * toU32 M.ncol) + row)))
        col (toU32 M.ncol - col)) 0 (toU32 M.ncol) M with
    | fault f t => rw [hl] at h; cases h
    | ret u t =>
      rw [hl] at h
      simp only [Outcome.ret.injEq] at h
      rw [← h.2]
      exact forLoop_preserves (fun st => sameFrame st M) _ 0
        (fun col s1 t1 hs1 hb =>
          forLoop_preserves (fun st => sameFrame st M) _ col
            (fun row s2 t2 hs2 hb2 => sameFrame_trans (assignWithin_frame hb2) hs2)
            _ s1 t1 hs1 hb)
        _ _ t (sameFrame_refl M) hl

theorem reshape_MAT_inv {M s : MAT α} {nrow : Int} {r : Ret} (hM : M.inv)
    (h : reshape_MAT M nrow = .ret r s) : s.inv := by
  unfold reshape_MAT at h
  by_cases h1 : inInt (M.nrow * M.ncol)
  · by_cases h2 : nrow = 0
    · simp [h1, h2] at h
    · by_cases h3 : inInt ((M.nrow * M.ncol).tdiv nrow)
      · by_cases h4 : (M.nrow * M.ncol).tmod nrow = 0
        · simp only [h1, h2, h3, h4, not_true_eq_false, if_false, Outcome.ret.injEq] at h
          rw [← h.2]
          have hmul : nrow * (M.nrow * M.ncol).tdiv nrow = M.nrow * M.ncol :=
            Int.mul_tdiv_cancel' (Int.dvd_of_tmod_eq_zero h4)
          unfold MAT.inv at hM ⊢
          cases hx : M.x with
          | none =>
            rw [hx] at hM
            simp only at hM ⊢
            right
            have : M.nrow * M.ncol = 0 := by rcases hM with h0 | h0 <;> rw [h0] <;> simp
            rw [this]; simp
          | some b =>
            rw [hx] at hM
            simp only at hM ⊢
            rw [hmul]; exact hM
        · simp only [h1, h2, h3, h4, not_true_eq_false, not_false_eq_true, if_false, if_true,
            Outcome.ret.injEq] at h
          rw [← h.2]; exact hM
      · simp [h1, h2, h3] at h
  · simp [h1] at h

theorem trimCol_frame {mrow : Int} {col : Nat} {s t : MAT α}
    (h : trimCol mrow col s = .ret () t) : sameFrame t s := by
  unfold trimCol at h
  simp only at h
  cases hm : memmove s.x (u32 (col * toU32 mrow)) (u32 (col * toU32 s.nrow)) mrow.toNat with
  | none => rw [hm] at h; cases h
  | some b =>
    rw [hm] at h
    simp only [Outcome.ret.injEq, true_and] at h
    subst h
    have hfr : sameFrame { s with x := b } s := ⟨rfl, rfl, memmove_length hm⟩
    exact hfr

theorem roomy_of_inv {M : MAT α} (hM : M.inv) : M.roomy := by
  unfold MAT.inv at hM
  unfold MAT.roomy
  cases hx : M.x with
  | none => rw [hx] at hM; exact hM
  | some b => rw [hx] at hM; simp only at hM ⊢; omega

theorem trim_MAT_roomy {M s : MAT α} {mrow mcol : Int} {fw : Bool} {r : Ret} (hM : M.inv)
    (h : trim_MAT M mrow mcol fw = .ret r s) :
    s.roomy ∧ s.x.map List.length = M.x.map List.length ∧
      (r = .self → s.nrow = mrow ∧ s.ncol = mcol) := by
  unfold trim_MAT at h
  by_cases h1 : mrow ≥ 0
  · by_cases h2 : mcol ≥ 0
    · by_cases h3 : mrow ≤ M.nrow
      · by_cases h4 : mcol ≤ M.ncol
        · cases fw with
          | false => simp [h1, h2, h3, h4] at h
          | true =>
            simp only [h1, h2, h3, h4, not_true_eq_false, if_false, Bool.true_eq_false] at h
            cases hl : forLoop (trimCol mrow) 0 (toU32 mcol) M with
            | fault f t => rw [hl] at h; cases h
            | ret u t =>
              rw [hl] at h
              simp only [Outcome.ret.injEq] at h
              obtain ⟨hr, hs⟩ := h
              have hfr : sameFrame t M :=
                forLoop_preserves (fun st => sameFrame st M) _ 0
                  (fun i s1 t1 hs1 hb => sameFrame_trans (trimCol_frame hb) hs1)
                  _ _ t (sameFrame_refl M) hl
              have htinv : t.inv := inv_of_sameFrame hfr hM
              rw [← hs]
              refine ⟨?_, hfr.2.2, fun _ => ⟨rfl, rfl⟩⟩
              have hle : mrow * mcol ≤ M.nrow * M.ncol :=
                Int.mul_le_mul h3 h4 h2 (by omega)
              unfold MAT.inv at htinv
              unfold MAT.roomy
              rw [hfr.1, hfr.2.1] at htinv
              cases hx : t.x with
              | none =>
                rw [hx] at htinv
                simp only at htinv ⊢
                omega
              | some b =>
                rw [hx] at htinv
                simp only at htinv ⊢
                omega
        · simp only [h1, h2, h3, h4, not_true_eq_false, not_false_eq_true, if_false, if_true,
            Outcome.ret.injEq] at h
          rw [← h.2, ← h.1]
          exact ⟨roomy_of_inv hM, rfl, fun hc => by cases hc⟩
      · simp only [h1, h2, h3, not_true_eq_false, not_false_eq_true, if_false, if_true,
          Outcome.ret.injEq] at h
        rw [← h.2, ← h.1]
        exact ⟨roomy_of_inv hM, rfl, fun hc => by cases hc⟩
    · simp only [h1, h2, not_true_eq_false, not_false_eq_true, if_false, if_true,
        Outcome.ret.injEq] at h
      rw [← h.2, ← h.1]
      exact ⟨roomy_of_inv hM, rfl, fun hc => by cases hc⟩
  · simp only [h1, not_false_eq_true, if_true, Outcome.ret.injEq] at h
    rw [← h.2, ← h.1]
    exact ⟨roomy_of_inv hM, rfl, fun hc => by cases hc⟩

/-- Claim C9 as stated fails for `trim_MAT`: trimming a 2 × 2 matrix to 1 × 1 leaves the
buffer with its four elements, and trimming it to 0 × 0 leaves the buffer in place. -/
theorem trim_MAT_keeps_buffer :
    (⟨2, 2, some [1, 2, 3, 4]⟩ : MAT Int).inv ∧
    trim_MAT (⟨2, 2, some [1, 2, 3, 4]⟩ : MAT Int) 1 1 true
      = .ret .self ⟨1, 1, some [1, 2, 3, 4]⟩ ∧
    ¬ (⟨1, 1, some [1, 2, 3, 4]⟩ : MAT Int).inv ∧
    trim_MAT (⟨2, 2, some [1, 2, 3, 4]⟩ : MAT Int) 0 0 true
      = .ret .self ⟨0, 0, some [1, 2, 3, 4]⟩ := by
  refine ⟨by unfold MAT.inv; decide, by decide, by unfold MAT.inv; decide, by decide⟩

/-- The element count of `new_MAT` wraps: `new_MAT(65536, 65536)` returns a
65536 × 65536 matrix whose buffer has no element, and `new_MAT(65536, 65537)` one whose
buffer has 65536 elements; neither satisfies the representation invariant. -/
theorem new_MAT_count_wraps :
    (new_MAT 65536 65536 : Except Fault (Option (MAT Int)))
      = .ok (some ⟨65536, 65536, some []⟩) ∧
    ¬ (⟨65536, 65536, some []⟩ : MAT Int).inv ∧
    (∃ b, (new_MAT 65536 65537 : Except Fault (Option (MAT Int)))
        = .ok (some ⟨65536, 65537, some b⟩) ∧ b.length = 65536 ∧
      ¬ (⟨65536, 65537, some b⟩ : MAT Int).inv) := by
  refine ⟨rfl, by unfold MAT.inv; decide, List.replicate 65536 0, rfl,
    List.length_replicate _ _, ?_⟩
  unfold MAT.inv
  simp only [List.length_replicate]
  decide

/-- Claim C9, amended.  The representation invariant (the buffer has exactly
`nrow * ncol` elements and is absent only when `nrow = 0` or `ncol = 0`) holds for every
matrix returned by `new_MAT` (whose buffer is then all zeros) and by `identity_MAT` when
the element count `nrow * ncol` is a value of type `int`, for every matrix returned by
`copy_MAT` of a matrix that satisfies the invariant with an element count of type `int`,
and for every matrix returned by `vectranspose` of a well-formed matrix; it is preserved
by `scale_MAT`, `symmeteriseL2U` and `reshape_MAT`.  `trim_MAT` leaves the buffer at its
size: after a trim to `mrow × mcol` the buffer holds at least `mrow * mcol` elements and
is absent only when `mrow = 0` or `mcol = 0`. -/
theorem representation_invariant [Zero α] [One α] [Mul α] (M : MAT α) (hM : M.inv)
    (nrow ncol mrow mcol : Int) (p : Nat) (f : α) (fw : Bool) :
    (inInt (nrow * ncol) → ∀ m, new_MAT nrow ncol = .ok (some m) →
      m.inv ∧ ∀ b, m.x = some b → ∀ v ∈ b, v = (0 : α)) ∧
    (inInt (M.nrow * M.ncol) → ∀ m s, copy_MAT M = .ret (some m) s → m.inv) ∧
    (inInt (nrow * nrow) → ∀ m : MAT α, identity_MAT nrow = .ok (some m) → m.inv) ∧
    (∀ R C : Nat, M.hasShape R C → ∀ V s, vectranspose M p = .ret (some V) s → V.inv) ∧
    (∀ r s, scale_MAT M f = .ret r s → s.inv) ∧
    (∀ r s, symmeteriseL2U M = .ret r s → s.inv) ∧
    (∀ r s, reshape_MAT M nrow = .ret r s → s.inv) ∧
    (∀ r s, trim_MAT M mrow mcol fw = .ret r s →
      s.roomy ∧ s.x.map List.length = M.x.map List.length ∧
        (r = .self → s.nrow = mrow ∧ s.ncol = mcol)) :=
  ⟨fun hfit _ h => ⟨(new_MAT_inv hfit h).1, (new_MAT_inv hfit h).2.2.2⟩,
   fun hfit _ _ h => copy_MAT_inv hfit h,
   fun hfit _ h => identity_MAT_inv hfit h,
   fun _ _ hS _ _ h => vectranspose_inv hS h,
   fun _ _ h => inv_of_sameFrame (scale_MAT_frame h) hM,
   fun _ _ h => inv_of_sameFrame (symmeteriseL2U_frame h) hM,
   fun _ _ h => reshape_MAT_inv hM h,
   fun _ _ h => trim_MAT_roomy hM h⟩

/-- Witness for `representation_invariant`: the routines run on a 2 × 2 matrix. -/
theorem representation_invariant_witness :
    (⟨2, 2, some [0, 0, 0, 0]⟩ : MAT Int).inv ∧
    (⟨2, 2, some [1, 2, 3, 4]⟩ : MAT Int).inv ∧
    (⟨2, 2, some [1, 0, 0, 1]⟩ : MAT Int).inv ∧
    (⟨4, 1, some [1, 2, 3, 4]⟩ : MAT Int).inv ∧
    (⟨2, 2, some [3, 6, 9, 12]⟩ : MAT Int).inv ∧
    (⟨2, 2, some [1, 2, 2, 4]⟩ : MAT Int).inv ∧
    (⟨4, 1, some [1, 2, 3, 4]⟩ : MAT Int).inv ∧
    (⟨1, 1, some [1, 2, 3, 4]⟩ : MAT Int).roomy :=
  have hM : (⟨2, 2, some [1, 2, 3, 4]⟩ : MAT Int).inv := by unfold MAT.inv; decide
  have h := representation_invariant (⟨2, 2, some [1, 2, 3, 4]⟩ : MAT Int) hM 2 2 1 1 2 3 true
  have h4 := representation_invariant (⟨2, 2, some [1, 2, 3, 4]⟩ : MAT Int) hM 4 2 1 1 2 3 true
  ⟨(h.1 ⟨by decide, by decide⟩ _ rfl).1,
   h.2.1 ⟨by decide, by decide⟩ _ ⟨2, 2, some [1, 2, 3, 4]⟩ (by decide),
   h.2.2.1 ⟨by decide, by decide⟩ _ rfl,
   h.2.2.2.1 2 2 ⟨rfl, rfl, by decide, by decide, by decide, rfl⟩ _
     ⟨2, 2, some [1, 2, 3, 4]⟩ (by decide),
   h.2.2.2.2.1 .self _ (by decide),
   h.2.2.2.2.2.1 .self _ (by decide),
   h4.2.2.2.2.2.2.1 .self _ (by decide),
   (h.2.2.2.2.2.2.2 .self _ (by decide)).1⟩
/-! ## Claim C10 -/

/-- Claim C10 fails on the code.  The brightness of end 2 is the value that `rweibull`
returns at main.c:455, not the `lambda2` of the copula block: whatever the absent
library computes, a read is processed in the same way for every correlation; and with
the trace engine, correlation 1 and a passing read, end 1 is simulated with brightness
0 (which is also the copula's `lambda2`) and end 2 with brightness 105. -/
theorem end2_brightness_not_from_copula :
    (∀ (R G : Type) [Add R] [Sub R] [Mul R] [NatCast R] (E : Engine R G) (simopt : SIMOPT R)
        (model : MODEL R) (fpout : Bool) (seq : SEQ) (st : LoopState R G) (c : R),
      processRead E { simopt with corr := c } model fpout seq st
        = processRead E simopt model fpout seq st) ∧
    traceOptions.corr = 1 ∧
    traceEngine.qweibull (traceEngine.pstdnorm
        (1 * (traceEngine.rstdnorm 0).1 + traceEngine.sqrt (1 - 1 * 1)
          * (traceEngine.rstdnorm (traceEngine.rstdnorm 0).2).1) false false)
        traceOptions.shape traceOptions.scale false false = 0 ∧
    processRead traceEngine traceOptions traceModel false ⟨"read", [NUC.A]⟩ (initialState 0 1)
      = .ret ()
          { gen := 7,
            intensities := some ⟨1, 1, some [105]⟩,
            loglike := some ⟨1, 1, some [105]⟩,
            calls := some [NUC.A],
            seq_count := 1,
            unfiltered_count := 1,
            error := [0],
            error2 := [0],
            out := [Out.coords 1 1 0 0, Out.matrix (some ⟨1, 1, some [0]⟩),
                    Out.matrix (some ⟨1, 1, some [105]⟩), Out.newline],
            fout := [] } := by
  refine ⟨?_, rfl, by decide, by decide⟩
  intro R G _ _ _ _ E simopt model fpout seq st c
  rfl
/-! ## The read loop in stages -/

/-- The body of the read loop, written with the stages `end1` and `end2`. -/
theorem processRead_stages [Add R] [Sub R] [Mul R] [NatCast R] (E : Engine R G)
    (simopt : SIMOPT R) (model : MODEL R) (fpout : Bool) (seq : SEQ) (st : LoopState R G) :
    processRead E simopt model fpout seq st =
      if seq.length < model.ncycle then .ret () st
      else
        if (end1 E simopt model seq st).impure ≤ simopt.purity_max then
          match forLoop (tallyStep (end1 E simopt model seq st).calls seq.seq) 0 model.ncycle
              st.error with
          | .fault f _ => .fault f st
          | .ret _ error =>
            if model.paired then
              match forLoop (tallyStep (end2 E simopt model seq (end1 E simopt model seq st)).calls
                  (end2 E simopt model seq (end1 E simopt model seq st)).rcseq) 0 model.ncycle
                  st.error2 with
              | .fault f _ => .fault f st
              | .ret _ error2 =>
                .ret ()
                  { gen := (end2 E simopt model seq (end1 E simopt model seq st)).gen,
                    intensities :=
                      (end2 E simopt model seq (end1 E simopt model seq st)).intensities,
                    loglike := (end2 E simopt model seq (end1 E simopt model seq st)).loglike,
                    calls := (end2 E simopt model seq (end1 E simopt model seq st)).calls,
                    seq_count := u32 (st.seq_count + 1),
                    unfiltered_count := u32 (st.unfiltered_count + 1),
                    error := error, error2 := error2,
                    out := st.out ++ [.coords model.lane model.tile
                        (end1 E simopt model seq st).cx (end1 E simopt model seq st).cy]
                      ++ [.matrix (end1 E simopt model seq st).loglike]
                      ++ [.matrix (end2 E simopt model seq (end1 E simopt model seq st)).loglike]
                      ++ [.newline],
                    fout :=
                      if fpout then
                        st.fout ++ [.coords model.lane model.tile (end1 E simopt model seq st).cx
                            (end1 E simopt model seq st).cy,
                          .matrix (end1 E simopt model seq st).intensities]
                          ++ [.matrix
                            (end2 E simopt model seq (end1 E simopt model seq st)).intensities]
                          ++ [.newline]
                      else st.fout }
            else
              .ret ()
                { gen := (end1 E simopt model seq st).gen,
                  intensities := (end1 E simopt model seq st).intensities,
                  loglike := (end1 E simopt model seq st).loglike,
                  calls := (end1 E simopt model seq st).calls,
                  seq_count := u32 (st.seq_count + 1),
                  unfiltered_count := u32 (st.unfiltered_count + 1),
                  error := error, error2 := st.error2,
                  out := st.out ++ [.coords model.lane model.tile
                      (end1 E simopt model seq st).cx (end1 E simopt model seq st).cy]
                    ++ [.matrix (end1 E simopt model seq st).loglike] ++ [.newline],
                  fout :=
                    if fpout then
                      st.fout ++ [.coords model.lane model.tile (end1 E simopt model seq st).cx
                          (end1 E simopt model seq st).cy,
                        .matrix (end1 E simopt model seq st).intensities] ++ [.newline]
                    else st.fout }
        else
          .ret ()
            { gen := (end1 E simopt model seq st).gen,
              intensities := (end1 E simopt model seq st).intensities,
              loglike := (end1 E simopt model seq st).loglike,
              calls := st.calls,
              seq_count := u32 (st.seq_count + 1),
              unfiltered_count := st.unfiltered_count,
              error := st.error, error2 := st.error2,
              out := st.out ++ [.coords model.lane model.tile
                  (end1 E simopt model seq st).cx (end1 E simopt model seq st).cy] ++ [.newline],
              fout :=
                if fpout then
                  st.fout ++ [.coords model.lane model.tile (end1 E simopt model seq st).cx
                      (end1 E simopt model seq st).cy,
                    .matrix (end1 E simopt model seq st).intensities] ++ [.newline]
                else st.fout } := by
  cases fpout <;> rfl
/-! ## Claim C11 -/

/-- Claim C11.  The copula block of `main` draws `x` and then `z` from the generator
and computes `y = corr*x + sqrt(1 - corr*corr)*z`, `px = pstdnorm(x)`, `py = pstdnorm(y)`,
`lambda1 = qweibull(px, shape, scale)` and `lambda2 = qweibull(py, shape, scale)`, for
every configuration.  With `real_t` arithmetic taken as exact (a ring in which
`sqrt 0 = 0`), when the configured correlation is 1 this is
`y = 1*x + sqrt(1 - 1*1)*z = x` for all draws `x` and `z`, hence `px = py` and
`lambda1 = lambda2`, for every shape and scale. -/
theorem copula_full_correlation {R G : Type} [Ring R] (E : Engine R G) (simopt : SIMOPT R)
    (g : G) :
    ((copulaBlock E simopt g).x = (E.rstdnorm g).1 ∧
     (copulaBlock E simopt g).y
       = simopt.corr * (E.rstdnorm g).1
         + E.sqrt (((1 : Nat) : R) - simopt.corr * simopt.corr)
           * (E.rstdnorm (E.rstdnorm g).2).1 ∧
     (copulaBlock E simopt g).px = E.pstdnorm (copulaBlock E simopt g).x false false ∧
     (copulaBlock E simopt g).py = E.pstdnorm (copulaBlock E simopt g).y false false ∧
     (copulaBlock E simopt g).lambda1
       = E.qweibull (copulaBlock E simopt g).px simopt.shape simopt.scale false false ∧
     (copulaBlock E simopt g).lambda2
       = E.qweibull (copulaBlock E simopt g).py simopt.shape simopt.scale false false ∧
     (copulaBlock E simopt g).gen = (E.rstdnorm (E.rstdnorm g).2).2) ∧
    (simopt.corr = 1 → E.sqrt 0 = 0 →
      (copulaBlock E simopt g).y
        = 1 * (E.rstdnorm g).1
          + E.sqrt (1 - 1 * 1) * (E.rstdnorm (E.rstdnorm g).2).1 ∧
      (copulaBlock E simopt g).y = (copulaBlock E simopt g).x ∧
      (copulaBlock E simopt g).py = (copulaBlock E simopt g).px ∧
      (copulaBlock E simopt g).lambda2 = (copulaBlock E simopt g).lambda1 ∧
      (copulaBlock E simopt g).lambda1
        = E.qweibull (E.pstdnorm (E.rstdnorm g).1 false false) simopt.shape simopt.scale
            false false) := by
  refine ⟨⟨rfl, rfl, rfl, rfl, rfl, rfl, rfl⟩, fun hcorr hsqrt => ?_⟩
  have hy1 : (copulaBlock E simopt g).y
      = 1 * (E.rstdnorm g).1 + E.sqrt (1 - 1 * 1) * (E.rstdnorm (E.rstdnorm g).2).1 := by
    simp only [copulaBlock, hcorr, Nat.cast_one]
  have hy : (copulaBlock E simopt g).y = (copulaBlock E simopt g).x := by
    rw [hy1]
    simp only [one_mul, sub_self, hsqrt, zero_mul, add_zero]
    rfl
  have hpy : (copulaBlock E simopt g).py = (copulaBlock E simopt g).px := by
    show E.pstdnorm (copulaBlock E simopt g).y false false
      = E.pstdnorm (copulaBlock E simopt g).x false false
    rw [hy]
  refine ⟨hy1, hy, hpy, ?_, rfl⟩
  show E.qweibull (copulaBlock E simopt g).py simopt.shape simopt.scale false false
    = E.qweibull (copulaBlock E simopt g).px simopt.shape simopt.scale false false
  rw [hpy]

/-- Witness for `copula_full_correlation`: the trace engine with the default options,
whose first two draws are 0 and 1. -/
theorem copula_full_correlation_witness :
    (traceEngine.rstdnorm 0).1 = 0 ∧
    (traceEngine.rstdnorm (traceEngine.rstdnorm 0).2).1 = 1 ∧
    ((copulaBlock traceEngine traceOptions 0).y
        = 1 * (traceEngine.rstdnorm 0).1
          + traceEngine.sqrt (1 - 1 * 1)
            * (traceEngine.rstdnorm (traceEngine.rstdnorm 0).2).1 ∧
      (copulaBlock traceEngine traceOptions 0).y = (copulaBlock traceEngine traceOptions 0).x ∧
      (copulaBlock traceEngine traceOptions 0).py
        = (copulaBlock traceEngine traceOptions 0).px ∧
      (copulaBlock traceEngine traceOptions 0).lambda2
        = (copulaBlock traceEngine traceOptions 0).lambda1 ∧
      (copulaBlock traceEngine traceOptions 0).lambda1
        = traceEngine.qweibull (traceEngine.pstdnorm (traceEngine.rstdnorm 0).1 false false)
            traceOptions.shape traceOptions.scale false false) :=
  ⟨rfl, rfl, (copula_full_correlation traceEngine traceOptions 0).2 rfl rfl⟩
/-! ## Claim C13 -/

theorem readLoop_append [Add R] [Sub R] [Mul R] [NatCast R] (E : Engine R G)
    (simopt : SIMOPT R) (model : MODEL R) (fpout : Bool) (pre post : List SEQ)
    (st : LoopState R G) :
    readLoop E simopt model fpout (pre ++ post) st =
      match readLoop E simopt model fpout pre st with
      | .ret _ st1 => readLoop E simopt model fpout post st1
      | .fault f st1 => .fault f st1 := by
  induction pre generalizing st with
  | nil => rfl
  | cons s rest ih =>
    simp only [List.cons_append, readLoop]
    cases processRead E simopt model fpout s st with
    | ret v st1 => exact ih st1
    | fault f st1 => rfl

/-- Claim C13.  A sequence shorter than the cycle count leaves the whole loop state as
it is (the tallies, both counters, the generator and everything written so far), and a
run over sequences that contain it ends as the run over the same sequences without it. -/
theorem short_sequence_skipped [Add R] [Sub R] [Mul R] [NatCast R] (E : Engine R G)
    (simopt : SIMOPT R) (model : MODEL R) (fpout : Bool) (seq : SEQ)
    (hshort : seq.length < model.ncycle) :
    (∀ st : LoopState R G, processRead E simopt model fpout seq st = .ret () st) ∧
    (∀ (pre post : List SEQ) (st : LoopState R G),
      readLoop E simopt model fpout (pre ++ seq :: post) st
        = readLoop E simopt model fpout (pre ++ post) st) := by
  have h1 : ∀ st : LoopState R G, processRead E simopt model fpout seq st = .ret () st := by
    intro st
    rw [processRead_stages, if_pos hshort]
  refine ⟨h1, fun pre post st => ?_⟩
  rw [readLoop_append, readLoop_append]
  cases readLoop E simopt model fpout pre st with
  | ret v st1 => simp only [readLoop, h1]
  | fault f st1 => rfl

/-- Witness for `short_sequence_skipped`: the empty sequence against a model of one
cycle. -/
theorem short_sequence_skipped_witness :
    (∀ st : LoopState Int Nat,
      processRead traceEngine traceOptions traceModel false ⟨"short", []⟩ st = .ret () st) ∧
    (∀ (pre post : List SEQ) (st : LoopState Int Nat),
      readLoop traceEngine traceOptions traceModel false (pre ++ ⟨"short", []⟩ :: post) st
        = readLoop traceEngine traceOptions traceModel false (pre ++ post) st) :=
  short_sequence_skipped traceEngine traceOptions traceModel false ⟨"short", []⟩ (by decide)
/-! ## Claim C12 -/

/-- Partial-correctness rule for `forLoop` with an invariant that depends on the
iteration count. -/
theorem forLoop_preserves_idx {σ : Type} (I : Nat → σ → Prop) (body : Nat → σ → Outcome σ Unit)
    (lo : Nat) (hbody : ∀ k s t, I k s → body (lo + k) s = .ret () t → I (k + 1) t) :
    ∀ n s t, I 0 s → forLoop body lo n s = .ret () t → I n t := by
  intro n
  induction n with
  | zero =>
    intro s t hs h
    simp only [forLoop, Outcome.ret.injEq, true_and] at h
    rw [← h]; exact hs
  | succ k ih =>
    intro s t hs h
    simp only [forLoop] at h
    cases hk : forLoop body lo k s with
    | ret v s1 =>
      rw [hk] at h
      exact hbody k s1 t (ih s s1 hs hk) h
    | fault f s1 => rw [hk] at h; cases h

theorem tallyStep_ret {calls : Option (List NUC)} {truth : List NUC} {k : Nat}
    {s t : List Nat} (h : tallyStep calls truth k s = .ret () t) :
    ∃ cs c tr e, calls = some cs ∧ cs[k]? = some c ∧ truth[k]? = some tr ∧ s[k]? = some e ∧
      t = if c ≠ tr then s.set k (u32 (e + 1)) else s := by
  unfold tallyStep at h
  cases calls with
  | none => cases h
  | some cs =>
    simp only at h
    cases hc : cs[k]? with
    | none => rw [hc] at h; cases h
    | some c =>
      cases ht : truth[k]? with
      | none => rw [hc, ht] at h; cases h
      | some tr =>
        cases he : s[k]? with
        | none => rw [hc, ht, he] at h; cases h
        | some e =>
          rw [hc, ht, he] at h
          simp only at h
          refine ⟨cs, c, tr, e, rfl, hc, by first | exact ht | rfl, by first | exact he | rfl, ?_⟩
          by_cases hne : c ≠ tr
          · rw [if_pos hne] at h ⊢
            simp only [Outcome.ret.injEq, true_and] at h
            exact h.symm
          · rw [if_neg hne] at h ⊢
            simp only [Outcome.ret.injEq, true_and] at h
            exact h.symm

/-- What a tally loop that returns has done. -/
theorem tally_loop_tallied {calls : Option (List NUC)} {truth : List NUC} {n : Nat}
    {old new : List Nat} (h : forLoop (tallyStep calls truth) 0 n old = .ret () new) :
    tallied calls truth n old new := by
  refine forLoop_preserves_idx (fun k s => tallied calls truth k old s) _ 0 ?_ n old new
    ⟨rfl, fun i => by simp⟩ h
  intro k s t hI hstep
  rw [Nat.zero_add] at hstep
  obtain ⟨cs, c, tr, e, hcalls, hc, htr, he, ht⟩ := tallyStep_ret hstep
  obtain ⟨hlen, hel⟩ := hI
  have hold : old[k]? = some e := by
    have := hel k
    rw [if_neg (Nat.lt_irrefl k), he] at this
    exact this.symm
  have hk : k < s.length := by
    rcases Nat.lt_or_ge k s.length with h1 | h1
    · exact h1
    · rw [List.getElem?_eq_none h1] at he; cases he
  have hbump : bump calls truth k e = if c ≠ tr then u32 (e + 1) else e := by
    unfold bump
    rw [hcalls]
    simp only [hc, htr]
  refine ⟨?_, fun i => ?_⟩
  · rw [ht]; split_ifs
    · rw [List.length_set]; exact hlen
    · exact hlen
  · by_cases hik : i = k
    · subst hik
      rw [if_pos (Nat.lt_succ_self i), hold, Option.map_some', hbump, ht]
      by_cases hne : c ≠ tr
      · rw [if_pos hne, if_pos hne]; exact List.getElem?_set_self hk
      · rw [if_neg hne, if_neg hne]; exact he
    · have hsi : t[i]? = s[i]? := by
        rw [ht]; split_ifs
        · exact List.getElem?_set_ne (Ne.symm hik)
        · rfl
      rw [hsi, hel i]
      by_cases hlt : i < k
      · rw [if_pos hlt, if_pos (by omega)]
      · rw [if_neg hlt, if_neg (by omega)]

/-- A tally loop returns when there is a call, a true base and a counter for every
cycle. -/
theorem tally_loop_returns {cs : List NUC} {truth : List NUC} {n : Nat} {old : List Nat}
    (hcs : n ≤ cs.length) (htruth : n ≤ truth.length) (hold : n ≤ old.length) :
    ∃ new, forLoop (tallyStep (some cs) truth) 0 n old = .ret () new := by
  obtain ⟨new, h, _⟩ := forLoop_inv (tallyStep (some cs) truth) 0
    (fun _ s => s.length = old.length) n old rfl (by
      intro k s hk hs
      rw [Nat.zero_add]
      unfold tallyStep
      simp only [List.getElem?_eq_getElem (by omega : k < cs.length),
        List.getElem?_eq_getElem (by omega : k < truth.length),
        List.getElem?_eq_getElem (by omega : k < s.length)]
      split_ifs
      · exact ⟨_, rfl, by rw [List.length_set]; exact hs⟩
      · exact ⟨_, rfl, hs⟩)
  exact ⟨new, h⟩

/-- Claim C12, amended.  For a read that is not skipped, with a call, a true base and a
counter for every cycle: if its impure-cycle count is at most `purity_max`, then after
the read `error[i]` is one more, modulo 2^32, for each cycle `i < ncycle` at which the
called base differs from `seq[i]` and is unchanged at every other cycle (exactly one more
while the counter is below 2^32 - 1), `error2` has been updated in the same way against
the reverse-complement sequence for a paired model and is unchanged otherwise, and
`unfiltered_count` is one more modulo 2^32; if its impure-cycle count exceeds
`purity_max`, then `error`, `error2` and `unfiltered_count` are unchanged. -/
theorem error_tally_per_read [Add R] [Sub R] [Mul R] [NatCast R] (E : Engine R G)
    (simopt : SIMOPT R) (model : MODEL R) (fpout : Bool) (seq : SEQ) (st : LoopState R G)
    (hlen : ¬ seq.length < model.ncycle)
    (herr : model.ncycle ≤ st.error.length)
    (hcalls : ∃ cs, (end1 E simopt model seq st).calls = some cs ∧ model.ncycle ≤ cs.length)
    (hend2 : model.paired = true →
      model.ncycle ≤ st.error2.length ∧
      model.ncycle ≤ (end2 E simopt model seq (end1 E simopt model seq st)).rcseq.length ∧
      ∃ cs, (end2 E simopt model seq (end1 E simopt model seq st)).calls = some cs ∧
        model.ncycle ≤ cs.length) :
    ∃ st1, processRead E simopt model fpout seq st = .ret () st1 ∧
      ((end1 E simopt model seq st).impure ≤ simopt.purity_max →
        tallied (end1 E simopt model seq st).calls seq.seq model.ncycle st.error st1.error ∧
        (∀ i e : Nat, st.error[i]? = some e → e < 4294967295 →
          st1.error[i]? = some e ∨ st1.error[i]? = some (e + 1)) ∧
        (model.paired = true →
          tallied (end2 E simopt model seq (end1 E simopt model seq st)).calls
            (end2 E simopt model seq (end1 E simopt model seq st)).rcseq model.ncycle
            st.error2 st1.error2) ∧
        (model.paired = false → st1.error2 = st.error2) ∧
        st1.unfiltered_count = u32 (st.unfiltered_count + 1) ∧
        (st.unfiltered_count < 4294967295 →
          st1.unfiltered_count = st.unfiltered_count + 1)) ∧
      (simopt.purity_max < (end1 E simopt model seq st).impure →
        st1.error = st.error ∧ st1.error2 = st.error2 ∧
        st1.unfiltered_count = st.unfiltered_count) := by
  obtain ⟨cs, hcs, hcsl⟩ := hcalls
  have hseq : model.ncycle ≤ seq.seq.length := by
    have : seq.length = seq.seq.length := rfl
    omega
  rw [processRead_stages, if_neg hlen]
  by_cases hpass : (end1 E simopt model seq st).impure ≤ simopt.purity_max
  · rw [if_pos hpass]
    obtain ⟨error, herror⟩ := @tally_loop_returns cs seq.seq model.ncycle st.error hcsl hseq herr
    rw [← hcs] at herror
    have ht1 := tally_loop_tallied herror
    have hplus : ∀ i e : Nat, st.error[i]? = some e → e < 4294967295 →
        error[i]? = some e ∨ error[i]? = some (e + 1) := by
      intro i e he hlt
      rw [ht1.2 i, he]
      split_ifs
      · simp only [Option.map_some', Option.some.injEq]
        unfold bump
        split
        · left; rfl
        · split
          · split_ifs
            · right; exact u32_of_lt (by omega)
            · left; rfl
          · left; rfl
      · left; rfl
    rw [herror]
    cases hp : model.paired with
    | false =>
      simp only [Bool.false_eq_true, if_false]
      refine ⟨_, rfl, fun _ => ⟨ht1, hplus, (fun h => by cases h), (fun _ => rfl), rfl,
        (fun h => u32_of_lt (by omega))⟩, (fun h => by omega)⟩
    | true =>
      obtain ⟨herr2, hrc, cs2, hcs2, hcs2l⟩ := hend2 hp
      obtain ⟨error2, herror2⟩ := @tally_loop_returns cs2 _ model.ncycle st.error2 hcs2l hrc herr2
      rw [← hcs2] at herror2
      simp only [if_true, herror2]
      refine ⟨_, rfl, fun _ => ⟨ht1, hplus, (fun _ => tally_loop_tallied herror2),
        (fun h => by cases h), rfl, (fun h => u32_of_lt (by omega))⟩, (fun h => by omega)⟩
  · rw [if_neg hpass]
    exact ⟨_, rfl, fun h => absurd h hpass, fun _ => ⟨rfl, rfl, rfl⟩⟩

/-- Witness for `error_tally_per_read`: a miscalled read through the trace engine. -/
theorem error_tally_per_read_witness :
    ∃ st1, processRead traceEngine traceOptions traceModel false miscalledRead
        traceStart = .ret () st1 ∧
      ((end1 traceEngine traceOptions traceModel miscalledRead traceStart).impure
          ≤ traceOptions.purity_max →
        tallied (end1 traceEngine traceOptions traceModel miscalledRead traceStart).calls
          miscalledRead.seq traceModel.ncycle traceStart.error st1.error ∧
        (∀ i e : Nat, traceStart.error[i]? = some e → e < 4294967295 →
          st1.error[i]? = some e ∨ st1.error[i]? = some (e + 1)) ∧
        (traceModel.paired = true →
          tallied (end2 traceEngine traceOptions traceModel miscalledRead
              (end1 traceEngine traceOptions traceModel miscalledRead traceStart)).calls
            (end2 traceEngine traceOptions traceModel miscalledRead
              (end1 traceEngine traceOptions traceModel miscalledRead traceStart)).rcseq
            traceModel.ncycle traceStart.error2 st1.error2) ∧
        (traceModel.paired = false → st1.error2 = traceStart.error2) ∧
        st1.unfiltered_count = u32 (traceStart.unfiltered_count + 1) ∧
        (traceStart.unfiltered_count < 4294967295 →
          st1.unfiltered_count
            = traceStart.unfiltered_count + 1)) ∧
      (traceOptions.purity_max
          < (end1 traceEngine traceOptions traceModel miscalledRead traceStart).impure →
        st1.error = traceStart.error ∧
        st1.error2 = traceStart.error2 ∧
        st1.unfiltered_count = traceStart.unfiltered_count) :=
  error_tally_per_read traceEngine traceOptions traceModel false miscalledRead
    traceStart (by decide) (by decide) ⟨[NUC.A], rfl, by decide⟩
    (fun _ => ⟨by decide, by decide, [NUC.A], rfl, by decide⟩)

/-- One miscalled read through the trace engine bumps both tallies and both counters. -/
theorem trace_miscalled_read (st : LoopState Int Nat) (e e2 : Nat) (he : st.error = [e])
    (he2 : st.error2 = [e2]) :
    ∃ st1, processRead traceEngine traceOptions traceModel false miscalledRead st = .ret () st1 ∧
      st1.error = [u32 (e + 1)] ∧ st1.error2 = [u32 (e2 + 1)] ∧
      st1.unfiltered_count = u32 (st.unfiltered_count + 1) ∧
      st1.seq_count = u32 (st.seq_count + 1) := by
  have h1 : forLoop (tallyStep (some [NUC.A]) [NUC.C]) 0 1 [e] = .ret () [u32 (e + 1)] := by
    simp [forLoop, tallyStep]
  have h2 : forLoop (tallyStep (some [NUC.A]) [NUC.C]) 0 1 [e2] = .ret () [u32 (e2 + 1)] := by
    simp [forLoop, tallyStep]
  have hrun : processRead traceEngine traceOptions traceModel false miscalledRead st
      = (match forLoop (tallyStep (some [NUC.A]) [NUC.C]) 0 1 st.error with
        | .fault f _ => .fault f st
        | .ret _ error =>
          match forLoop (tallyStep (some [NUC.A]) [NUC.C]) 0 1 st.error2 with
          | .fault f _ => .fault f st
          | .ret _ error2 =>
            .ret () { gen := st.gen + 7,
                      intensities := some ⟨1, 1, some [100 + ((st.gen + 5 : Nat) : Int)]⟩,
                      loglike := some ⟨1, 1, some [100 + ((st.gen + 5 : Nat) : Int)]⟩,
                      calls := some [NUC.A],
                      seq_count := u32 (st.seq_count + 1),
                      unfiltered_count := u32 (st.unfiltered_count + 1),
                      error := error, error2 := error2,
                      out := st.out ++ [.coords 1 1 0 0]
                        ++ [.matrix (some ⟨1, 1, some [(st.gen : Int)]⟩)]
                        ++ [.matrix (some ⟨1, 1, some [100 + ((st.gen + 5 : Nat) : Int)]⟩)]
                        ++ [.newline],
                      fout := st.fout }) := rfl
  rw [hrun, he, he2, h1, h2]
  exact ⟨_, rfl, rfl, rfl, rfl, rfl⟩

/-- A run of the trace engine over `m` miscalled reads, from a state whose tallies and
counters all stand at `k`, ends with all of them at `k + m`, as long as that is below
2^32. -/
theorem trace_run_counts (m : Nat) : ∀ (k : Nat) (st : LoopState Int Nat),
    k + m < 4294967296 → st.error = [k] → st.error2 = [k] →
    st.unfiltered_count = k → st.seq_count = k →
    ∃ st1, readLoop traceEngine traceOptions traceModel false (List.replicate m miscalledRead) st
        = .ret () st1 ∧
      st1.error = [k + m] ∧ st1.error2 = [k + m] ∧ st1.unfiltered_count = k + m ∧
      st1.seq_count = k + m := by
  induction m with
  | zero => intro k st _ h1 h2 h3 h4; exact ⟨st, rfl, h1, h2, h3, h4⟩
  | succ m ih =>
    intro k st hk h1 h2 h3 h4
    obtain ⟨st1, hrun, g1, g2, g3, g4⟩ := trace_miscalled_read st k k h1 h2
    rw [h3] at g3
    rw [h4] at g4
    rw [u32_of_lt (by omega)] at g1 g2 g3 g4
    obtain ⟨st2, hrun2, f1, f2, f3, f4⟩ := ih (k + 1) st1 (by omega) g1 g2 g3 g4
    refine ⟨st2, ?_, ?_, ?_, ?_, ?_⟩
    · simp only [List.replicate_succ, readLoop, hrun]; exact hrun2
    · rw [f1]; congr 1; omega
    · rw [f2]; congr 1; omega
    · rw [f3]; omega
    · rw [f4]; omega

/-- Claim C12 as stated fails where a counter stands at 2^32 - 1: after 4294967295
miscalled reads that pass the filter, `error[0]` and `unfiltered_count` are 4294967295,
and the next miscalled read that passes the filter leaves both at 0. -/
theorem tally_counter_wraps :
    ∃ st st1 : LoopState Int Nat,
      readLoop traceEngine traceOptions traceModel false
        (List.replicate 4294967295 miscalledRead) traceStart = .ret () st ∧
      st.error = [4294967295] ∧ st.unfiltered_count = 4294967295 ∧
      (end1 traceEngine traceOptions traceModel miscalledRead st).impure
        ≤ traceOptions.purity_max ∧
      (end1 traceEngine traceOptions traceModel miscalledRead st).calls = some [NUC.A] ∧
      miscalledRead.seq = [NUC.C] ∧
      processRead traceEngine traceOptions traceModel false miscalledRead st = .ret () st1 ∧
      st1.error = [0] ∧ st1.unfiltered_count = 0 := by
  obtain ⟨st, hrun, h1, h2, h3, h4⟩ :=
    trace_run_counts 4294967295 0 traceStart (by decide) rfl rfl rfl rfl
  obtain ⟨st1, hrun1, g1, _, g3, _⟩ := trace_miscalled_read st _ _ h1 h2
  rw [h3] at g3
  refine ⟨st, st1, hrun, by rw [h1], by rw [h3], Nat.le_refl 0, rfl, rfl, hrun1, ?_, ?_⟩
  · rw [g1]; decide
  · rw [g3]; decide

/-! ## Claim C14 -/

/-- The Wilson score bounds over the reals, for any `z > 0`, `N > 0` and `0 ≤ p ≤ 1`. -/
theorem wilson_core (z p N : ℝ) (hz : 0 < z) (hN : 0 < N) (hp0 : 0 ≤ p) (hp1 : p ≤ 1) :
    0 ≤ p * (1 - p) / N + z * z / (4 * N * N) ∧
    0 ≤ (p + z * z / (2 * N) - z * Real.sqrt (p * (1 - p) / N + z * z / (4 * N * N)))
          / (1 + z * z / N) ∧
    (p + z * z / (2 * N) - z * Real.sqrt (p * (1 - p) / N + z * z / (4 * N * N)))
          / (1 + z * z / N) ≤ p ∧
    p ≤ (p + z * z / (2 * N) + z * Real.sqrt (p * (1 - p) / N + z * z / (4 * N * N)))
          / (1 + z * z / N) ∧
    (p + z * z / (2 * N) + z * Real.sqrt (p * (1 - p) / N + z * z / (4 * N * N)))
          / (1 + z * z / N) ≤ 1 ∧
    (0 < p → 0 < (p + z * z / (2 * N)
        - z * Real.sqrt (p * (1 - p) / N + z * z / (4 * N * N))) / (1 + z * z / N)) := by
  set a : ℝ := z * z / (2 * N) with ha
  set D : ℝ := p * (1 - p) / N + z * z / (4 * N * N) with hD
  have hNne : N ≠ 0 := ne_of_gt hN
  have hapos : 0 < a := by positivity
  have hq : 0 ≤ p * (1 - p) := mul_nonneg hp0 (by linarith)
  have hD0 : 0 ≤ D := by positivity
  have hden : 1 + z * z / N = 1 + 2 * a := by rw [ha]; field_simp; ring
  have hdenpos : 0 < 1 + 2 * a := by linarith
  have hzD : z ^ 2 * D = 2 * a * (p * (1 - p)) + a ^ 2 := by
    rw [ha, hD]; field_simp; ring
  have ht : z * Real.sqrt D = Real.sqrt (z ^ 2 * D) := by
    rw [Real.sqrt_mul (sq_nonneg z), Real.sqrt_sq hz.le]
  have ht0 : 0 ≤ Real.sqrt (z ^ 2 * D) := Real.sqrt_nonneg _
  -- the four comparisons of the square root
  have hA : Real.sqrt (z ^ 2 * D) ≤ p + a := by
    rw [Real.sqrt_le_left (by linarith)]
    rw [hzD]; nlinarith [mul_nonneg hapos.le (mul_nonneg hp0 hp0), sq_nonneg p]
  have hB : Real.sqrt (z ^ 2 * D) ≤ 1 - p + a := by
    rw [Real.sqrt_le_left (by linarith)]
    rw [hzD]
    nlinarith [mul_nonneg hapos.le (mul_nonneg (by linarith : 0 ≤ 1 - p) (by linarith : 0 ≤ 1 - p)),
      sq_nonneg (1 - p)]
  have hC : |a * (1 - 2 * p)| ≤ Real.sqrt (z ^ 2 * D) := by
    apply Real.abs_le_sqrt
    rw [hzD]
    nlinarith [mul_nonneg hapos.le hq, mul_nonneg (mul_nonneg hapos.le hapos.le) hq]
  have hC1 : a * (1 - 2 * p) ≤ Real.sqrt (z ^ 2 * D) := le_trans (le_abs_self _) hC
  have hC2 : a * (2 * p - 1) ≤ Real.sqrt (z ^ 2 * D) := by
    have := le_trans (neg_le_abs (a * (1 - 2 * p))) hC
    linarith
  rw [hden, ht]
  refine ⟨hD0, ?_, ?_, ?_, ?_, ?_⟩
  · exact div_nonneg (by linarith) hdenpos.le
  · rw [div_le_iff₀ hdenpos]; nlinarith
  · rw [le_div_iff₀ hdenpos]; nlinarith
  · rw [div_le_one hdenpos]; linarith
  · intro hp
    apply div_pos _ hdenpos
    have hlt : Real.sqrt (z ^ 2 * D) < p + a := by
      rw [Real.sqrt_lt' (by linarith)]
      rw [hzD]
      nlinarith [mul_pos hp hp, mul_pos hapos (mul_pos hp hp)]
    linarith

/-- The two interval functions of main.c, instantiated at the reals, are the closed
Wilson formulas. -/
theorem prop_bounds_formula (p : ℝ) (n : ℕ) :
    prop_lower Real.sqrt p n
        = (p + 1.959964 * 1.959964 / (2 * (n : ℝ))
            - 1.959964 * Real.sqrt (p * (1 - p) / (n : ℝ)
                + 1.959964 * 1.959964 / (4 * (n : ℝ) * (n : ℝ))))
          / (1 + 1.959964 * 1.959964 / (n : ℝ)) ∧
    prop_upper Real.sqrt p n
        = (p + 1.959964 * 1.959964 / (2 * (n : ℝ))
            + 1.959964 * Real.sqrt (p * (1 - p) / (n : ℝ)
                + 1.959964 * 1.959964 / (4 * (n : ℝ) * (n : ℝ))))
          / (1 + 1.959964 * 1.959964 / (n : ℝ)) := by
  have h4 : (4.0 : ℝ) = 4 := by norm_num
  have h2 : (2.0 : ℝ) = 2 := by norm_num
  have h1 : (1.0 : ℝ) = 1 := by norm_num
  constructor
  · simp only [prop_lower, Nat.cast_one, h4, h2, h1]
  · simp only [prop_upper, Nat.cast_one, h4, h2, h1]

/-- Phred scores decrease as the rate increases. -/
theorem phred_antitone (x y : ℝ) (hx : 0 < x) (hxy : x ≤ y) :
    phred (Real.logb 10) y ≤ phred (Real.logb 10) x := by
  have h := Real.logb_le_logb_of_le (by norm_num : (1 : ℝ) < 10) hx hxy
  have h10 : (10.0 : ℝ) = 10 := by norm_num
  simp only [phred, h10]
  linarith

/-- Claim C14: for `n ≥ 1` reads that passed the filter and a miscall count `0 ≤ k ≤ n`,
with rate `p = k/n`, `prop_lower` and `prop_upper` over the reals are the lower and
upper Wilson score bounds with `z = 1.959964`, they satisfy
`0 ≤ prop_lower ≤ p ≤ prop_upper ≤ 1`, and for `k ≥ 1` the three values printed by the
summary after the count satisfy `first ≤ score ≤ second`, where the score is
`-10 * log10 p`, the first printed bound is `phred (prop_upper p n)` and the second is
`phred (prop_lower p n)`. -/
theorem wilson_interval (n k : ℕ) (hn : 1 ≤ n) (hk : k ≤ n) :
    prop_lower Real.sqrt ((k : ℝ) / (n : ℝ)) n
        = ((k : ℝ) / (n : ℝ) + (1.959964 : ℝ) ^ 2 / (2 * (n : ℝ))
            - 1.959964 * Real.sqrt ((k : ℝ) / (n : ℝ) * (1 - (k : ℝ) / (n : ℝ)) / (n : ℝ)
                + (1.959964 : ℝ) ^ 2 / (4 * (n : ℝ) ^ 2)))
          / (1 + (1.959964 : ℝ) ^ 2 / (n : ℝ)) ∧
    prop_upper Real.sqrt ((k : ℝ) / (n : ℝ)) n
        = ((k : ℝ) / (n : ℝ) + (1.959964 : ℝ) ^ 2 / (2 * (n : ℝ))
            + 1.959964 * Real.sqrt ((k : ℝ) / (n : ℝ) * (1 - (k : ℝ) / (n : ℝ)) / (n : ℝ)
                + (1.959964 : ℝ) ^ 2 / (4 * (n : ℝ) ^ 2)))
          / (1 + (1.959964 : ℝ) ^ 2 / (n : ℝ)) ∧
    0 ≤ prop_lower Real.sqrt ((k : ℝ) / (n : ℝ)) n ∧
    prop_lower Real.sqrt ((k : ℝ) / (n : ℝ)) n ≤ (k : ℝ) / (n : ℝ) ∧
    (k : ℝ) / (n : ℝ) ≤ prop_upper Real.sqrt ((k : ℝ) / (n : ℝ)) n ∧
    prop_upper Real.sqrt ((k : ℝ) / (n : ℝ)) n ≤ 1 ∧
    (1 ≤ k →
      (summaryCell Real.sqrt (Real.logb 10) k n).score
          = -10 * Real.logb 10 ((k : ℝ) / (n : ℝ)) ∧
      (summaryCell Real.sqrt (Real.logb 10) k n).first
          = phred (Real.logb 10) (prop_upper Real.sqrt ((k : ℝ) / (n : ℝ)) n) ∧
      (summaryCell Real.sqrt (Real.logb 10) k n).second
          = phred (Real.logb 10) (prop_lower Real.sqrt ((k : ℝ) / (n : ℝ)) n) ∧
      (summaryCell Real.sqrt (Real.logb 10) k n).first
          ≤ (summaryCell Real.sqrt (Real.logb 10) k n).score ∧
      (summaryCell Real.sqrt (Real.logb 10) k n).score
          ≤ (summaryCell Real.sqrt (Real.logb 10) k n).second) := by
  have hN : (0 : ℝ) < (n : ℝ) := by exact_mod_cast hn
  have hp0 : (0 : ℝ) ≤ (k : ℝ) / (n : ℝ) := by positivity
  have hp1 : (k : ℝ) / (n : ℝ) ≤ 1 := by
    rw [div_le_one hN]; exact_mod_cast hk
  obtain ⟨hlo, hhi⟩ := prop_bounds_formula ((k : ℝ) / (n : ℝ)) n
  obtain ⟨_, c1, c2, c3, c4, c5⟩ :=
    wilson_core 1.959964 ((k : ℝ) / (n : ℝ)) (n : ℝ) (by norm_num) hN hp0 hp1
  rw [← hlo] at c1 c2 c5
  rw [← hhi] at c3 c4
  refine ⟨?_, ?_, c1, c2, c3, c4, ?_⟩
  · rw [hlo, pow_two, pow_two, mul_assoc 4]
  · rw [hhi, pow_two, pow_two, mul_assoc 4]
  · intro hk1
    have hp : (0 : ℝ) < (k : ℝ) / (n : ℝ) := by
      have : (0 : ℝ) < (k : ℝ) := by exact_mod_cast hk1
      positivity
    have h10 : (10.0 : ℝ) = 10 := by norm_num
    refine ⟨?_, rfl, rfl, ?_, ?_⟩
    · simp only [summaryCell, phred, h10]
    · exact phred_antitone _ _ hp c3
    · exact phred_antitone _ _ (c5 hp) c2

theorem wilson_interval_witness :
    1 ≤ 3 ∧ 1 ≤ 3 ∧
    prop_lower Real.sqrt (((1 : ℕ) : ℝ) / ((3 : ℕ) : ℝ)) 3
      ≤ ((1 : ℕ) : ℝ) / ((3 : ℕ) : ℝ) ∧
    (summaryCell Real.sqrt (Real.logb 10) 1 3).first
      ≤ (summaryCell Real.sqrt (Real.logb 10) 1 3).score :=
  ⟨by decide, by decide,
   (wilson_interval 3 1 (by decide) (by decide)).2.2.2.1,
   ((wilson_interval 3 1 (by decide) (by decide)).2.2.2.2.2.2 (by decide)).2.2.2.1⟩

/-! ## Claim C17 -/

theorem bump_le (calls : Option (List NUC)) (truth : List NUC) (i e : Nat) :
    bump calls truth i e ≤ e + 1 := by
  unfold bump
  cases calls with
  | none => exact Nat.le_succ e
  | some cs =>
    simp only
    cases cs[i]? with
    | none => exact Nat.le_succ e
    | some c =>
      cases truth[i]? with
      | none => exact Nat.le_succ e
      | some t =>
        simp only
        split_ifs
        · exact Nat.mod_le _ _
        · exact Nat.le_succ e

theorem tallied_bound {calls : Option (List NUC)} {truth : List NUC} {n : Nat}
    {old new : List Nat} {m : Nat} (h : tallied calls truth n old new)
    (hold : ∀ i e : Nat, old[i]? = some e → e ≤ m) :
    ∀ i e : Nat, new[i]? = some e → e ≤ m + 1 := by
  intro i e he
  have hi := h.2 i
  rw [he] at hi
  by_cases hlt : i < n
  · rw [if_pos hlt] at hi
    cases ho : old[i]? with
    | none => rw [ho] at hi; cases hi
    | some e0 =>
      rw [ho] at hi
      simp only [Option.map_some', Option.some.injEq] at hi
      have h1 := hold i e0 ho
      have h2 := bump_le calls truth i e0
      omega
  · rw [if_neg hlt] at hi
    have := hold i e hi.symm
    omega

/-- One read keeps the relation between the counters, as long as fewer than `2^32 - 1`
reads were counted before it. -/
theorem processRead_tallyInv [Add R] [Sub R] [Mul R] [NatCast R] (E : Engine R G)
    (simopt : SIMOPT R) (model : MODEL R) (fpout : Bool) (seq : SEQ) (st st1 : LoopState R G)
    (k : Nat) (hk : k < 4294967295) (hsc : st.seq_count ≤ k)
    (hinv : tallyInv model.ncycle st)
    (hrun : processRead E simopt model fpout seq st = .ret () st1) :
    st1.seq_count ≤ k + 1 ∧ tallyInv model.ncycle st1 := by
  obtain ⟨huc, hl1, hl2, he1, he2⟩ := hinv
  have hsc1 : u32 (st.seq_count + 1) = st.seq_count + 1 := u32_of_lt (by omega)
  have huc1 : u32 (st.unfiltered_count + 1) = st.unfiltered_count + 1 := u32_of_lt (by omega)
  rw [processRead_stages] at hrun
  by_cases hshort : seq.length < model.ncycle
  · rw [if_pos hshort] at hrun
    cases hrun
    exact ⟨by omega, huc, hl1, hl2, he1, he2⟩
  rw [if_neg hshort] at hrun
  by_cases hpass : (end1 E simopt model seq st).impure ≤ simopt.purity_max
  · rw [if_pos hpass] at hrun
    cases hf : forLoop (tallyStep (end1 E simopt model seq st).calls seq.seq) 0 model.ncycle
        st.error with
    | fault f s => rw [hf] at hrun; cases hrun
    | ret v error =>
      rw [hf] at hrun
      have ht := tally_loop_tallied hf
      have hb := tallied_bound ht he1
      cases hp : model.paired with
      | false =>
        simp only [hp, Bool.false_eq_true, if_false, Outcome.ret.injEq, true_and] at hrun
        rw [← hrun]
        refine ⟨?_, ?_, ?_, hl2, ?_, ?_⟩
        · show u32 (st.seq_count + 1) ≤ k + 1
          omega
        · show u32 (st.unfiltered_count + 1) ≤ u32 (st.seq_count + 1)
          omega
        · show error.length = model.ncycle
          rw [ht.1]; exact hl1
        · intro i e h
          show e ≤ u32 (st.unfiltered_count + 1)
          rw [huc1]; exact hb i e h
        · intro i e h
          show e ≤ u32 (st.unfiltered_count + 1)
          have := he2 i e h
          omega
      | true =>
        simp only [hp, if_true] at hrun
        cases hf2 : forLoop (tallyStep
            (end2 E simopt model seq (end1 E simopt model seq st)).calls
            (end2 E simopt model seq (end1 E simopt model seq st)).rcseq) 0 model.ncycle
            st.error2 with
        | fault f s => rw [hf2] at hrun; cases hrun
        | ret v2 error2 =>
          rw [hf2] at hrun
          have ht2 := tally_loop_tallied hf2
          have hb2 := tallied_bound ht2 he2
          simp only [Outcome.ret.injEq, true_and] at hrun
          rw [← hrun]
          refine ⟨?_, ?_, ?_, ?_, ?_, ?_⟩
          · show u32 (st.seq_count + 1) ≤ k + 1
            omega
          · show u32 (st.unfiltered_count + 1) ≤ u32 (st.seq_count + 1)
            omega
          · show error.length = model.ncycle
            rw [ht.1]; exact hl1
          · show error2.length = model.ncycle
            rw [ht2.1]; exact hl2
          · intro i e h
            show e ≤ u32 (st.unfiltered_count + 1)
            rw [huc1]; exact hb i e h
          · intro i e h
            show e ≤ u32 (st.unfiltered_count + 1)
            rw [huc1]; exact hb2 i e h
  · rw [if_neg hpass] at hrun
    simp only [Outcome.ret.injEq, true_and] at hrun
    rw [← hrun]
    refine ⟨?_, ?_, hl1, hl2, he1, he2⟩
    · show u32 (st.seq_count + 1) ≤ k + 1
      omega
    · show st.unfiltered_count ≤ u32 (st.seq_count + 1)
      omega

/-- The read loop keeps the relation between the counters while the number of reads
counted, plus those still to come, stays below `2^32`. -/
theorem readLoop_tallyInv [Add R] [Sub R] [Mul R] [NatCast R] (E : Engine R G)
    (simopt : SIMOPT R) (model : MODEL R) (fpout : Bool) :
    ∀ (seqs : List SEQ) (k : Nat) (st st1 : LoopState R G),
      k + seqs.length < 4294967296 → st.seq_count ≤ k → tallyInv model.ncycle st →
      readLoop E simopt model fpout seqs st = .ret () st1 →
      st1.seq_count ≤ k + seqs.length ∧ tallyInv model.ncycle st1 := by
  intro seqs
  induction seqs with
  | nil =>
    intro k st st1 _ hsc hinv hrun
    simp only [readLoop, Outcome.ret.injEq, true_and] at hrun
    rw [← hrun]
    exact ⟨hsc, hinv⟩
  | cons s rest ih =>
    intro k st st1 hk hsc hinv hrun
    simp only [List.length_cons] at hk ⊢
    simp only [readLoop] at hrun
    cases hp : processRead E simopt model fpout s st with
    | fault f s2 => rw [hp] at hrun; cases hrun
    | ret v s2 =>
      rw [hp] at hrun
      obtain ⟨h1, h2⟩ := processRead_tallyInv E simopt model fpout s st s2 k (by omega) hsc hinv hp
      obtain ⟨h3, h4⟩ := ih (k + 1) s2 st1 (by omega) h1 h2 hrun
      exact ⟨by omega, h4⟩

/-- Claim C17: reachable-state invariant of the read loop.  Starting from all-zero
tallies and `unfiltered_count = 0`, after the read loop has processed any list of fewer
than `2^32` input reads, every cycle `i < ncycle` has counters `error[i]` and `error2[i]`
with `error[i] ≤ unfiltered_count ≤ seq_count` and `error2[i] ≤ unfiltered_count`; hence,
when `unfiltered_count ≥ 1`, every rate `error[i]/unfiltered_count` that the summary
computes lies in `[0, 1]` over the reals and the quantity `p(1-p)/n + z^2/(4n^2)` under the
square root of `prop_upper` and `prop_lower` is non-negative. -/
theorem tally_invariant [Add R] [Sub R] [Mul R] [NatCast R] (E : Engine R G)
    (simopt : SIMOPT R) (model : MODEL R) (fpout : Bool) (g : G) (seqs : List SEQ)
    (st : LoopState R G) (hlen : seqs.length < 4294967296)
    (hrun : readLoop E simopt model fpout seqs (initialState g model.ncycle) = .ret () st) :
    st.unfiltered_count ≤ st.seq_count ∧ st.seq_count ≤ seqs.length ∧
    (∀ i : Nat, i < model.ncycle →
      ∃ e e2 : Nat, st.error[i]? = some e ∧ st.error2[i]? = some e2 ∧
        e ≤ st.unfiltered_count ∧ e2 ≤ st.unfiltered_count) ∧
    (1 ≤ st.unfiltered_count →
      ∀ i e : Nat, st.error[i]? = some e ∨ st.error2[i]? = some e →
        0 ≤ (summaryCell Real.sqrt (Real.logb 10) e st.unfiltered_count).rate ∧
        (summaryCell Real.sqrt (Real.logb 10) e st.unfiltered_count).rate ≤ 1 ∧
        0 ≤ (summaryCell Real.sqrt (Real.logb 10) e st.unfiltered_count).rate
              * (1 - (summaryCell Real.sqrt (Real.logb 10) e st.unfiltered_count).rate)
              / (st.unfiltered_count : ℝ)
            + 1.959964 * 1.959964
              / (4 * (st.unfiltered_count : ℝ) * (st.unfiltered_count : ℝ))) := by
  have hstart : tallyInv model.ncycle (initialState g model.ncycle : LoopState R G) := by
    refine ⟨Nat.le_refl _, List.length_replicate _ _, List.length_replicate _ _, ?_, ?_⟩
    · intro i e h
      have hm : e ∈ List.replicate model.ncycle 0 := List.mem_iff_getElem?.2 ⟨i, h⟩
      rw [List.eq_of_mem_replicate hm]
      exact Nat.zero_le _
    · intro i e h
      have hm : e ∈ List.replicate model.ncycle 0 := List.mem_iff_getElem?.2 ⟨i, h⟩
      rw [List.eq_of_mem_replicate hm]
      exact Nat.zero_le _
  obtain ⟨hsc, huc, hl1, hl2, he1, he2⟩ :=
    readLoop_tallyInv E simopt model fpout seqs 0 (initialState g model.ncycle) st
      (by omega) (Nat.le_refl _) hstart hrun
  refine ⟨huc, by omega, ?_, ?_⟩
  · intro i hi
    have h1 : i < st.error.length := by omega
    have h2 : i < st.error2.length := by omega
    exact ⟨st.error[i], st.error2[i], List.getElem?_eq_getElem h1, List.getElem?_eq_getElem h2,
      he1 i _ (List.getElem?_eq_getElem h1), he2 i _ (List.getElem?_eq_getElem h2)⟩
  · intro hpos i e h
    have hle : e ≤ st.unfiltered_count := by
      rcases h with h | h
      · exact he1 i e h
      · exact he2 i e h
    have hN : (0 : ℝ) < (st.unfiltered_count : ℝ) := by exact_mod_cast hpos
    have hp0 : (0 : ℝ) ≤ (e : ℝ) / (st.unfiltered_count : ℝ) := by positivity
    have hp1 : (e : ℝ) / (st.unfiltered_count : ℝ) ≤ 1 := by
      rw [div_le_one hN]; exact_mod_cast hle
    exact ⟨hp0, hp1, (wilson_core 1.959964 _ _ (by norm_num) hN hp0 hp1).1⟩

/-- Witness for `tally_invariant`: the trace run of one miscalled read. -/
theorem tally_invariant_witness :
    traceEnd.unfiltered_count ≤ traceEnd.seq_count ∧ traceEnd.seq_count ≤ 1 ∧
    (∀ i : Nat, i < traceModel.ncycle →
      ∃ e e2 : Nat, traceEnd.error[i]? = some e ∧ traceEnd.error2[i]? = some e2 ∧
        e ≤ traceEnd.unfiltered_count ∧ e2 ≤ traceEnd.unfiltered_count) :=
  ⟨(tally_invariant traceEngine traceOptions traceModel false 0 [miscalledRead] traceEnd
      (by decide) rfl).1,
   (tally_invariant traceEngine traceOptions traceModel false 0 [miscalledRead] traceEnd
      (by decide) rfl).2.1,
   (tally_invariant traceEngine traceOptions traceModel false 0 [miscalledRead] traceEnd
      (by decide) rfl).2.2.1⟩

/-! ## Claim C15 -/

theorem Fl.nan_add (x : Fl) : Fl.nan + x = Fl.nan := by cases x <;> rfl
theorem Fl.add_nan (x : Fl) : x + Fl.nan = Fl.nan := by cases x <;> rfl
theorem Fl.nan_sub (x : Fl) : Fl.nan - x = Fl.nan := by cases x <;> rfl
theorem Fl.sub_nan (x : Fl) : x - Fl.nan = Fl.nan := by cases x <;> rfl
theorem Fl.nan_mul (x : Fl) : Fl.nan * x = Fl.nan := by cases x <;> rfl
theorem Fl.mul_nan (x : Fl) : x * Fl.nan = Fl.nan := by cases x <;> rfl
theorem Fl.nan_div (x : Fl) : Fl.nan / x = Fl.nan := by cases x <;> rfl
theorem Fl.div_nan (x : Fl) : x / Fl.nan = Fl.nan := by cases x <;> rfl
theorem Fl.zero_div_zero : ((0 : Nat) : Fl) / ((0 : Nat) : Fl) = Fl.nan := by
  show Fl.div (Fl.fin ((0 : Nat) : ℚ)) (Fl.fin ((0 : Nat) : ℚ)) = Fl.nan
  simp [Fl.div]

/-- With no read counted and a zero tally counter, every value of the summary cell is
not-a-number. -/
theorem summaryCell_zero (sqrtQ log10Q : ℚ → ℚ) :
    summaryCell (Fl.sqrt sqrtQ) (Fl.log10 log10Q) 0 0 = nanCell := by
  simp only [summaryCell, phred, prop_upper, prop_lower, Fl.zero_div_zero, Fl.nan_add,
    Fl.add_nan, Fl.nan_sub, Fl.sub_nan, Fl.nan_mul, Fl.mul_nan, Fl.nan_div, Fl.div_nan, Fl.sqrt,
    Fl.log10, nanCell]

/-- The summary returns one line per cycle whenever both tallies hold at least `n`
counters, whatever the number of reads that passed the filter. -/
theorem summary_returns {R : Type} [Add R] [Sub R] [Mul R] [Div R] [Neg R] [NatCast R]
    [OfScientific R] (sqrt log10 : R → R) (paired : Bool) (error error2 : List Nat)
    (unfiltered_count n : Nat) (h1 : n ≤ error.length) (h2 : n ≤ error2.length) :
    ∃ lines, summary sqrt log10 paired n error error2 unfiltered_count = .ret () lines ∧
      lines.length = n ∧
      ∀ i : Nat, i < n → ∃ e e2 : Nat, error[i]? = some e ∧ error2[i]? = some e2 ∧
        lines[i]? = some { cycle := u32 (i + 1),
                           end1 := summaryCell sqrt log10 e unfiltered_count,
                           end2 := if paired then
                             some (summaryCell sqrt log10 e2 unfiltered_count) else none } := by
  unfold summary
  refine forLoop_inv (summaryStep sqrt log10 paired error error2 unfiltered_count) 0
    (fun k t => t.length = k ∧
      ∀ i : Nat, i < k → ∃ e e2 : Nat, error[i]? = some e ∧ error2[i]? = some e2 ∧
        t[i]? = some { cycle := u32 (i + 1),
                       end1 := summaryCell sqrt log10 e unfiltered_count,
                       end2 := if paired then
                         some (summaryCell sqrt log10 e2 unfiltered_count) else none })
    n [] ⟨rfl, fun i hi => absurd hi (Nat.not_lt_zero i)⟩ ?_
  intro k t hk ⟨hlen, hlines⟩
  rw [Nat.zero_add]
  have he : error[k]? = some error[k] := List.getElem?_eq_getElem (by omega)
  have he2 : error2[k]? = some error2[k] := List.getElem?_eq_getElem (by omega)
  have hstep : ∀ l : SummaryLine R,
      (t ++ [l]).length = k + 1 ∧ ∀ i : Nat, i < k + 1 →
        (i < k → (t ++ [l])[i]? = t[i]?) ∧ (i = k → (t ++ [l])[i]? = some l) := by
    intro l
    refine ⟨by rw [List.length_append, hlen]; rfl, fun i _ => ⟨fun hi => ?_, fun hi => ?_⟩⟩
    · exact List.getElem?_append_left (by omega)
    · rw [hi, List.getElem?_append_right (by omega), hlen, Nat.sub_self]; rfl
  unfold summaryStep
  rw [he]
  cases paired with
  | false =>
    simp only [Bool.false_eq_true, if_false]
    refine ⟨_, rfl, (hstep _).1, fun i hi => ?_⟩
    rcases Nat.lt_or_ge i k with hik | hik
    · obtain ⟨e, e2, g1, g2, g3⟩ := hlines i hik
      exact ⟨e, e2, g1, g2, by rw [((hstep _).2 i hi).1 hik]; exact g3⟩
    · have hik2 : i = k := by omega
      subst hik2
      exact ⟨_, _, he, he2, ((hstep _).2 _ hi).2 rfl⟩
  | true =>
    simp only [if_true]
    rw [he2]
    refine ⟨_, rfl, (hstep _).1, fun i hi => ?_⟩
    rcases Nat.lt_or_ge i k with hik | hik
    · obtain ⟨e, e2, g1, g2, g3⟩ := hlines i hik
      exact ⟨e, e2, g1, g2, by rw [((hstep _).2 i hi).1 hik]; exact g3⟩
    · have hik2 : i = k := by omega
      subst hik2
      exact ⟨_, _, he, he2, ((hstep _).2 _ hi).2 rfl⟩

/-- Claim C15: when the read loop ends with no read having passed the filter
(`unfiltered_count = 0`), the summary stage completes: with floating-point division in
the default non-trapping mode it returns one line for every cycle `i < ncycle` without
a fault, and in each of them the rate `error[i]/unfiltered_count = 0/0` is not-a-number,
as are the Phred score and both bounds computed from `prop_upper(e, 0)` and
`prop_lower(e, 0)`, for end 1 and, in a paired run, for end 2. -/
theorem summary_without_reads [Add R] [Sub R] [Mul R] [NatCast R] (E : Engine R G)
    (simopt : SIMOPT R) (model : MODEL R) (fpout : Bool) (g : G) (seqs : List SEQ)
    (st : LoopState R G) (sqrtQ log10Q : ℚ → ℚ) (hlen : seqs.length < 4294967296)
    (hrun : readLoop E simopt model fpout seqs (initialState g model.ncycle) = .ret () st)
    (hzero : st.unfiltered_count = 0) :
    ∃ lines, summary (Fl.sqrt sqrtQ) (Fl.log10 log10Q) simopt.paired model.ncycle
        st.error st.error2 st.unfiltered_count = .ret () lines ∧
      lines.length = model.ncycle ∧
      ∀ i : Nat, i < model.ncycle →
        st.error[i]? = some 0 ∧ st.error2[i]? = some 0 ∧
        lines[i]? = some { cycle := u32 (i + 1), end1 := nanCell,
                           end2 := if simopt.paired then some nanCell else none } := by
  have hstart : tallyInv model.ncycle (initialState g model.ncycle : LoopState R G) := by
    refine ⟨Nat.le_refl _, List.length_replicate _ _, List.length_replicate _ _, ?_, ?_⟩
    · intro i e h
      have hm : e ∈ List.replicate model.ncycle 0 := List.mem_iff_getElem?.2 ⟨i, h⟩
      rw [List.eq_of_mem_replicate hm]
      exact Nat.zero_le _
    · intro i e h
      have hm : e ∈ List.replicate model.ncycle 0 := List.mem_iff_getElem?.2 ⟨i, h⟩
      rw [List.eq_of_mem_replicate hm]
      exact Nat.zero_le _
  obtain ⟨_, _, hl1, hl2, he1, he2⟩ :=
    readLoop_tallyInv E simopt model fpout seqs 0 (initialState g model.ncycle) st
      (by omega) (Nat.le_refl _) hstart hrun
  obtain ⟨lines, hret, hlines, hcell⟩ :=
    summary_returns (Fl.sqrt sqrtQ) (Fl.log10 log10Q) simopt.paired st.error st.error2
      st.unfiltered_count model.ncycle (by omega) (by omega)
  refine ⟨lines, hret, hlines, fun i hi => ?_⟩
  obtain ⟨e, e2, g1, g2, g3⟩ := hcell i hi
  have z1 : e = 0 := by have := he1 i e g1; omega
  have z2 : e2 = 0 := by have := he2 i e2 g2; omega
  subst z1
  subst z2
  rw [hzero, summaryCell_zero] at g3
  exact ⟨g1, g2, g3⟩

/-- Witness for `summary_without_reads`: the trace run of no read at all. -/
theorem summary_without_reads_witness :
    ∃ lines, summary (Fl.sqrt id) (Fl.log10 id) traceOptions.paired traceModel.ncycle
        traceStart.error traceStart.error2 traceStart.unfiltered_count = .ret () lines ∧
      lines.length = traceModel.ncycle ∧
      ∀ i : Nat, i < traceModel.ncycle →
        traceStart.error[i]? = some 0 ∧ traceStart.error2[i]? = some 0 ∧
        lines[i]? = some { cycle := u32 (i + 1), end1 := nanCell,
                           end2 := if traceOptions.paired then some nanCell else none } :=
  summary_without_reads traceEngine traceOptions traceModel false 0 [] traceStart id id
    (by decide) rfl rfl

/-! ## Claim C16 -/

theorem fgetsAux_line (body rest : List Char) (hbody : lineFeed ∉ body) :
    ∀ room : Nat, body.length < room →
      fgetsAux room (body ++ lineFeed :: rest) = (body ++ [lineFeed], rest) := by
  induction body with
  | nil =>
    intro room h
    cases room with
    | zero => omega
    | succ r => simp [fgetsAux]
  | cons c cs ih =>
    intro room h
    cases room with
    | zero => omega
    | succ r =>
      simp only [List.mem_cons, not_or] at hbody
      simp only [List.length_cons] at h
      have hc : c ≠ lineFeed := fun e => hbody.1 e.symm
      show fgetsAux (r + 1) (c :: (cs ++ lineFeed :: rest)) = (c :: (cs ++ [lineFeed]), rest)
      simp only [fgetsAux, if_neg hc]
      rw [ih hbody.2 r (by omega)]

theorem fgetsAux_full (body rest : List Char) (hbody : lineFeed ∉ body) :
    fgetsAux body.length (body ++ rest) = (body, rest) := by
  induction body with
  | nil => simp [fgetsAux]
  | cons c cs ih =>
    simp only [List.mem_cons, not_or] at hbody
    have hc : c ≠ lineFeed := fun e => hbody.1 e.symm
    show fgetsAux (cs.length + 1) (c :: (cs ++ rest)) = (c :: cs, rest)
    simp only [fgetsAux, if_neg hc]
    rw [ih hbody.2]

theorem fgetsAux_length (room : Nat) : ∀ stream : List Char,
    (fgetsAux room stream).1.length + (fgetsAux room stream).2.length = stream.length ∧
    (0 < room → stream ≠ [] → (fgetsAux room stream).2.length < stream.length) := by
  induction room with
  | zero => intro stream; exact ⟨by simp [fgetsAux], fun h => absurd h (Nat.lt_irrefl 0)⟩
  | succ r ih =>
    intro stream
    cases stream with
    | nil => exact ⟨by simp [fgetsAux], fun _ h => absurd rfl h⟩
    | cons c cs =>
      by_cases hc : c = lineFeed
      · simp only [fgetsAux, if_pos hc, List.length_cons, List.length_nil]
        exact ⟨by omega, fun _ _ => by omega⟩
      · have := (ih cs).1
        simp only [fgetsAux, if_neg hc, List.length_cons]
        exact ⟨by omega, fun _ _ => by omega⟩

/-- The routing loop ends on every input: as many calls of `fgets` as the stream has
characters, and the one that meets the end of the stream, suffice. -/
theorem routeLoop_total : ∀ (fuel : Nat) (fastq : List Char) (st : Streams),
    fastq.length ≤ fuel → ∃ st1, routeLoop fuel fastq st = some st1 := by
  intro fuel
  induction fuel with
  | zero =>
    intro fastq st h
    cases fastq with
    | nil => exact ⟨st, rfl⟩
    | cons c cs => simp at h
  | succ k ih =>
    intro fastq st h
    cases fastq with
    | nil => exact ⟨st, rfl⟩
    | cons c cs =>
      simp only [routeLoop, fgets]
      have hlt := (fgetsAux_length (1024 - 1) (c :: cs)).2 (by decide) (by simp)
      exact ih _ _ (by simp only [List.length_cons] at h hlt; omega)

theorem deinterleave_total (fastq : List Char) : ∃ st, deinterleave fastq = some st :=
  routeLoop_total fastq.length fastq _ (Nat.le_refl _)

theorem routeLoop_more_fuel : ∀ (k j : Nat) (fastq : List Char) (st r : Streams),
    routeLoop k fastq st = some r → routeLoop (k + j) fastq st = some r := by
  intro k
  induction k with
  | zero =>
    intro j fastq st r h
    cases fastq with
    | nil =>
      cases j with
      | zero => exact h
      | succ j => exact h
    | cons c cs => simp [routeLoop, fgets] at h
  | succ k ih =>
    intro j fastq st r h
    rw [Nat.add_right_comm]
    cases fastq with
    | nil => exact h
    | cons c cs =>
      simp only [routeLoop, fgets] at h ⊢
      exact ih j _ _ _ h

/-- Any amount of fuel with which the loop ends gives the result of the run. -/
theorem deinterleave_of_fuel (k : Nat) (fastq : List Char) (r : Streams)
    (h : routeLoop k fastq { count := 0, f_fastq := [], r_fastq := [] } = some r) :
    deinterleave fastq = some r := by
  rcases Nat.le_total k fastq.length with hk | hk
  · obtain ⟨j, hj⟩ := Nat.exists_eq_add_of_le hk
    unfold deinterleave
    rw [hj]
    exact routeLoop_more_fuel k j fastq _ r h
  · obtain ⟨j, hj⟩ := Nat.exists_eq_add_of_le hk
    obtain ⟨r1, h1⟩ := deinterleave_total fastq
    have h2 := routeLoop_more_fuel fastq.length j fastq _ r1 h1
    rw [← hj, h] at h2
    rw [h1, ← Option.some.inj h2]

theorem fgets_nonempty (size : Nat) (stream : List Char) (h : stream ≠ []) :
    fgets size stream = some (fgetsAux (size - 1) stream) := by
  cases stream with
  | nil => exact absurd rfl h
  | cons c cs => rfl

theorem lineFeed_not_in_replicate (n : Nat) : lineFeed ∉ List.replicate n 'A' := by
  intro h
  have := List.eq_of_mem_replicate h
  revert this
  decide

theorem routeLines_four (a b c d : List Char) :
    routeLines 0 [a, b, c, d] ([], []) = ([a, b, c, d].flatten, []) := by
  simp [routeLines]

/-- The run on four lines of which the first has 1023 characters before its line
feed: the first line is read in two pieces, so the fourth line is the fifth buffer. -/
theorem long_line_run (body : List Char) (hlen : body.length = 1023)
    (hbody : lineFeed ∉ body) :
    deinterleave [body ++ [lineFeed], ['b', lineFeed], ['c', lineFeed], ['d', lineFeed]].flatten
      = some { count := 5,
               f_fastq := body ++ [lineFeed, 'b', lineFeed, 'c', lineFeed],
               r_fastq := ['d', lineFeed] } := by
  apply deinterleave_of_fuel 5
  have hin : [body ++ [lineFeed], ['b', lineFeed], ['c', lineFeed], ['d', lineFeed]].flatten
      = body ++ [lineFeed, 'b', lineFeed, 'c', lineFeed, 'd', lineFeed] := by
    simp
  have hne : body ++ [lineFeed, 'b', lineFeed, 'c', lineFeed, 'd', lineFeed] ≠ [] := by
    simp
  have h1 : fgets 1024 (body ++ [lineFeed, 'b', lineFeed, 'c', lineFeed, 'd', lineFeed])
      = some (body, [lineFeed, 'b', lineFeed, 'c', lineFeed, 'd', lineFeed]) := by
    have h := fgetsAux_full body [lineFeed, 'b', lineFeed, 'c', lineFeed, 'd', lineFeed] hbody
    rw [hlen] at h
    rw [fgets_nonempty _ _ hne]
    exact congrArg some h
  have h2 : fgets 1024 [lineFeed, 'b', lineFeed, 'c', lineFeed, 'd', lineFeed]
      = some ([lineFeed], ['b', lineFeed, 'c', lineFeed, 'd', lineFeed]) := by decide
  have h3 : fgets 1024 ['b', lineFeed, 'c', lineFeed, 'd', lineFeed]
      = some (['b', lineFeed], ['c', lineFeed, 'd', lineFeed]) := by decide
  have h4 : fgets 1024 ['c', lineFeed, 'd', lineFeed]
      = some (['c', lineFeed], ['d', lineFeed]) := by decide
  have h5 : fgets 1024 ['d', lineFeed] = some (['d', lineFeed], []) := by decide
  have h6 : fgets 1024 [] = none := rfl
  rw [hin]
  simp only [routeLoop, h1, h2, h3, h4, h5, h6]
  simp [routeBuffer]

theorem routeBuffer_line (l : List Char) (st : Streams) (k : Nat) (hc : st.count = k % 8) :
    (routeBuffer l st).count = (k + 1) % 8 ∧
    ((routeBuffer l st).f_fastq, (routeBuffer l st).r_fastq)
      = if k % 8 < 4 then (st.f_fastq ++ l, st.r_fastq) else (st.f_fastq, st.r_fastq ++ l) := by
  have hk : k % 8 < 8 := Nat.mod_lt _ (by decide)
  unfold routeBuffer
  by_cases h4 : k % 8 < 4
  · have h8 : ¬ st.count + 1 = 8 := by omega
    simp only [hc ▸ h4, if_true, if_neg h8, if_pos h4]
    exact ⟨by omega, trivial⟩
  · have h4c : ¬ st.count < 4 := by omega
    simp only [if_neg h4c, if_neg h4]
    by_cases h8 : st.count + 1 = 8
    · simp only [if_pos h8]
      exact ⟨by omega, trivial⟩
    · simp only [if_neg h8]
      exact ⟨by omega, trivial⟩

theorem routeLoop_short_lines : ∀ (lines : List (List Char)) (k : Nat) (st : Streams),
    (∀ l ∈ lines, isLine l ∧ l.length ≤ 1023) → st.count = k % 8 →
    ∃ st1, routeLoop lines.length lines.flatten st = some st1 ∧
      (st1.f_fastq, st1.r_fastq) = routeLines k lines (st.f_fastq, st.r_fastq) := by
  intro lines
  induction lines with
  | nil => intro k st _ _; exact ⟨st, rfl, rfl⟩
  | cons l ls ih =>
    intro k st hl hc
    obtain ⟨⟨body, hbl, hbody⟩, hlen⟩ := hl l (List.mem_cons_self _ _)
    have hlen1 : body.length < 1023 := by
      rw [hbl, List.length_append] at hlen
      simp only [List.length_singleton] at hlen
      omega
    have hflat : (l :: ls).flatten = body ++ lineFeed :: ls.flatten := by
      rw [List.flatten_cons, hbl, List.append_assoc]; rfl
    have hne : body ++ lineFeed :: ls.flatten ≠ [] := by simp
    have hget : fgets 1024 (body ++ lineFeed :: ls.flatten) = some (l, ls.flatten) := by
      rw [fgets_nonempty _ _ hne, hbl]
      exact congrArg some (fgetsAux_line body ls.flatten hbody 1023 hlen1)
    obtain ⟨hcount, hout⟩ := routeBuffer_line l st k hc
    obtain ⟨st1, hrun, hres⟩ := ih (k + 1) (routeBuffer l st)
      (fun m hm => hl m (List.mem_cons_of_mem _ hm)) hcount
    refine ⟨st1, ?_, ?_⟩
    · rw [hflat]
      simp only [List.length_cons, routeLoop, hget]
      exact hrun
    · rw [hres, hout]
      rfl

/-- When every line of the input, its line feed included, has at most 1023 characters,
deinterleave.c routes by lines as its header describes: line `k` goes to the forward file
if `k mod 8 < 4` and to the reverse file otherwise, unmodified and in input order. -/
theorem deinterleave_short_lines (lines : List (List Char))
    (hlines : ∀ l ∈ lines, isLine l ∧ l.length ≤ 1023) :
    ∃ st, deinterleave lines.flatten = some st ∧
      (st.f_fastq, st.r_fastq) = routeLines 0 lines ([], []) := by
  obtain ⟨st, hrun, hres⟩ := routeLoop_short_lines lines 0
    { count := 0, f_fastq := [], r_fastq := [] } hlines rfl
  exact ⟨st, deinterleave_of_fuel _ _ _ hrun, hres⟩

/-- Claim C16, the divergence: for the file of four lines whose first line has 1023
characters before its line feed, the header's routing by lines sends all four lines
(numbers 0 to 3) to the forward file and nothing to the reverse file, but the run of
deinterleave.c ends with line 3 in the reverse file: `fgets` returns the first line in
two pieces and each piece is counted as a line. -/
theorem deinterleave_long_line_misrouted :
    (∀ l ∈ longLineFile, isLine l) ∧
    routeLines 0 longLineFile ([], []) = (longLineFile.flatten, []) ∧
    deinterleave longLineFile.flatten
      = some { count := 5,
               f_fastq := List.replicate 1023 'A' ++ [lineFeed, 'b', lineFeed, 'c', lineFeed],
               r_fastq := ['d', lineFeed] } := by
  refine ⟨?_, routeLines_four _ _ _ _, ?_⟩
  · intro l hl
    unfold longLineFile at hl
    simp only [List.mem_cons, List.mem_singleton, List.not_mem_nil, or_false] at hl
    rcases hl with h | h | h | h
    · exact ⟨List.replicate 1023 'A', h, lineFeed_not_in_replicate 1023⟩
    · exact ⟨['b'], h, by decide⟩
    · exact ⟨['c'], h, by decide⟩
    · exact ⟨['d'], h, by decide⟩
  · exact long_line_run (List.replicate 1023 'A') (List.length_replicate _ _)
      (lineFeed_not_in_replicate 1023)

end SimNGS
